import Mathlib

/-!
# Image-size decoders of `imgsz`: BMP, TIFF and WebP headers

A shallow embedding of `bmp.go`, `tiff.go`, `tiffconsts.go`, `webp.go` and `init.go`.
The format registry that `init.go` fills is declared in a file that is not among the
sources; it is modelled from the specification.

* A byte is a `Fin 256`; a Go `io.Reader` is the list of bytes it has not yet
  delivered, and a Go `io.ReaderAt` is the whole byte sequence behind it.
* Go's `uint16`/`uint32` values are natural numbers; where the source can wrap
  around, the operation is written with an explicit `% 2 ^ 32`.
* Go's `int` is taken to be 64 bits wide and is modelled by `Int`.
* A Go result `(Size, error)` is an `Except Err Size`: every error return of the
  three decoders carries the zero `Size`.
-/

namespace Imgsz

/-! ## Common data -/

abbrev Byte := Fin 256

/-- The errors the decoders can return, one constructor per Go error value. -/
inductive Err where
  /-- `io.EOF` -/
  | EOF
  /-- `io.ErrUnexpectedEOF` -/
  | ErrUnexpectedEOF
  /-- `bmp.ErrUnsupported` -/
  | ErrUnsupported
  /-- `errors.New("bmp: invalid format")` in `decodebmp` -/
  | bmpInvalidFormat
  /-- `errInvalidFormat` of `webp.go` -/
  | errInvalidFormat
  | errMissingPaddingByte
  | errMissingRIFFChunkHeader
  | errListSubchunkTooLong
  | errShortChunkData
  | errShortChunkHeader
  | errStaleReader
  /-- `errors.New("vp8: invalid format")` in `decodeVP8FrameHeader` -/
  | vp8InvalidFormat
  /-- `errors.New("vp8l: invalid header")` in `decodeVP8LHeader` -/
  | vp8lInvalidHeader
  /-- `errors.New("vp8l: invalid version")` in `decodeVP8LHeader` -/
  | vp8lInvalidVersion
  /-- `errors.New("webp: invalid format")` created inside `readAlpha` -/
  | readAlphaInvalidFormat
  /-- An error reported by the external `vp8l.Decode`. -/
  | vp8lDecode (code : Nat)
  /-- `tiff.FormatError` -/
  | FormatError (msg : String)
  /-- `tiff.UnsupportedError` -/
  | UnsupportedError (msg : String)
  /-- The no-match error ("unknown format") of the format registry, whose file is not
  among the sources. -/
  | ErrFormat
deriving DecidableEq, Repr

deriving instance DecidableEq for Except

/-- The result of every decoder. -/
structure Size where
  Width : Int
  Height : Int
deriving DecidableEq, Repr

/-- The Go slice expression `b[i:j]`. -/
def slice {α : Type} (b : List α) (i j : Nat) : List α := (b.drop i).take (j - i)

/-- `io.ReadFull(r, buf[:n])` on a reader backed by a finite byte sequence: the
`n` bytes and the reader after them, `io.EOF` when `n > 0` bytes are wanted and
none is left, `io.ErrUnexpectedEOF` when some but fewer than `n` are left. -/
def ReadFull (r : List Byte) (n : Nat) : Except Err (List Byte) × List Byte :=
  if n ≤ r.length then (.ok (r.take n), r.drop n)
  else if r.length = 0 then (.error .EOF, [])
  else (.error .ErrUnexpectedEOF, [])

/-- The conversion `int(int32(u))` of a `uint32`. -/
def toInt32 (u : Nat) : Int :=
  if u % 2 ^ 32 < 2 ^ 31 then ((u % 2 ^ 32 : Nat) : Int) else ((u % 2 ^ 32 : Nat) : Int) - 2 ^ 32

/-! ## bmp.go -/

/-- `readUint16`: no shift leaves the 16 bits. -/
def readUint16 (b : List Byte) : Nat :=
  (b.getD 0 0).val ||| ((b.getD 1 0).val <<< 8)

/-- `readUint32`: no shift leaves the 32 bits. -/
def readUint32 (b : List Byte) : Nat :=
  (b.getD 0 0).val ||| ((b.getD 1 0).val <<< 8) ||| ((b.getD 2 0).val <<< 16) |||
    ((b.getD 3 0).val <<< 24)

/-- `color.RGBA` -/
structure RGBA where
  R : Byte
  G : Byte
  B : Byte
  A : Byte
deriving DecidableEq, Repr

def fileHeaderLen : Nat := 14
def infoHeaderLen : Nat := 40
def v4InfoHeaderLen : Nat := 108
def v5InfoHeaderLen : Nat := 124

/-- The palette loop of `decodebmp` (lines 98-103) on the array `b`: BMP images
are stored in BGR order, and every 4th byte is padding. -/
def bmpPalette (b : List Byte) (colorUsed : Nat) : List RGBA :=
  (List.range colorUsed).map fun i =>
    RGBA.mk (b.getD (4 * i + 2) 0) (b.getD (4 * i + 1) 0) (b.getD (4 * i + 0) 0) 0xFF

/-- The part of `decodebmp` after both header reads (lines 60-136): `b` is the
1024-byte array, `r` the reader after the DIB header. Besides the `Size` it
gives the palette `pcm` that the 8-bit branch builds and drops. -/
def decodebmpBody (b : List Byte) (offset infoLen : Nat) (r : List Byte) :
    Except Err (Size × List RGBA) :=
  let width := toInt32 (readUint32 (slice b 18 22))
  let height := toInt32 (readUint32 (slice b 22 26))
  let height := if height < 0 then -height else height
  if width < 0 ∨ height < 0 then .error .ErrUnsupported else
  let planes := readUint16 (slice b 26 28)
  let bpp := readUint16 (slice b 28 30)
  let compression := readUint32 (slice b 30 34)
  let compression :=
    if compression = 3 ∧ infoLen > infoHeaderLen ∧
        readUint32 (slice b 54 58) = 0xff0000 ∧ readUint32 (slice b 58 62) = 0xff00 ∧
        readUint32 (slice b 62 66) = 0xff ∧ readUint32 (slice b 66 70) = 0xff000000
    then 0 else compression
  if planes ≠ 1 ∨ compression ≠ 0 then .error .ErrUnsupported else
  if bpp = 8 then
    let colorUsed := readUint32 (slice b 46 50)
    if colorUsed ≠ 0 ∧ colorUsed > 256 then .error .ErrUnsupported else
    let colorUsed := if colorUsed = 0 then 256 else colorUsed
    if offset ≠ (fileHeaderLen + infoLen + colorUsed * 4) % 2 ^ 32 then .error .ErrUnsupported else
    match ReadFull r (colorUsed * 4) with
    | (.error e, _) => .error e
    | (.ok pal, _) =>
      let b := pal ++ b.drop (colorUsed * 4)
      let pcm := bmpPalette b colorUsed
      .ok (⟨width, height⟩, pcm)
  else if bpp = 24 then
    if offset ≠ (fileHeaderLen + infoLen) % 2 ^ 32 then .error .ErrUnsupported else
    .ok (⟨width, height⟩, [])
  else if bpp = 32 then
    if offset ≠ (fileHeaderLen + infoLen) % 2 ^ 32 then .error .ErrUnsupported else
    .ok (⟨width, height⟩, [])
  else .error .ErrUnsupported

/-- `decodebmp`, keeping the palette of the 8-bit branch next to the `Size`. -/
def decodebmpPalette (r : List Byte) : Except Err (Size × List RGBA) :=
  match ReadFull r (fileHeaderLen + 4) with
  | (.error e, _) => .error (if e = .EOF then .ErrUnexpectedEOF else e)
  | (.ok b0, r1) =>
    if slice b0 0 2 ≠ [0x42, 0x4d] then .error .bmpInvalidFormat else
    let offset := readUint32 (slice b0 10 14)
    let infoLen := readUint32 (slice b0 14 18)
    if infoLen ≠ infoHeaderLen ∧ infoLen ≠ v4InfoHeaderLen ∧ infoLen ≠ v5InfoHeaderLen then
      .error .ErrUnsupported
    else
    match ReadFull r1 (fileHeaderLen + infoLen - (fileHeaderLen + 4)) with
    | (.error e, _) => .error (if e = .EOF then .ErrUnexpectedEOF else e)
    | (.ok b1, r2) =>
      -- `var b [1024]byte`: what the two reads have not filled is zero
      let b := b0 ++ b1 ++ List.replicate (1024 - (fileHeaderLen + infoLen)) 0
      decodebmpBody b offset infoLen r2

/-- `decodebmp` -/
def decodebmp (r : List Byte) : Except Err Size :=
  (decodebmpPalette r).map Prod.fst

/-! ## tiffconsts.go -/

/-- `leHeader`, the bytes of "II\x2A\x00" -/
def leHeader : List Byte := [0x49, 0x49, 0x2A, 0x00]
/-- `beHeader`, the bytes of "MM\x00\x2A" -/
def beHeader : List Byte := [0x4D, 0x4D, 0x00, 0x2A]

def ifdLen : Nat := 12

def dtByte : Nat := 1
def dtASCII : Nat := 2
def dtShort : Nat := 3
def dtLong : Nat := 4
def dtRational : Nat := 5

def lengths : List Nat := [0, 1, 1, 2, 4, 8]

def tImageWidth : Nat := 256
def tImageLength : Nat := 257
def tBitsPerSample : Nat := 258
def tCompression : Nat := 259
def tPhotometricInterpretation : Nat := 262
def tFillOrder : Nat := 266
def tStripOffsets : Nat := 273
def tSamplesPerPixel : Nat := 277
def tRowsPerStrip : Nat := 278
def tStripByteCounts : Nat := 279
def tT4Options : Nat := 292
def tT6Options : Nat := 293
def tTileWidth : Nat := 322
def tTileLength : Nat := 323
def tTileOffsets : Nat := 324
def tTileByteCounts : Nat := 325
def tPredictor : Nat := 317
def tColorMap : Nat := 320
def tExtraSamples : Nat := 338
def tSampleFormat : Nat := 339

/-! ## tiff.go -/

def maxChunkSize : Nat := 10 <<< 20

def MaxInt32 : Nat := 2 ^ 31 - 1

/-- `binary.ByteOrder` of the Go standard library. -/
inductive ByteOrder where
  | LittleEndian
  | BigEndian
deriving DecidableEq, Repr

/-- `binary.ByteOrder.Uint16` -/
def ByteOrder.Uint16 : ByteOrder → List Byte → Nat
  | .LittleEndian, b => (b.getD 0 0).val + 2 ^ 8 * (b.getD 1 0).val
  | .BigEndian, b => (b.getD 1 0).val + 2 ^ 8 * (b.getD 0 0).val

/-- `binary.ByteOrder.Uint32` -/
def ByteOrder.Uint32 : ByteOrder → List Byte → Nat
  | .LittleEndian, b =>
    (b.getD 0 0).val + 2 ^ 8 * (b.getD 1 0).val + 2 ^ 16 * (b.getD 2 0).val +
      2 ^ 24 * (b.getD 3 0).val
  | .BigEndian, b =>
    (b.getD 3 0).val + 2 ^ 8 * (b.getD 2 0).val + 2 ^ 16 * (b.getD 1 0).val +
      2 ^ 24 * (b.getD 0 0).val

/-- Modelled from the spec: `newReaderAt`, whose file is not among the sources.
It turns the stream into a random-access source over the same bytes; the
source is modelled by the byte sequence itself. -/
def newReaderAt (r : List Byte) : List Byte := r

/-- Modelled from the spec: `ReadAt(buf[:n], off)` of the source that
`newReaderAt` returns, taken to behave like `bytes.Reader.ReadAt`: the `n` bytes
at offset `off` when the data holds them, `io.EOF` when `off` is at or past the
end or fewer than `n` bytes remain. -/
def ReadAt (data : List Byte) (n off : Nat) : Except Err (List Byte) :=
  if off ≥ data.length then .error .EOF
  else if off + n ≤ data.length then .ok (slice data off (off + n))
  else .error .EOF

/-- The loop of `safeReadAt` (lines 47-59). -/
def safeReadAtLoop (data : List Byte) (n off : Nat) (buf : List Byte) : Except Err (List Byte) :=
  if _h : n > 0 then
    let next := if n > maxChunkSize then maxChunkSize else n
    match ReadAt data next off with
    | .error e => .error e
    | .ok chunk => safeReadAtLoop data (n - next) (off + next) (buf ++ chunk)
  else .ok buf
termination_by n
decreasing_by
  simp only [maxChunkSize]
  split <;> omega

/-- `safeReadAt`; `n` is a `uint64`, and `int` has 64 bits. -/
def safeReadAt (data : List Byte) (n off : Nat) : Except Err (List Byte) :=
  if n ≥ 2 ^ 63 then .error .ErrUnexpectedEOF else
  if n < maxChunkSize then
    match ReadAt data n off with
    | .error e => if e ≠ .EOF ∨ n > 0 then .error e else .ok []
    | .ok buf => .ok buf
  else safeReadAtLoop data n off []

/-- `color.RGBA64` -/
structure RGBA64 where
  R : Nat
  G : Nat
  B : Nat
  A : Nat
deriving DecidableEq, Repr

/-- `tiffdecoder`. The map `features` is an association list whose first
binding of a tag is the current one. -/
structure tiffdecoder where
  r : List Byte
  byteOrder : ByteOrder
  config : Size
  features : List (Nat × List Nat)
  palette : List RGBA64
deriving DecidableEq, Repr

/-- `firstVal` -/
def tiffdecoder.firstVal (d : tiffdecoder) (tag : Nat) : Nat :=
  match d.features.lookup tag with
  | none => 0
  | some f => if f.length = 0 then 0 else f.getD 0 0

/-- `ifdUint` -/
def tiffdecoder.ifdUint (d : tiffdecoder) (p : List Byte) : Except Err (List Nat) :=
  if p.length < ifdLen then .error (.FormatError "bad IFD entry") else
  let datatype := d.byteOrder.Uint16 (slice p 2 4)
  if datatype ≤ 0 ∨ datatype ≥ lengths.length then
    .error (.UnsupportedError "IFD entry datatype")
  else
  let count := d.byteOrder.Uint32 (slice p 4 8)
  if count > MaxInt32 / lengths.getD datatype 0 then .error (.FormatError "IFD data too large")
  else
  let datalen := (lengths.getD datatype 0 * count) % 2 ^ 32
  let raw :=
    if datalen > 4 then
      -- The IFD contains a pointer to the real value.
      safeReadAt d.r datalen (d.byteOrder.Uint32 (slice p 8 12))
    else .ok (slice p 8 (8 + datalen))
  match raw with
  | .error e => .error e
  | .ok raw =>
    if datatype = dtByte then
      .ok ((List.range count).map fun i => (raw.getD i 0).val)
    else if datatype = dtShort then
      .ok ((List.range count).map fun i => d.byteOrder.Uint16 (slice raw (2 * i) (2 * (i + 1))))
    else if datatype = dtLong then
      .ok ((List.range count).map fun i => d.byteOrder.Uint32 (slice raw (4 * i) (4 * (i + 1))))
    else .error (.UnsupportedError "data type")

/-- The tags of the first `case` of `parseIFD`, whose values are kept. -/
def retainedTags : List Nat :=
  [tBitsPerSample, tExtraSamples, tPhotometricInterpretation, tCompression, tPredictor,
   tStripOffsets, tStripByteCounts, tRowsPerStrip, tTileWidth, tTileLength, tTileOffsets,
   tTileByteCounts, tImageLength, tImageWidth, tFillOrder, tT4Options, tT6Options]

/-- `parseIFD`: the tag of the entry and the decoder after it. -/
def tiffdecoder.parseIFD (d : tiffdecoder) (p : List Byte) : Except Err (Nat × tiffdecoder) :=
  let tag := d.byteOrder.Uint16 (slice p 0 2)
  if tag ∈ retainedTags then
    match d.ifdUint p with
    | .error e => .error e
    | .ok val => .ok (tag, { d with features := (tag, val) :: d.features })
  else if tag = tColorMap then
    match d.ifdUint p with
    | .error e => .error e
    | .ok val =>
      let numcolors := val.length / 3
      if val.length % 3 ≠ 0 ∨ numcolors ≤ 0 ∨ numcolors > 256 then
        .error (.FormatError "bad ColorMap length")
      else
        let palette := (List.range numcolors).map fun i =>
          RGBA64.mk (val.getD i 0 % 2 ^ 16) (val.getD (i + numcolors) 0 % 2 ^ 16)
            (val.getD (i + 2 * numcolors) 0 % 2 ^ 16) 0xffff
        .ok (tag, { d with palette := palette })
  else if tag = tSampleFormat then
    match d.ifdUint p with
    | .error e => .error e
    | .ok val =>
      if val.any (fun v => v ≠ 1) then .error (.UnsupportedError "sample format")
      else .ok (tag, d)
  else .ok (tag, d)

/-- The loop over the directory of `newtiffDecoder` (lines 229-239), entry by
entry: `entries` are the slices `p[i : i+ifdLen]` in order. -/
def walkIFD : List (List Byte) → Int → tiffdecoder → Except Err tiffdecoder
  | [], _, d => .ok d
  | p :: rest, prevTag, d =>
    match d.parseIFD p with
    | .error e => .error e
    | .ok (tag, d1) =>
      if (tag : Int) ≤ prevTag then
        .error (.FormatError "tags are not sorted in ascending order")
      else walkIFD rest tag d1

/-- The slices `p[i : i+ifdLen]` for `i = 0, ifdLen, ...` while `i < len(p)`. -/
def ifdEntries (p : List Byte) : List (List Byte) :=
  (List.range ((p.length + ifdLen - 1) / ifdLen)).map fun k => slice p (ifdLen * k) (ifdLen * k + ifdLen)

/-- The first part of `newtiffDecoder` (lines 198-227): byte order and the
buffer `p` holding all IFD entries. -/
def readDirectory (data : List Byte) : Except Err (ByteOrder × List Byte) :=
  match ReadAt data 8 0 with
  | .error e => .error (if e = .EOF then .ErrUnexpectedEOF else e)
  | .ok p =>
    let order : Option ByteOrder :=
      if slice p 0 4 = leHeader then some .LittleEndian
      else if slice p 0 4 = beHeader then some .BigEndian
      else none
    match order with
    | none => .error (.FormatError "malformed header")
    | some byteOrder =>
      let ifdOffset := byteOrder.Uint32 (slice p 4 8)
      -- The first two bytes contain the number of entries (12 bytes each).
      match ReadAt data 2 ifdOffset with
      | .error e => .error e
      | .ok p2 =>
        let numItems := byteOrder.Uint16 (slice p2 0 2)
        -- All IFD entries are read in one chunk.
        match safeReadAt data (ifdLen * numItems) (ifdOffset + 2) with
        | .error e => .error e
        | .ok p => .ok (byteOrder, p)

/-- `newtiffDecoder` -/
def newtiffDecoder (r : List Byte) : Except Err tiffdecoder :=
  let data := newReaderAt r
  match readDirectory data with
  | .error e => .error e
  | .ok (byteOrder, p) =>
    let d : tiffdecoder := ⟨data, byteOrder, ⟨0, 0⟩, [], []⟩
    match walkIFD (ifdEntries p) (-1) d with
    | .error e => .error e
    | .ok d =>
      .ok { d with config := ⟨(d.firstVal tImageWidth : Nat), (d.firstVal tImageLength : Nat)⟩ }

/-- `decodetiff` -/
def decodetiff (r : List Byte) : Except Err Size :=
  match newtiffDecoder r with
  | .error e => .error e
  | .ok d => .ok d.config

/-! ## webp.go -/

/-- `fourCC` -/
abbrev fourCC := List Byte

def fccALPH : fourCC := [0x41, 0x4c, 0x50, 0x48]
def fccVP8 : fourCC := [0x56, 0x50, 0x38, 0x20]
def fccVP8L : fourCC := [0x56, 0x50, 0x38, 0x4c]
def fccVP8X : fourCC := [0x56, 0x50, 0x38, 0x58]
def fccWEBP : fourCC := [0x57, 0x45, 0x42, 0x50]

def chunkHeaderSize : Nat := 8

/-- `u32`: no shift leaves the 32 bits. -/
def u32 (b : List Byte) : Nat :=
  (b.getD 0 0).val ||| ((b.getD 1 0).val <<< 8) ||| ((b.getD 2 0).val <<< 16) |||
    ((b.getD 3 0).val <<< 24)

/-- Subtraction of `uint32` values, which wraps around. -/
def subU32 (a b : Nat) : Nat := (a + 2 ^ 32 - b % 2 ^ 32) % 2 ^ 32

/-- `webpeader`: `r` is what the underlying reader has not delivered yet. The
scratch array `buf` is local to each read here. The pointer `chunkReader` is
not a field: `decodewebp` and the drain in `next` read only through the reader
that is `z.chunkReader` at that moment, for which the test
`c != c.z.chunkReader` of `chunkReader.Read` is false. A read through any
other reader is `chunkReader_ReadAny` with `stale` true. -/
structure webpeader where
  r : List Byte
  err : Option Err
  totalLen : Nat
  chunkLen : Nat
  padded : Bool
deriving DecidableEq, Repr

/-- `newListReader` -/
def newListReader (chunkLen : Nat) (chunkData : List Byte) : Except Err (fourCC × webpeader) :=
  if chunkLen < 4 then .error .errShortChunkData else
  match ReadFull chunkData 4 with
  | (.error e, _) =>
    .error (if e = .EOF ∨ e = .ErrUnexpectedEOF then .errShortChunkData else e)
  | (.ok buf, r) => .ok (slice buf 0 4, ⟨r, none, chunkLen - 4, 0, false⟩)

/-- `newReader` -/
def newReader (r : List Byte) : Except Err (fourCC × webpeader) :=
  match ReadFull r chunkHeaderSize with
  | (.error e, _) =>
    .error (if e = .EOF ∨ e = .ErrUnexpectedEOF then .errMissingRIFFChunkHeader else e)
  | (.ok buf, r1) =>
    if buf.getD 0 0 ≠ 0x52 ∨ buf.getD 1 0 ≠ 0x49 ∨ buf.getD 2 0 ≠ 0x46 ∨ buf.getD 3 0 ≠ 0x46 then
      .error .errMissingRIFFChunkHeader
    else newListReader (u32 (buf.drop 4)) r1

/-- `Read(p)` of the underlying reader with `len(p) = n`: what is left, up to
`n` bytes, or `io.EOF` when nothing is left. -/
def readerRead (r : List Byte) (n : Nat) : List Byte × Option Err :=
  if r.length = 0 then ([], some .EOF) else (r.take n, none)

/-- `chunkReader.Read(p)` with `len(p) = lenp` from line 169 on, past the test
`c != c.z.chunkReader` of lines 166-168: the read through the reader `c` that
is `z.chunkReader`. It gives the bytes read, the error, and `z` afterwards.
`int` has 64 bits, so `int(z.chunkLen)` is not negative. -/
def chunkReader_Read (z : webpeader) (lenp : Nat) : (List Byte × Option Err) × webpeader :=
  match z.err with
  | some e => (([], some (if e = .EOF then .errStaleReader else e)), z)
  | none =>
    let n := z.chunkLen
    if n = 0 then (([], some .EOF), z) else
    let n := if n > lenp then lenp else n
    let (bs, err) := readerRead z.r n
    let z1 : webpeader :=
      { r := z.r.drop bs.length
        err := if err ≠ some .EOF then err else z.err
        totalLen := subU32 z.totalLen bs.length
        chunkLen := subU32 z.chunkLen bs.length
        padded := z.padded }
    ((bs, err), z1)

/-- `chunkReader.Read(p)` with `len(p) = lenp` for any reader `c` whose `c.z` is `z`.
Pointers are not part of the state, so the outcome of the comparison
`c != c.z.chunkReader` of lines 166-168 is the argument `stale`: it is true for every
reader once `next` has run `z.chunkReader = nil` and has not made a new reader, and for
every reader but the last made otherwise. A stale reader gives `errStaleReader` and leaves
`z` as it is. -/
def chunkReader_ReadAny (stale : Bool) (z : webpeader) (lenp : Nat) :
    (List Byte × Option Err) × webpeader :=
  if stale then (([], some .errStaleReader), z) else chunkReader_Read z lenp

/-- `io.ReadFull(chunkData, buf[:k])` for the chunk reader of `z`. It calls
`Read` until `k` bytes are there or an error comes; the first call asks for all
`k` bytes, and a call that follows a short one finds the chunk or the
underlying reader exhausted. -/
def ReadFullChunk (z : webpeader) (k : Nat) : Except Err (List Byte) × webpeader :=
  if k = 0 then (.ok [], z) else
  match chunkReader_Read z k with
  | ((bs, some e), z1) =>
    if bs.length ≥ k then (.ok bs, z1)
    else (.error (if bs.length > 0 ∧ e = .EOF then .ErrUnexpectedEOF else e), z1)
  | ((bs, none), z1) =>
    if bs.length ≥ k then (.ok bs, z1) else
    match chunkReader_Read z1 (k - bs.length) with
    | ((bs2, some e), z2) =>
      if (bs ++ bs2).length ≥ k then (.ok (bs ++ bs2), z2)
      else (.error (if (bs ++ bs2).length > 0 ∧ e = .EOF then .ErrUnexpectedEOF else e), z2)
    | ((bs2, none), z2) => (.ok (bs ++ bs2), z2)

/-- `io.Copy(io.Discard, z.chunkReader)`: the number of bytes copied, the
error, and `z` afterwards. It calls `Read` until an error comes and reports no
error for `io.EOF`; the calls together are one `Read` of the whole rest of the
chunk followed by one that returns `io.EOF`. -/
def copyDiscardChunk (z : webpeader) : (Nat × Option Err) × webpeader :=
  match chunkReader_Read z z.chunkLen with
  | ((bs, some e), z1) => ((bs.length, if e = .EOF then none else some e), z1)
  | ((bs, none), z1) =>
    match chunkReader_Read z1 z1.chunkLen with
    | ((bs2, some e), z2) => ((bs.length + bs2.length, if e = .EOF then none else some e), z2)
    | ((bs2, none), z2) => ((bs.length + bs2.length, none), z2)

/-- `next`: the chunk ID and length, or the error, and `z` afterwards. The
chunk data is read through `z` itself. -/
def webpeader.next (z : webpeader) : Except Err (fourCC × Nat) × webpeader :=
  match z.err with
  | some e => (.error e, z)
  | none =>
    -- Drain the rest of the previous chunk.
    let z1 : webpeader :=
      if z.chunkLen ≠ 0 then
        let want := z.chunkLen
        match copyDiscardChunk z with
        | ((got, err), z1) =>
          { z1 with err := if err = none ∧ got % 2 ^ 32 ≠ want then some .errShortChunkData else err }
      else z
    match z1.err with
    | some e => (.error e, z1)
    | none =>
      let z2 : Except Err Unit × webpeader :=
        if z1.padded then
          if z1.totalLen = 0 then
            (.error .errListSubchunkTooLong, { z1 with err := some .errListSubchunkTooLong })
          else
            match ReadFull z1.r 1 with
            | (.error e, r) =>
              let e := if e = .EOF then .errMissingPaddingByte else e
              (.error e, { z1 with totalLen := z1.totalLen - 1, r := r, err := some e })
            | (.ok _, r) => (.ok (), { z1 with totalLen := z1.totalLen - 1, r := r })
        else (.ok (), z1)
      match z2 with
      | (.error e, z2) => (.error e, z2)
      | (.ok _, z2) =>
        -- We are done if we have no more data.
        if z2.totalLen = 0 then (.error .EOF, { z2 with err := some .EOF }) else
        -- Read the next chunk header.
        if z2.totalLen < chunkHeaderSize then
          (.error .errShortChunkHeader, { z2 with err := some .errShortChunkHeader })
        else
        match ReadFull z2.r chunkHeaderSize with
        | (.error e, r) =>
          let e := if e = .EOF ∨ e = .ErrUnexpectedEOF then .errShortChunkHeader else e
          (.error e, { z2 with totalLen := z2.totalLen - chunkHeaderSize, r := r, err := some e })
        | (.ok buf, r) =>
          let chunkID := slice buf 0 4
          let chunkLen := u32 (buf.drop 4)
          let z3 : webpeader :=
            { z2 with totalLen := z2.totalLen - chunkHeaderSize, r := r, chunkLen := chunkLen }
          if chunkLen > z3.totalLen then
            (.error .errListSubchunkTooLong, { z3 with err := some .errListSubchunkTooLong })
          else (.ok (chunkID, chunkLen), { z3 with padded := chunkLen % 2 = 1 })

/-- The conversion `uint8(x)`. -/
def toByte (x : Nat) : Byte := ⟨x % 256, Nat.mod_lt x (by decide)⟩

/-- The bytes that the chunk reader of `z` delivers before `io.EOF`: the rest
of the chunk, as far as the underlying reader has it. A `bufio.Reader` or an
`io.MultiReader` put around the chunk reader delivers these bytes. -/
def chunkBytes (z : webpeader) : List Byte :=
  match z.err with
  | some _ => []
  | none => z.r.take z.chunkLen

/-- `decodeVP8FrameHeader` on the chunk reader of `z`. -/
def decodeVP8FrameHeader (z : webpeader) : Except Err (Int × Int) :=
  -- All frame headers are at least 3 bytes long.
  match ReadFullChunk z 3 with
  | (.error e, _) => .error e
  | (.ok b, z1) =>
    if (b.getD 0 0).val &&& 1 ≠ 0 then .ok (0, 0) else
    -- Frame headers for key frames are an additional 7 bytes long.
    match ReadFullChunk z1 7 with
    | (.error e, _) => .error e
    | (.ok b, _) =>
      -- Check the magic sync code.
      if b.getD 0 0 ≠ 0x9d ∨ b.getD 1 0 ≠ 0x01 ∨ b.getD 2 0 ≠ 0x2a then .error .vp8InvalidFormat
      else
        .ok (((((b.getD 4 0).val &&& 0x3f) <<< 8 ||| (b.getD 3 0).val : Nat) : Int),
             ((((b.getD 6 0).val &&& 0x3f) <<< 8 ||| (b.getD 5 0).val : Nat) : Int))

/-- `vp8ldecoder`: `r` is what the byte reader has not delivered yet. -/
structure vp8ldecoder where
  r : List Byte
  bits : Nat
  nBits : Nat
deriving DecidableEq, Repr

/-- `vp8ldecoder.read` on the decoder `⟨r, bits, nBits⟩`; the arithmetic is that
of `uint32`. -/
def vp8ldecoder.readBits (n : Nat) : List Byte → Nat → Nat → Except Err (Nat × vp8ldecoder)
  | [], bits, nBits =>
    if nBits < n then .error .ErrUnexpectedEOF
    else
      .ok (bits &&& ((1 <<< n) % 2 ^ 32 + 2 ^ 32 - 1) % 2 ^ 32,
           ⟨[], bits >>> n, subU32 nBits n⟩)
  | c :: r, bits, nBits =>
    if nBits < n then
      vp8ldecoder.readBits n r (bits ||| (c.val <<< nBits) % 2 ^ 32) ((nBits + 8) % 2 ^ 32)
    else
      .ok (bits &&& ((1 <<< n) % 2 ^ 32 + 2 ^ 32 - 1) % 2 ^ 32,
           ⟨c :: r, bits >>> n, subU32 nBits n⟩)

/-- `vp8ldecoder.read` -/
def vp8ldecoder.read (d : vp8ldecoder) (n : Nat) : Except Err (Nat × vp8ldecoder) :=
  vp8ldecoder.readBits n d.r d.bits d.nBits

/-- `decodeVP8LHeader` on a byte reader that delivers the bytes `r`. -/
def decodeVP8LHeader (r : List Byte) : Except Err (Int × Int) :=
  match vp8ldecoder.read ⟨r, 0, 0⟩ 8 with
  | .error e => .error e
  | .ok (magic, d) =>
    if magic ≠ 0x2f then .error .vp8lInvalidHeader else
    match d.read 14 with
    | .error e => .error e
    | .ok (width, d) =>
      let width := (width + 1) % 2 ^ 32
      match d.read 14 with
      | .error e => .error e
      | .ok (height, d) =>
        let height := (height + 1) % 2 ^ 32
        -- Read and ignore the hasAlpha hint.
        match d.read 1 with
        | .error e => .error e
        | .ok (_, d) =>
          match d.read 3 with
          | .error e => .error e
          | .ok (version, _) =>
            if version ≠ 0 then .error .vp8lInvalidVersion
            else .ok (toInt32 width, toInt32 height)

/-- `readAlpha` on the chunk reader of `z`. The external `vp8l.Decode` is the
parameter `vp8lDecode`: from the bytes of its reader it gives the `Pix` of the
decoded image, or an error, and the number of bytes it took from the chunk. -/
def readAlpha (vp8lDecode : List Byte → Except Err (List Byte) × Nat) (z : webpeader)
    (widthMinusOne heightMinusOne compression : Nat) :
    Except Err (List Byte × Nat) × webpeader :=
  if compression = 0 then
    let w := widthMinusOne + 1
    let h := heightMinusOne + 1
    match ReadFullChunk z (w * h) with
    | (.error e, z1) => (.error e, z1)
    | (.ok alpha, z1) => (.ok (alpha, w), z1)
  else if compression = 1 then
    if widthMinusOne > 0x3fff ∨ heightMinusOne > 0x3fff then (.error .readAlphaInvalidFormat, z)
    else
      let header : List Byte :=
        [0x2f, toByte widthMinusOne,
         toByte ((toByte (widthMinusOne >>> 8)).val ||| (toByte (heightMinusOne <<< 6)).val),
         toByte (heightMinusOne >>> 2), toByte (heightMinusOne >>> 10)]
      match vp8lDecode (header ++ chunkBytes z) with
      | (.error e, taken) => (.error e, (chunkReader_Read z taken).2)
      | (.ok pix, taken) =>
        let alpha := (List.range (pix.length / 4)).map fun i => pix.getD (4 * i + 1) 0
        (.ok (alpha, widthMinusOne + 1), (chunkReader_Read z taken).2)
  else (.error .errInvalidFormat, z)

/-- The statement `alpha[i] += x` with `uint8` arithmetic. -/
def addAt (alpha : List Byte) (i x : Nat) : List Byte :=
  alpha.set i (toByte ((alpha.getD i 0).val + x))

/-- The loop `for i := 1; i < alphaStride; i++ { alpha[i] += alpha[i-1] }`. -/
def unfilterFirstRow (alpha : List Byte) (alphaStride : Nat) : List Byte :=
  (List.range' 1 (alphaStride - 1)).foldl (fun a i => addAt a i (a.getD (i - 1) 0).val) alpha

/-- The values `alphaStride, 2*alphaStride, ...` below `len(alpha)` of the
loops `for i := alphaStride; i < len(alpha); i += alphaStride`. -/
def rowStarts (len alphaStride : Nat) : List Nat :=
  (List.range' 1 ((len - 1) / alphaStride)).map fun k => alphaStride * k

/-- `unfilterAlpha`, giving the buffer that the source changes in place. -/
def unfilterAlpha (alpha : List Byte) (alphaStride filter : Nat) : List Byte :=
  if alpha.length = 0 ∨ alphaStride = 0 then alpha else
  if filter = 1 then
    -- Horizontal filter.
    let alpha := unfilterFirstRow alpha alphaStride
    (rowStarts alpha.length alphaStride).foldl (fun a i =>
      -- The first column is equivalent to the vertical filter.
      let a := addAt a i (a.getD (i - alphaStride) 0).val
      (List.range' 1 (alphaStride - 1)).foldl (fun a j => addAt a (i + j) (a.getD (i + j - 1) 0).val) a)
      alpha
  else if filter = 2 then
    -- Vertical filter. The first row is equivalent to the horizontal filter.
    let alpha := unfilterFirstRow alpha alphaStride
    (List.range' alphaStride (alpha.length - alphaStride)).foldl
      (fun a i => addAt a i (a.getD (i - alphaStride) 0).val) alpha
  else if filter = 3 then
    -- Gradient filter. The first row is equivalent to the horizontal filter.
    let alpha := unfilterFirstRow alpha alphaStride
    (rowStarts alpha.length alphaStride).foldl (fun a i =>
      -- The first column is equivalent to the vertical filter.
      let a := addAt a i (a.getD (i - alphaStride) 0).val
      -- The interior is predicted on the three top/left pixels.
      (List.range' 1 (alphaStride - 1)).foldl (fun a j =>
        let c : Int := (a.getD (i + j - alphaStride - 1) 0).val
        let b : Int := (a.getD (i + j - alphaStride) 0).val
        let a0 : Int := (a.getD (i + j - 1) 0).val
        let x := a0 + b - c
        let x := if x < 0 then 0 else if x > 255 then 255 else x
        addAt a (i + j) x.toNat) a)
      alpha
  else alpha

/-- The variables of `decodewebp` that live across iterations of its loop. -/
structure webpVars where
  alpha : Option (List Byte)
  alphaStride : Nat
  wantAlpha : Bool
  widthMinusOne : Nat
  heightMinusOne : Nat
deriving DecidableEq, Repr

def alphaBit : Nat := 1 <<< 4

/-- The loop of `decodewebp` (lines 214-287), run for at most `fuel` chunks;
`none` when the fuel is used up before the loop returns. -/
def decodewebpLoop (vp8lDecode : List Byte → Except Err (List Byte) × Nat) :
    Nat → webpeader → webpVars → Option (Except Err Size)
  | 0, _, _ => none
  | fuel + 1, z, v =>
    match z.next with
    | (.error e, _) => some (.error (if e = .EOF then .errInvalidFormat else e))
    | (.ok (chunkID, chunkLen), z1) =>
      if chunkID = fccALPH then
        if !v.wantAlpha then some (.error .errInvalidFormat) else
        -- Read the Pre-processing | Filter | Compression byte.
        match ReadFullChunk z1 1 with
        | (.error e, _) => some (.error (if e = .EOF then .errInvalidFormat else e))
        | (.ok buf, z2) =>
          let buf0 := (buf.getD 0 0).val
          match readAlpha vp8lDecode z2 v.widthMinusOne v.heightMinusOne (buf0 &&& 0x03) with
          | (.error e, _) => some (.error e)
          | (.ok (alpha, alphaStride), z3) =>
            let alpha := unfilterAlpha alpha alphaStride ((buf0 >>> 2) &&& 0x03)
            decodewebpLoop vp8lDecode fuel z3
              { v with alpha := some alpha, alphaStride := alphaStride, wantAlpha := false }
      else if chunkID = fccVP8 then
        if v.wantAlpha ∨ chunkLen ≥ 2 ^ 31 then some (.error .errInvalidFormat) else
        match decodeVP8FrameHeader z1 with
        | .error e => some (.error e)
        | .ok (w, h) => some (.ok ⟨w, h⟩)
      else if chunkID = fccVP8L then
        if v.wantAlpha ∨ v.alpha ≠ none then some (.error .errInvalidFormat) else
        match decodeVP8LHeader (chunkBytes z1) with
        | .error e => some (.error e)
        | .ok (w, h) => some (.ok ⟨w, h⟩)
      else if chunkID = fccVP8X then
        if chunkLen ≠ 10 then some (.error .errInvalidFormat) else
        match ReadFullChunk z1 10 with
        | (.error e, _) => some (.error e)
        | (.ok buf, _) =>
          let wantAlpha := (buf.getD 0 0).val &&& alphaBit ≠ 0
          let widthMinusOne :=
            (buf.getD 4 0).val ||| (buf.getD 5 0).val <<< 8 ||| (buf.getD 6 0).val <<< 16
          let heightMinusOne :=
            (buf.getD 7 0).val ||| (buf.getD 8 0).val <<< 8 ||| (buf.getD 9 0).val <<< 16
          if wantAlpha then
            some (.ok ⟨(widthMinusOne : Int) + 1, (heightMinusOne : Int) + 1⟩)
          else some (.ok ⟨(widthMinusOne : Int) + 1, (heightMinusOne : Int) + 1⟩)
      else decodewebpLoop vp8lDecode fuel z1 v

/-- `decodewebp`. Every chunk that `next` returns takes `chunkHeaderSize` off
`totalLen`, which bounds the number of iterations of the loop. -/
def decodewebp (vp8lDecode : List Byte → Except Err (List Byte) × Nat) (r : List Byte) :
    Option (Except Err Size) :=
  match newReader r with
  | .error e => some (.error e)
  | .ok (formType, riffReader) =>
    if formType ≠ fccWEBP then some (.error .errInvalidFormat) else
    decodewebpLoop vp8lDecode (riffReader.totalLen / chunkHeaderSize + 1) riffReader
      ⟨none, 0, false, 0, 0⟩

/-! ## The format registry -/

/-- Modelled from the spec: an entry of the Format Registry (the FormatEntry of the data
model): name, magic pattern and decode function. The file that declares the registry is
not among the sources. A decode function has the type of `decodewebp`. -/
structure FormatEntry where
  name : String
  magic : List Byte
  decode : List Byte → Option (Except Err Size)

/-- Modelled from the spec: the Magic Matcher (4.1, step 2), which is not among the
sources. A pattern byte `?` matches any byte, every other byte must match exactly, and
the pattern must not be longer than the look-ahead buffer `b`. -/
def matchMagic : List Byte → List Byte → Bool
  | [], _ => true
  | _ :: _, [] => false
  | m :: magic, c :: b => (m = 0x3f || m = c) && matchMagic magic b

/-- Modelled from the spec: `RegisterFormat` (4.1), which is not among the sources,
appends an entry to the registry. -/
def RegisterFormat (formats : List FormatEntry) (name : String) (magic : List Byte)
    (decode : List Byte → Option (Except Err Size)) : List FormatEntry :=
  formats ++ [⟨name, magic, decode⟩]

/-- Modelled from the spec: `pngHeader`, the fixed 8-byte PNG signature. The constant is
declared in a file that is not among the sources. -/
def pngHeader : List Byte := [0x89, 0x50, 0x4e, 0x47, 0x0d, 0x0a, 0x1a, 0x0a]

/-- The registry after `init` of `init.go`. The JPEG, PNG and GIF decoders are not among
the sources and are the parameters `jpeg`, `png` and `gif`; the patterns are the bytes of
"\xff\xd8", `pngHeader`, "GIF8?a", "RIFF????WEBPVP8", "BM????\x00\x00\x00\x00", `leHeader`
and `beHeader`. -/
def builtinFormats (jpeg png gif : List Byte → Option (Except Err Size))
    (vp8lDecode : List Byte → Except Err (List Byte) × Nat) : List FormatEntry :=
  let fs := RegisterFormat [] "jpeg" [0xff, 0xd8] jpeg
  let fs := RegisterFormat fs "png" pngHeader png
  let fs := RegisterFormat fs "gif" [0x47, 0x49, 0x46, 0x38, 0x3f, 0x61] gif
  let fs := RegisterFormat fs "webp"
    [0x52, 0x49, 0x46, 0x46, 0x3f, 0x3f, 0x3f, 0x3f, 0x57, 0x45, 0x42, 0x50, 0x56, 0x50, 0x38]
    (decodewebp vp8lDecode)
  let fs := RegisterFormat fs "bmp" [0x42, 0x4d, 0x3f, 0x3f, 0x3f, 0x3f, 0, 0, 0, 0]
    (fun r => some (decodebmp r))
  let fs := RegisterFormat fs "tiff" leHeader (fun r => some (decodetiff r))
  RegisterFormat fs "tiff" beHeader (fun r => some (decodetiff r))

/-- Modelled from the spec: the sniffing of 4.1 over the look-ahead buffer `buf`, which is
not among the sources. The buffer holds the first bytes of the stream, as many as the
longest pattern has when the stream has them (step 1). The entries are tested in order and
the first whose pattern matches the buffer is the result (steps 2 and 3); a pattern longer
than the buffer does not match (step 2), so an entry whose pattern the stream is too short
for is passed over. The end of the registry gives no entry. -/
def sniff (buf : List Byte) : List FormatEntry → Option FormatEntry
  | [] => none
  | f :: fs => if matchMagic f.magic buf then some f else sniff buf fs

/-- Modelled from the spec: `DecodeSize` (`sniffAndDecode` of 4.1, `decodeSize` of 6),
which is not among the sources. It returns what Go returns as `(Size, string, error)`:
the result of the decoder and the name of the format. The decoder reads the stream from
its start. When no registered pattern matches the leading bytes of the stream the result
is the no-match error (4.1 step 4, and section 7: "returned by the registry when no
registered pattern matches the stream's leading bytes"); that holds for a stream
shorter than the patterns too, the empty one included, so that sniffing itself never
ends in a read error. -/
def DecodeSize (formats : List FormatEntry) (r : List Byte) :
    Option (Except Err Size) × String :=
  let longest := (formats.map fun f => f.magic.length).foldl max 0
  match sniff (r.take longest) formats with
  | none => (some (.error .ErrFormat), "")
  | some f => (f.decode r, f.name)

/-- A stand-in for a decoder that is not among the sources. -/
def stubDecoder : List Byte → Option (Except Err Size) :=
  fun _ => some (.error .ErrUnsupported)

/-! ## Vocabulary of the statements -/

/-- The little-endian 16-bit integer in bytes `i`, `i+1` of `s`. -/
def leU16 (s : List Byte) (i : Nat) : Nat :=
  (s.getD i 0).val + 2 ^ 8 * (s.getD (i + 1) 0).val

/-- The little-endian 24-bit integer in bytes `i .. i+2` of `s`. -/
def leU24 (s : List Byte) (i : Nat) : Nat :=
  (s.getD i 0).val + 2 ^ 8 * (s.getD (i + 1) 0).val + 2 ^ 16 * (s.getD (i + 2) 0).val

/-- The little-endian 32-bit integer in bytes `i .. i+3` of `s`. -/
def leU32 (s : List Byte) (i : Nat) : Nat :=
  (s.getD i 0).val + 2 ^ 8 * (s.getD (i + 1) 0).val + 2 ^ 16 * (s.getD (i + 2) 0).val +
    2 ^ 24 * (s.getD (i + 3) 0).val

/-- The four bytes of `n` as a little-endian 32-bit integer. -/
def le32 (n : Nat) : List Byte :=
  [toByte n, toByte (n / 2 ^ 8), toByte (n / 2 ^ 16), toByte (n / 2 ^ 24)]

/-- The BMP header of `s`, of length `L`, declares compression 3 (bit fields) with the four
default masks of 32-bit RGBA in an extended header. -/
def bitfieldsDefault (s : List Byte) (L : Nat) : Prop :=
  leU32 s 30 = 3 ∧ 40 < L ∧ leU32 s 54 = 0xff0000 ∧ leU32 s 58 = 0xff00 ∧
    leU32 s 62 = 0xff ∧ leU32 s 66 = 0xff000000

instance (s : List Byte) (L : Nat) : Decidable (bitfieldsDefault s L) := by
  unfold bitfieldsDefault
  infer_instance

/-- A RIFF chunk: its FourCC, its data, and the byte that pads data of odd length. -/
structure RiffChunk where
  id : fourCC
  data : List Byte
  pad : Byte
deriving DecidableEq, Repr

/-- The pad byte that follows chunk data of odd length. -/
def padOf (data : List Byte) (pad : Byte) : List Byte :=
  if data.length % 2 = 1 then [pad] else []

/-- The bytes of a chunk: FourCC, little-endian length, data, padding. -/
def encodeChunk (c : RiffChunk) : List Byte :=
  c.id ++ le32 c.data.length ++ c.data ++ padOf c.data c.pad

/-- The bytes of a sequence of chunks. -/
def encodeChunks : List RiffChunk → List Byte
  | [] => []
  | c :: cs => encodeChunk c ++ encodeChunks cs

/-- The FourCC is none of the four that `decodewebp` acts on. -/
def unrecognised (id : fourCC) : Prop :=
  id ≠ fccALPH ∧ id ≠ fccVP8 ∧ id ≠ fccVP8L ∧ id ≠ fccVP8X

instance (id : fourCC) : Decidable (unrecognised id) := by
  unfold unrecognised
  infer_instance

/-- The RIFF header of a WebP stream: "RIFF", the length `n`, "WEBP". -/
def riffHeader (n : Nat) : List Byte :=
  [0x52, 0x49, 0x46, 0x46] ++ le32 n ++ fccWEBP

/-- The reader `z` right after `next` has returned a chunk with the data `data`: the data
and its padding are still unread, `tail` follows them, and `totalLen` is the rest of the
container. -/
def pendingState (data : List Byte) (pad : Byte) (totalLen : Nat) (tail : List Byte) :
    webpeader :=
  ⟨data ++ padOf data pad ++ tail, none, totalLen, data.length, decide (data.length % 2 = 1)⟩

/-- The tag of the IFD entry `e`, read in the byte order `bo`. -/
def ifdTag (bo : ByteOrder) (e : List Byte) : Nat := bo.Uint16 (slice e 0 2)

/-- The decoder with which `newtiffDecoder` starts the walk over the directory. -/
def tiffStart (data : List Byte) (bo : ByteOrder) : tiffdecoder := ⟨data, bo, ⟨0, 0⟩, [], []⟩

/-- The IFD entry `e` parses without error on its own, at the start of the walk. -/
def parsesAlone (data : List Byte) (bo : ByteOrder) (e : List Byte) : Prop :=
  ((tiffStart data bo).parseIFD e).toBool = true

instance (data : List Byte) (bo : ByteOrder) (e : List Byte) :
    Decidable (parsesAlone data bo e) := by
  unfold parsesAlone
  infer_instance

/-- A little-endian TIFF stream whose directory, at offset 8, holds the two Long entries
ImageWidth = 0x2010 and ImageLength = 0x30. -/
def tiffLE : List Byte :=
  [0x49, 0x49, 0x2a, 0, 8, 0, 0, 0, 2, 0,
   0, 1, 4, 0, 1, 0, 0, 0, 0x10, 0x20, 0, 0,
   1, 1, 4, 0, 1, 0, 0, 0, 0x30, 0, 0, 0]

/-- The stream `tiffLE` with its two directory entries in the other order. -/
def tiffSwapped : List Byte :=
  [0x49, 0x49, 0x2a, 0, 8, 0, 0, 0, 2, 0,
   1, 1, 4, 0, 1, 0, 0, 0, 0x30, 0, 0, 0,
   0, 1, 4, 0, 1, 0, 0, 0, 0x10, 0x20, 0, 0]

/-- The first value of the IFD entry `e` of the stream `data` as the TIFF format defines
it: values of type Byte, Short and Long take 1, 2 and 4 bytes in the byte order `bo`; they
stand in the last four bytes of the entry when all of them fit there, and otherwise at the
offset that these four bytes give; an entry with count 0 has no value, for which 0 stands. -/
def entryFirstValue (bo : ByteOrder) (data e : List Byte) : Nat :=
  let datatype := bo.Uint16 (slice e 2 4)
  let count := bo.Uint32 (slice e 4 8)
  let size := if datatype = dtByte then 1 else if datatype = dtShort then 2 else 4
  let value := if size * count ≤ 4 then slice e 8 12 else data.drop (bo.Uint32 (slice e 8 12))
  if count = 0 then 0
  else if datatype = dtByte then (value.getD 0 0).val
  else if datatype = dtShort then bo.Uint16 value
  else bo.Uint32 value

/-- The two bytes of the 16-bit integer `n` in the byte order. -/
def ByteOrder.put16 : ByteOrder → Nat → List Byte
  | .LittleEndian, n => [toByte n, toByte (n / 2 ^ 8)]
  | .BigEndian, n => [toByte (n / 2 ^ 8), toByte n]

/-- The four bytes of the 32-bit integer `n` in the byte order. -/
def ByteOrder.put32 : ByteOrder → Nat → List Byte
  | .LittleEndian, n => [toByte n, toByte (n / 2 ^ 8), toByte (n / 2 ^ 16), toByte (n / 2 ^ 24)]
  | .BigEndian, n => [toByte (n / 2 ^ 24), toByte (n / 2 ^ 16), toByte (n / 2 ^ 8), toByte n]

/-- The four bytes with which a TIFF stream of the byte order starts. -/
def ByteOrder.magic : ByteOrder → List Byte
  | .LittleEndian => leHeader
  | .BigEndian => beHeader

/-- A minimal TIFF stream in the byte order `bo`: the magic, the directory at offset 8,
the two Long entries ImageWidth = `w` and ImageLength = `h`, and no further directory. -/
def minimalTiff (bo : ByteOrder) (w h : Nat) : List Byte :=
  bo.magic ++ bo.put32 8 ++ bo.put16 2 ++
    (bo.put16 256 ++ bo.put16 4 ++ bo.put32 1 ++ bo.put32 w) ++
    (bo.put16 257 ++ bo.put16 4 ++ bo.put32 1 ++ bo.put32 h) ++ bo.put32 0

/-- The message of the error for tags that do not ascend. -/
def notSorted : Err := .FormatError "tags are not sorted in ascending order"

/-- The stream `s` with the bytes from position `i` on replaced by `v`. -/
def replaceAt (s : List Byte) (i : Nat) (v : List Byte) : List Byte :=
  s.take i ++ v ++ s.drop (i + v.length)

/-! ## Sample streams -/

/-- A BMP header: 40-byte DIB header, 24 bits per pixel, width 3,
height field -2, pixel data at offset 54. -/
def bmp24 : List Byte :=
  [0x42, 0x4d, 0, 0, 0, 0, 0, 0, 0, 0, 54, 0, 0, 0,
   40, 0, 0, 0, 3, 0, 0, 0, 0xfe, 0xff, 0xff, 0xff, 1, 0, 24, 0, 0, 0, 0, 0] ++
  List.replicate 20 0

/-- A BMP header with a 108-byte DIB header, 32 bits per pixel, width 5, height 7,
compression 3 and the four default masks, pixel data at offset 122. -/
def bmpBitfields : List Byte :=
  [0x42, 0x4d, 0, 0, 0, 0, 0, 0, 0, 0, 122, 0, 0, 0,
   108, 0, 0, 0, 5, 0, 0, 0, 7, 0, 0, 0, 1, 0, 32, 0, 3, 0, 0, 0] ++
  List.replicate 20 0 ++
  [0, 0, 0xff, 0, 0, 0xff, 0, 0, 0xff, 0, 0, 0, 0, 0, 0, 0xff] ++
  List.replicate 52 0

/-- An 8-bit BMP header (40-byte DIB header, width 4, height 4, colors-used 0, pixel data
at offset 54 + 1024) that ends right after the DIB header. -/
def bmp8 : List Byte :=
  [0x42, 0x4d, 0, 0, 0, 0, 0, 0, 0, 0, 0x36, 0x04, 0, 0,
   40, 0, 0, 0, 4, 0, 0, 0, 4, 0, 0, 0, 1, 0, 8, 0, 0, 0, 0, 0] ++
  List.replicate 20 0

/-- The first 18 bytes of a BMP file with a 12-byte (OS/2) DIB header. -/
def bmpCore : List Byte :=
  [0x42, 0x4d, 0, 0, 0, 0, 0, 0, 0, 0, 26, 0, 0, 0, 12, 0, 0, 0]

/-- A stand-in for the external `vp8l.Decode` that rejects every input. -/
def vp8lReject : List Byte → Except Err (List Byte) × Nat :=
  fun _ => (.error (.vp8lDecode 0), 0)

/-- The ten bytes of a `VP8X` chunk with the alpha bit set, width 100 and height 50. -/
def vp8xAlpha : List Byte := [0x10, 0, 0, 0, 99, 0, 0, 49, 0, 0]

/-- A WebP stream that ends after a `VP8X` chunk with the alpha bit set, width 100 and
height 50. -/
def webpVP8XAlpha : List Byte :=
  [0x52, 0x49, 0x46, 0x46, 22, 0, 0, 0, 0x57, 0x45, 0x42, 0x50,
   0x56, 0x50, 0x38, 0x58, 10, 0, 0, 0, 0x10, 0, 0, 0, 99, 0, 0, 49, 0, 0]

/-- A WebP stream with a `VP8X` chunk (alpha bit set, width 2, height 2) followed by an
`ALPH` chunk whose only byte selects compression mode 2, and its pad byte. -/
def webpVP8XBadAlpha : List Byte :=
  [0x52, 0x49, 0x46, 0x46, 32, 0, 0, 0, 0x57, 0x45, 0x42, 0x50,
   0x56, 0x50, 0x38, 0x58, 10, 0, 0, 0, 0x10, 0, 0, 0, 1, 0, 0, 1, 0, 0,
   0x41, 0x4c, 0x50, 0x48, 1, 0, 0, 0, 2, 0]

/-- An `ICCP` chunk with three bytes of data. -/
def iccpChunk : RiffChunk := ⟨[0x49, 0x43, 0x43, 0x50], [1, 2, 3], 0⟩

/-- The tags on which `parseIFD` calls `ifdUint`: those whose values it keeps, the color
map and the sample format. -/
def inspectedTags : List Nat := retainedTags ++ [tColorMap, tSampleFormat]

/-- The datatype of the IFD entry `e`, read in the byte order `bo`. -/
def ifdType (bo : ByteOrder) (e : List Byte) : Nat := bo.Uint16 (slice e 2 4)

/-- The count of the IFD entry `e`, read in the byte order `bo`. -/
def ifdCount (bo : ByteOrder) (e : List Byte) : Nat := bo.Uint32 (slice e 4 8)

/-- The last four bytes of the IFD entry `e` as an offset, read in the byte order `bo`. -/
def ifdOffset (bo : ByteOrder) (e : List Byte) : Nat := bo.Uint32 (slice e 8 12)

/-- The IFD entry `e` holds an offset to its value, and the value, of `lengths[datatype]`
bytes per item, does not end within the `size` bytes of the stream. -/
def valuePastEnd (bo : ByteOrder) (size : Nat) (e : List Byte) : Prop :=
  e.length = 12 ∧ 1 ≤ ifdType bo e ∧ ifdType bo e ≤ 5 ∧
    ifdCount bo e ≤ MaxInt32 / lengths.getD (ifdType bo e) 0 ∧
    4 < lengths.getD (ifdType bo e) 0 * ifdCount bo e ∧
    size < ifdOffset bo e + lengths.getD (ifdType bo e) 0 * ifdCount bo e

instance (bo : ByteOrder) (size : Nat) (e : List Byte) : Decidable (valuePastEnd bo size e) := by
  unfold valuePastEnd
  infer_instance

/-- A little-endian TIFF stream of 26 bytes whose only directory entry, ImageWidth, has
two Long values at offset 100. -/
def tiffPastEnd : List Byte :=
  [0x49, 0x49, 0x2a, 0, 8, 0, 0, 0, 1, 0,
   0, 1, 4, 0, 2, 0, 0, 0, 100, 0, 0, 0,
   0, 0, 0, 0]

/-- The tag that the directory walk holds as `prevTag` after the entries `es`, having
started from `prev`. -/
def lastTag (bo : ByteOrder) : List (List Byte) → Int → Int
  | [], prev => prev
  | e :: rest, _ => lastTag bo rest (ifdTag bo e)

/-- The data of a chunk of `2^31` bytes whose first byte has bit 0 set. -/
def hugeFrame : List Byte := 1 :: List.replicate (2 ^ 31 - 1) 0

/-- A WebP stream that ends after the three data bytes of a `VP8` chunk of declared
length 5: the first data byte has bit 0 set. -/
def webpVP8NonKey : List Byte :=
  [0x52, 0x49, 0x46, 0x46, 17, 0, 0, 0, 0x57, 0x45, 0x42, 0x50,
   0x56, 0x50, 0x38, 0x20, 5, 0, 0, 0, 0x31, 0x02, 0x00]

/-- The value of the IFD entry `e` can be read: its byte count `lengths[datatype] * count`
passes the size check of `ifdUint`, and the value is held in the entry or lies within the
`size` bytes of the stream. -/
def valueReadable (bo : ByteOrder) (size : Nat) (e : List Byte) : Prop :=
  ifdCount bo e ≤ MaxInt32 / lengths.getD (ifdType bo e) 0 ∧
    (lengths.getD (ifdType bo e) 0 * ifdCount bo e ≤ 4 ∨
      ifdOffset bo e + lengths.getD (ifdType bo e) 0 * ifdCount bo e ≤ size)

instance (bo : ByteOrder) (size : Nat) (e : List Byte) : Decidable (valueReadable bo size e) := by
  unfold valueReadable
  infer_instance

/-- A little-endian IFD entry: tag, datatype, count and the last four bytes. -/
def ifdEntryLE (tag datatype count : Nat) (value : List Byte) : List Byte :=
  ByteOrder.LittleEndian.put16 tag ++ ByteOrder.LittleEndian.put16 datatype ++
    ByteOrder.LittleEndian.put32 count ++ value

/-- A little-endian TIFF stream whose directory holds ImageWidth = 0x2010, ImageLength =
0x30 and a SampleFormat entry with the one Short value `v`. -/
def tiffSampleFormat (v : Byte) : List Byte :=
  [0x49, 0x49, 0x2a, 0, 8, 0, 0, 0, 3, 0,
   0, 1, 4, 0, 1, 0, 0, 0, 0x10, 0x20, 0, 0,
   1, 1, 4, 0, 1, 0, 0, 0, 0x30, 0, 0, 0,
   0x53, 1, 3, 0, 1, 0, 0, 0, v, 0, 0, 0,
   0, 0, 0, 0]

/-- A little-endian TIFF stream whose directory holds, in this order, ImageLength = 0x30,
ImageWidth = 0x2010 and a SampleFormat entry with the one Short value 2: the second tag is
lower than the first. -/
def tiffUnsortedSampleFormat : List Byte :=
  [0x49, 0x49, 0x2a, 0, 8, 0, 0, 0, 3, 0,
   1, 1, 4, 0, 1, 0, 0, 0, 0x30, 0, 0, 0,
   0, 1, 4, 0, 1, 0, 0, 0, 0x10, 0x20, 0, 0,
   0x53, 1, 3, 0, 1, 0, 0, 0, 2, 0, 0, 0,
   0, 0, 0, 0]

/-- The value `clamp(x, lo, hi)` in unbounded integers. -/
def clamp (x lo hi : Int) : Int := max lo (min hi x)

/-- The byte in row `r` and column `c` of the buffer `buf` with the row stride `w`. -/
def at2 (buf : List Byte) (w r c : Nat) : Nat := (buf.getD (r * w + c) 0).val

/-- What the gradient filter adds to the byte at the index `j` of a buffer with the row
stride `w`: the left neighbour in the first row, the upper neighbour in the first column,
and elsewhere the clamped prediction from the left, upper and upper-left neighbours. -/
def gradPred (w : Nat) (a : List Byte) (j : Nat) : Nat :=
  if j = 0 then 0
  else if j < w then (a.getD (j - 1) 0).val
  else if j % w = 0 then (a.getD (j - w) 0).val
  else
    (clamp (((a.getD (j - 1) 0).val : Int) + ((a.getD (j - w) 0).val : Int) -
      ((a.getD (j - w - 1) 0).val : Int)) 0 255).toNat

/-- The state of the buffer `a` when the gradient filter has been undone for the indices
below `k` of the input `inp`. -/
def GradInv (w : Nat) (inp : List Byte) (k : Nat) (a : List Byte) : Prop :=
  a.length = inp.length ∧
    (∀ j, j < k → (a.getD j 0).val = ((inp.getD j 0).val + gradPred w a j) % 256) ∧
    (∀ j, k ≤ j → a.getD j 0 = inp.getD j 0)

/-! ## tiff.go with the run-time checks of Go -/

/-- The Go index expression `b[i]`; `none` is the run-time panic "index out of range". -/
def indexChk {α : Type} (b : List α) (i : Nat) : Option α := b.get? i

/-- The Go slice expression `b[i:j]`; `none` is the run-time panic "slice bounds out of
range". The bound is `len(b)`, which the capacity of a slice is never below. -/
def sliceChk {α : Type} (b : List α) (i j : Nat) : Option (List α) :=
  if i ≤ j ∧ j ≤ b.length then some (slice b i j) else none

/-- `binary.ByteOrder.Uint16`, which panics on fewer than two bytes. -/
def ByteOrder.Uint16Chk (bo : ByteOrder) (b : List Byte) : Option Nat :=
  if 2 ≤ b.length then some (bo.Uint16 b) else none

/-- `binary.ByteOrder.Uint32`, which panics on fewer than four bytes. -/
def ByteOrder.Uint32Chk (bo : ByteOrder) (b : List Byte) : Option Nat :=
  if 4 ≤ b.length then some (bo.Uint32 b) else none

/-- The list of the values when none of them is a panic. -/
def collect {α : Type} : List (Option α) → Option (List α)
  | [] => some []
  | none :: _ => none
  | some a :: l => (collect l).map fun t => a :: t

/-- `ifdUint` with every index, slice bound and division checked as Go checks it at run
time: `none` is a panic. It is `none` too when the `uint32` product
`lengths[datatype] * count` does not fit in 32 bits, so that a result `some` says that the
product is exact. -/
def tiffdecoder.ifdUintChk (d : tiffdecoder) (p : List Byte) : Option (Except Err (List Nat)) :=
  if p.length < ifdLen then some (.error (.FormatError "bad IFD entry")) else
  (sliceChk p 2 4).bind fun b24 =>
  (d.byteOrder.Uint16Chk b24).bind fun datatype =>
  if datatype ≤ 0 ∨ datatype ≥ lengths.length then
    some (.error (.UnsupportedError "IFD entry datatype"))
  else
  (sliceChk p 4 8).bind fun b48 =>
  (d.byteOrder.Uint32Chk b48).bind fun count =>
  (indexChk lengths datatype).bind fun len =>
  -- `math.MaxInt32/lengths[datatype]` panics on a zero divisor
  if len = 0 then none else
  if count > MaxInt32 / len then some (.error (.FormatError "IFD data too large")) else
  if len * count ≥ 2 ^ 32 then none else
  let datalen := len * count
  let raw : Option (Except Err (List Byte)) :=
    if datalen > 4 then
      -- The IFD contains a pointer to the real value.
      (sliceChk p 8 12).bind fun b =>
        (d.byteOrder.Uint32Chk b).map fun off => safeReadAt d.r datalen off
    else (sliceChk p 8 (8 + datalen)).map fun b => .ok b
  raw.bind fun raw =>
  match raw with
  | .error e => some (.error e)
  | .ok raw =>
    if datatype = dtByte then
      (collect ((List.range count).map fun i =>
        (indexChk raw i).map fun c => c.val)).map fun u => .ok u
    else if datatype = dtShort then
      (collect ((List.range count).map fun i =>
        (sliceChk raw (2 * i) (2 * (i + 1))).bind fun b => d.byteOrder.Uint16Chk b)).map
        fun u => .ok u
    else if datatype = dtLong then
      (collect ((List.range count).map fun i =>
        (sliceChk raw (4 * i) (4 * (i + 1))).bind fun b => d.byteOrder.Uint32Chk b)).map
        fun u => .ok u
    else some (.error (.UnsupportedError "data type"))

/-- The slices `p[i : i+ifdLen]` that the loop of `newtiffDecoder` (lines 230-231) takes,
with their bounds checked. -/
def ifdEntriesChk (p : List Byte) : Option (List (List Byte)) :=
  collect ((List.range ((p.length + ifdLen - 1) / ifdLen)).map fun k =>
    sliceChk p (ifdLen * k) (ifdLen * k + ifdLen))

/-! ## webp.go: the invariant of the chunk reader -/

/-- The invariant of the chunk reader: the container length fits 32 bits and, while no
error is recorded, the chunk does not reach past the container. -/
def readerInv (z : webpeader) : Prop :=
  z.totalLen < 2 ^ 32 ∧ (z.err = none → z.chunkLen ≤ z.totalLen)

instance (z : webpeader) : Decidable (readerInv z) :=
  inferInstanceAs (Decidable (z.totalLen < 2 ^ 32 ∧ (z.err = none → z.chunkLen ≤ z.totalLen)))

/-- The eight bytes of a chunk header `ICCP` that declares 100 bytes of data. -/
def tooLongHeader : List Byte := [0x49, 0x43, 0x43, 0x50, 100, 0, 0, 0]

/-- The reader right after the RIFF header of a container of 12 bytes that holds
`tooLongHeader` and nothing else. -/
def readerTooLong : webpeader := ⟨tooLongHeader, none, 8, 0, false⟩

/-- The reader at the start of a container that holds `iccpChunk` and nothing else. -/
def readerICCP : webpeader := ⟨encodeChunk iccpChunk, none, 12, 0, false⟩

/-! ## Lemmas on bytes and slices; the BMP header -/

theorem or_shl_eq_add (x y k : Nat) (hx : x < 2 ^ k) : x ||| (y <<< k) = x + 2 ^ k * y := by
  rw [Nat.shiftLeft_eq, Nat.mul_comm y, Nat.or_comm, ← Nat.mul_add_lt_is_or hx, Nat.add_comm]

theorem or_shl3 (a b c : Nat) (ha : a < 256) (hb : b < 256) :
    a ||| (b <<< 8) ||| (c <<< 16) = a + 2 ^ 8 * b + 2 ^ 16 * c := by
  rw [or_shl_eq_add a b 8 (by omega), or_shl_eq_add (a + 2 ^ 8 * b) c 16 (by omega)]

theorem or_shl4 (a b c d : Nat) (ha : a < 256) (hb : b < 256) (hc : c < 256) :
    a ||| (b <<< 8) ||| (c <<< 16) ||| (d <<< 24) = a + 2 ^ 8 * b + 2 ^ 16 * c + 2 ^ 24 * d := by
  rw [or_shl3 a b c ha hb, or_shl_eq_add _ d 24 (by omega)]

theorem getD_slice {α : Type} (b : List α) (i j k : Nat) (d : α) (h : k < j - i) :
    (slice b i j).getD k d = b.getD (i + k) d := by
  simp [slice, List.getD_eq_getElem?_getD, List.getElem?_take, h]

theorem readUint16_slice (b : List Byte) (i : Nat) : readUint16 (slice b i (i + 2)) = leU16 b i := by
  unfold readUint16 leU16
  rw [getD_slice _ _ _ _ _ (by omega), getD_slice _ _ _ _ _ (by omega)]
  rw [or_shl_eq_add _ _ _ (by have := (b.getD (i+0) 0).isLt; omega)]
  rfl

theorem readUint32_slice (b : List Byte) (i : Nat) : readUint32 (slice b i (i + 4)) = leU32 b i := by
  unfold readUint32 leU32
  rw [getD_slice _ _ _ _ _ (by omega), getD_slice _ _ _ _ _ (by omega),
    getD_slice _ _ _ _ _ (by omega), getD_slice _ _ _ _ _ (by omega)]
  rw [or_shl4 _ _ _ _ (Fin.isLt _) (Fin.isLt _) (Fin.isLt _)]
  rfl

theorem getD_take_append {α : Type} (s t : List α) (n k : Nat) (d : α) (hk : k < n) (hn : n ≤ s.length) :
    (s.take n ++ t).getD k d = s.getD k d := by
  simp only [List.getD_eq_getElem?_getD]
  rw [List.getElem?_append_left (by simp; omega), List.getElem?_take_of_lt hk]

theorem leU32_take_append (s t : List Byte) (n i : Nat) (hi : i + 4 ≤ n) (hn : n ≤ s.length) :
    leU32 (s.take n ++ t) i = leU32 s i := by
  unfold leU32
  rw [getD_take_append _ _ _ _ _ (by omega) hn, getD_take_append _ _ _ _ _ (by omega) hn,
    getD_take_append _ _ _ _ _ (by omega) hn, getD_take_append _ _ _ _ _ (by omega) hn]

theorem leU16_take_append (s t : List Byte) (n i : Nat) (hi : i + 2 ≤ n) (hn : n ≤ s.length) :
    leU16 (s.take n ++ t) i = leU16 s i := by
  unfold leU16
  rw [getD_take_append _ _ _ _ _ (by omega) hn, getD_take_append _ _ _ _ _ (by omega) hn]

theorem leU32_lt (s : List Byte) (i : Nat) : leU32 s i < 2 ^ 32 := by
  unfold leU32
  have h0 := (s.getD i 0).isLt
  have h1 := (s.getD (i+1) 0).isLt
  have h2 := (s.getD (i+2) 0).isLt
  have h3 := (s.getD (i+3) 0).isLt
  omega

theorem toInt32_bounds (u : Nat) : -2 ^ 31 ≤ toInt32 u ∧ toInt32 u < 2 ^ 31 := by
  unfold toInt32
  split <;> omega

/-- The reads of the header fields in `decodebmpBody`, on the array that holds
the first `n` bytes of `s`. -/
theorem decodebmpBody_fields (s zs : List Byte) (n offset infoLen : Nat) (r : List Byte)
    (hn : n ≤ s.length) (h54 : 54 ≤ n) (h70 : infoLen > infoHeaderLen → 70 ≤ n) :
    decodebmpBody (s.take n ++ zs) offset infoLen r =
      (let width := toInt32 (leU32 s 18)
       let height := toInt32 (leU32 s 22)
       let height := if height < 0 then -height else height
       if width < 0 ∨ height < 0 then .error .ErrUnsupported else
       let compression :=
         if leU32 s 30 = 3 ∧ infoLen > infoHeaderLen ∧ leU32 s 54 = 0xff0000 ∧
           leU32 s 58 = 0xff00 ∧ leU32 s 62 = 0xff ∧ leU32 s 66 = 0xff000000
         then 0 else leU32 s 30
       if leU16 s 26 ≠ 1 ∨ compression ≠ 0 then .error .ErrUnsupported else
       if leU16 s 28 = 8 then
         if leU32 s 46 ≠ 0 ∧ leU32 s 46 > 256 then .error .ErrUnsupported else
         let colorUsed := if leU32 s 46 = 0 then 256 else leU32 s 46
         if offset ≠ (fileHeaderLen + infoLen + colorUsed * 4) % 2 ^ 32 then .error .ErrUnsupported
         else
         match ReadFull r (colorUsed * 4) with
         | (.error e, _) => .error e
         | (.ok pal, _) =>
           .ok (⟨width, height⟩, bmpPalette (pal ++ (s.take n ++ zs).drop (colorUsed * 4)) colorUsed)
       else if leU16 s 28 = 24 then
         if offset ≠ (fileHeaderLen + infoLen) % 2 ^ 32 then .error .ErrUnsupported else
         .ok (⟨width, height⟩, [])
       else if leU16 s 28 = 32 then
         if offset ≠ (fileHeaderLen + infoLen) % 2 ^ 32 then .error .ErrUnsupported else
         .ok (⟨width, height⟩, [])
       else .error .ErrUnsupported) := by
  have e18 : readUint32 (slice (s.take n ++ zs) 18 22) = leU32 s 18 := by
    rw [readUint32_slice _ 18, leU32_take_append _ _ _ _ (by omega) hn]
  have e22 : readUint32 (slice (s.take n ++ zs) 22 26) = leU32 s 22 := by
    rw [readUint32_slice _ 22, leU32_take_append _ _ _ _ (by omega) hn]
  have e26 : readUint16 (slice (s.take n ++ zs) 26 28) = leU16 s 26 := by
    rw [readUint16_slice _ 26, leU16_take_append _ _ _ _ (by omega) hn]
  have e28 : readUint16 (slice (s.take n ++ zs) 28 30) = leU16 s 28 := by
    rw [readUint16_slice _ 28, leU16_take_append _ _ _ _ (by omega) hn]
  have e30 : readUint32 (slice (s.take n ++ zs) 30 34) = leU32 s 30 := by
    rw [readUint32_slice _ 30, leU32_take_append _ _ _ _ (by omega) hn]
  have e46 : readUint32 (slice (s.take n ++ zs) 46 50) = leU32 s 46 := by
    rw [readUint32_slice _ 46, leU32_take_append _ _ _ _ (by omega) hn]
  unfold decodebmpBody
  simp only [e18, e22, e26, e28, e30, e46]
  by_cases hi : infoLen > infoHeaderLen
  · have h := h70 hi
    rw [readUint32_slice _ 54, leU32_take_append _ _ _ _ (by omega) hn,
      readUint32_slice _ 58, leU32_take_append _ _ _ _ (by omega) hn,
      readUint32_slice _ 62, leU32_take_append _ _ _ _ (by omega) hn,
      readUint32_slice _ 66, leU32_take_append _ _ _ _ (by omega) hn]
  · simp only [hi, false_and, and_false, if_false]

/-- Both header reads of `decodebmp` succeed on a stream that holds the whole header. -/
theorem decodebmpPalette_eq_body (s : List Byte) (L : Nat)
    (hL : L = 40 ∨ L = 108 ∨ L = 124) (hlen : 14 + L ≤ s.length)
    (hB : s.getD 0 0 = 0x42) (hM : s.getD 1 0 = 0x4d) (hinfo : leU32 s 14 = L) :
    decodebmpPalette s =
      decodebmpBody (s.take (14 + L) ++ List.replicate (1024 - (14 + L)) 0) (leU32 s 10) L
        (s.drop (14 + L)) := by
  have h18 : 18 ≤ s.length := by omega
  have hs02 : slice (List.take 18 s) 0 2 = [0x42, 0x4d] := by
    match s, h18, hB, hM with
    | a :: b :: rest, _, hB, hM =>
      simp at hB hM
      simp [slice, hB, hM]
  have e10 : readUint32 (slice (List.take 18 s) 10 14) = leU32 s 10 := by
    rw [readUint32_slice]
    have := leU32_take_append s [] 18 10 (by omega) h18
    simpa using this
  have e14 : readUint32 (slice (List.take 18 s) 14 18) = L := by
    rw [readUint32_slice, ← hinfo]
    have := leU32_take_append s [] 18 14 (by omega) h18
    simpa using this
  unfold decodebmpPalette
  simp only [ReadFull, fileHeaderLen, h18, if_true]
  simp only [hs02, e10, e14, ne_eq, not_true_eq_false, if_false]
  have hnot : ¬ (L ≠ infoHeaderLen ∧ L ≠ v4InfoHeaderLen ∧ L ≠ v5InfoHeaderLen) := by
    simp only [infoHeaderLen, v4InfoHeaderLen, v5InfoHeaderLen]; omega
  simp only [ne_eq] at hnot
  rw [if_neg hnot]
  have h2 : 14 + L - (14 + 4) ≤ (List.drop (14 + 4) s).length := by simp; omega
  rw [if_pos h2]
  simp only
  congr 1
  · have : List.take (14 + 4) s ++ List.take (14 + L - (14 + 4)) (List.drop (14 + 4) s) = List.take (14 + L) s := by
      have : 14 + L = (14 + 4) + (14 + L - (14 + 4)) := by omega
      conv_rhs => rw [this, List.take_add]
    rw [this]
  · rw [List.drop_drop]; congr 1; omega

theorem bmpPalette_append (pal rest : List Byte) (n : Nat) (h : 4 * n ≤ pal.length) :
    bmpPalette (pal ++ rest) n = bmpPalette pal n := by
  unfold bmpPalette
  apply List.map_congr_left
  intro i hi
  have hi : i < n := List.mem_range.mp hi
  simp only [List.getD_eq_getElem?_getD]
  rw [List.getElem?_append_left (by omega), List.getElem?_append_left (by omega),
    List.getElem?_append_left (by omega)]

/-- `decodebmp` with its palette on a stream that holds the whole header, by header fields. -/
theorem decodebmpPalette_fields (s : List Byte) (L : Nat)
    (hL : L = 40 ∨ L = 108 ∨ L = 124) (hlen : 14 + L ≤ s.length)
    (hB : s.getD 0 0 = 0x42) (hM : s.getD 1 0 = 0x4d) (hinfo : leU32 s 14 = L) :
    decodebmpPalette s =
      (let width := toInt32 (leU32 s 18)
       let height := toInt32 (leU32 s 22)
       let height := if height < 0 then -height else height
       if width < 0 ∨ height < 0 then .error .ErrUnsupported else
       let compression :=
         if leU32 s 30 = 3 ∧ L > infoHeaderLen ∧ leU32 s 54 = 0xff0000 ∧
           leU32 s 58 = 0xff00 ∧ leU32 s 62 = 0xff ∧ leU32 s 66 = 0xff000000
         then 0 else leU32 s 30
       if leU16 s 26 ≠ 1 ∨ compression ≠ 0 then .error .ErrUnsupported else
       if leU16 s 28 = 8 then
         if leU32 s 46 ≠ 0 ∧ leU32 s 46 > 256 then .error .ErrUnsupported else
         let colorUsed := if leU32 s 46 = 0 then 256 else leU32 s 46
         if leU32 s 10 ≠ (fileHeaderLen + L + colorUsed * 4) % 2 ^ 32 then .error .ErrUnsupported
         else if 14 + L + colorUsed * 4 ≤ s.length then
           .ok (⟨width, height⟩, bmpPalette (s.drop (14 + L)) colorUsed)
         else .error (if s.length = 14 + L then .EOF else .ErrUnexpectedEOF)
       else if leU16 s 28 = 24 then
         if leU32 s 10 ≠ (fileHeaderLen + L) % 2 ^ 32 then .error .ErrUnsupported else
         .ok (⟨width, height⟩, [])
       else if leU16 s 28 = 32 then
         if leU32 s 10 ≠ (fileHeaderLen + L) % 2 ^ 32 then .error .ErrUnsupported else
         .ok (⟨width, height⟩, [])
       else .error .ErrUnsupported) := by
  rw [decodebmpPalette_eq_body s L hL hlen hB hM hinfo]
  rw [decodebmpBody_fields s _ (14 + L) _ L _ hlen (by omega)
    (by intro h; simp only [infoHeaderLen] at h; omega)]
  have hcu : 0 < (if leU32 s 46 = 0 then 256 else leU32 s 46) := by split <;> omega
  generalize (if leU32 s 46 = 0 then 256 else leU32 s 46) = cu at hcu ⊢
  have hpal : 14 + L + cu * 4 ≤ s.length →
      bmpPalette (List.take (cu * 4) (s.drop (14 + L)) ++
        (s.take (14 + L) ++ List.replicate (1024 - (14 + L)) 0).drop (cu * 4)) cu =
      bmpPalette (s.drop (14 + L)) cu := by
    intro h
    rw [bmpPalette_append _ _ _ (by simp; omega)]
    unfold bmpPalette
    apply List.map_congr_left
    intro i hi
    have hi : i < cu := List.mem_range.mp hi
    simp only [List.getD_eq_getElem?_getD]
    rw [List.getElem?_take_of_lt (by omega), List.getElem?_take_of_lt (by omega),
      List.getElem?_take_of_lt (by omega)]
  simp only [ReadFull]
  by_cases h : 14 + L + cu * 4 ≤ s.length
  · have h2 : cu * 4 ≤ (List.drop (14 + L) s).length := by simp; omega
    simp only [h2, h, if_true, hpal h]
  · have h2 : ¬ cu * 4 ≤ (List.drop (14 + L) s).length := by simp; omega
    simp only [h2, h, if_false]
    by_cases h3 : s.length = 14 + L
    · have : (List.drop (14 + L) s).length = 0 := by simp; omega
      simp only [this, h3, if_true]
    · have : ¬ (List.drop (14 + L) s).length = 0 := by simp; omega
      simp only [this, h3, if_false]

/-- `decodebmp` on a stream that holds the whole header, by header fields. -/
theorem decodebmp_fields (s : List Byte) (L : Nat)
    (hL : L = 40 ∨ L = 108 ∨ L = 124) (hlen : 14 + L ≤ s.length)
    (hB : s.getD 0 0 = 0x42) (hM : s.getD 1 0 = 0x4d) (hinfo : leU32 s 14 = L) :
    decodebmp s =
      (let width := toInt32 (leU32 s 18)
       let height := toInt32 (leU32 s 22)
       let height := if height < 0 then -height else height
       if width < 0 ∨ height < 0 then .error .ErrUnsupported else
       let compression :=
         if leU32 s 30 = 3 ∧ L > infoHeaderLen ∧ leU32 s 54 = 0xff0000 ∧
           leU32 s 58 = 0xff00 ∧ leU32 s 62 = 0xff ∧ leU32 s 66 = 0xff000000
         then 0 else leU32 s 30
       if leU16 s 26 ≠ 1 ∨ compression ≠ 0 then .error .ErrUnsupported else
       if leU16 s 28 = 8 then
         if leU32 s 46 ≠ 0 ∧ leU32 s 46 > 256 then .error .ErrUnsupported else
         let colorUsed := if leU32 s 46 = 0 then 256 else leU32 s 46
         if leU32 s 10 ≠ (fileHeaderLen + L + colorUsed * 4) % 2 ^ 32 then .error .ErrUnsupported
         else if 14 + L + colorUsed * 4 ≤ s.length then .ok ⟨width, height⟩
         else .error (if s.length = 14 + L then .EOF else .ErrUnexpectedEOF)
       else if leU16 s 28 = 24 then
         if leU32 s 10 ≠ (fileHeaderLen + L) % 2 ^ 32 then .error .ErrUnsupported else
         .ok ⟨width, height⟩
       else if leU16 s 28 = 32 then
         if leU32 s 10 ≠ (fileHeaderLen + L) % 2 ^ 32 then .error .ErrUnsupported else
         .ok ⟨width, height⟩
       else .error .ErrUnsupported) := by
  unfold decodebmp
  rw [decodebmpPalette_fields s L hL hlen hB hM hinfo]
  simp only [apply_ite (Except.map Prod.fst)]
  simp only [Except.map]

theorem abs_height (h : Int) : (if h < 0 then -h else h) = |h| := by
  split
  · rw [abs_of_neg (by assumption)]
  · rw [abs_of_nonneg (by omega)]

/-- A stream with a supported header, one plane, no compression, 24 or 32 bits per pixel,
the matching pixel-data offset and a width that is not negative decodes to the width and
the absolute value of the height. -/
theorem decodebmp_direct_ok (s : List Byte) (L : Nat)
    (hL : L = 40 ∨ L = 108 ∨ L = 124) (hlen : 14 + L ≤ s.length)
    (hB : s.getD 0 0 = 0x42) (hM : s.getD 1 0 = 0x4d) (hinfo : leU32 s 14 = L)
    (hplanes : leU16 s 26 = 1) (hcomp : leU32 s 30 = 0)
    (hbpp : leU16 s 28 = 24 ∨ leU16 s 28 = 32) (hoff : leU32 s 10 = 14 + L)
    (hw : 0 ≤ toInt32 (leU32 s 18)) :
    decodebmp s = .ok ⟨toInt32 (leU32 s 18), |toInt32 (leU32 s 22)|⟩ := by
  have hmod : (fileHeaderLen + L) % 2 ^ 32 = 14 + L := by
    simp only [fileHeaderLen]; omega
  rw [decodebmp_fields s L hL hlen hB hM hinfo]
  simp only [abs_height, hplanes, hcomp, hoff, hmod]
  have h1 : ¬ (toInt32 (leU32 s 18) < 0 ∨ |toInt32 (leU32 s 22)| < 0) := by
    have := abs_nonneg (toInt32 (leU32 s 22)); omega
  rcases hbpp with h | h <;> simp [h, h1]

/-- A pixel-data offset other than the one the depth calls for gives `ErrUnsupported`. -/
theorem decodebmp_offset_mismatch (s : List Byte) (L : Nat)
    (hL : L = 40 ∨ L = 108 ∨ L = 124) (hlen : 14 + L ≤ s.length)
    (hB : s.getD 0 0 = 0x42) (hM : s.getD 1 0 = 0x4d) (hinfo : leU32 s 14 = L)
    (hbpp : leU16 s 28 = 8 ∨ leU16 s 28 = 24 ∨ leU16 s 28 = 32)
    (hoff : leU32 s 10 ≠
      if leU16 s 28 = 8 then 14 + L + 4 * (if leU32 s 46 = 0 then 256 else leU32 s 46)
      else 14 + L) :
    decodebmp s = .error .ErrUnsupported := by
  rw [decodebmp_fields s L hL hlen hB hM hinfo]
  simp only [fileHeaderLen]
  rw [ite_eq_left_iff]; intro _
  rw [ite_eq_left_iff]; intro _
  rcases hbpp with h | h | h
  · rw [if_pos h] at hoff ⊢
    rw [ite_eq_left_iff]; intro hcu
    rw [ite_eq_left_iff]; intro hne
    exfalso
    split_ifs at hoff hne hcu <;> omega
  · rw [if_neg (by omega)] at hoff
    rw [if_neg (by omega), if_pos h, ite_eq_left_iff]
    intro hne; exfalso; omega
  · rw [if_neg (by omega)] at hoff
    rw [if_neg (by omega), if_neg (by omega), if_pos h, ite_eq_left_iff]
    intro hne; exfalso; omega

theorem length_replaceAt (s v : List Byte) (i : Nat) (h : i + v.length ≤ s.length) :
    (replaceAt s i v).length = s.length := by
  simp [replaceAt]; omega

theorem getD_replaceAt_lt (s v : List Byte) (i k : Nat) (d : Byte) (h : i + v.length ≤ s.length)
    (hk : k < i) : (replaceAt s i v).getD k d = s.getD k d := by
  unfold replaceAt
  simp only [List.getD_eq_getElem?_getD, List.append_assoc]
  rw [List.getElem?_append_left (by simp; omega), List.getElem?_take_of_lt hk]

theorem getD_replaceAt_ge (s v : List Byte) (i k : Nat) (d : Byte) (h : i + v.length ≤ s.length)
    (hk : i + v.length ≤ k) : (replaceAt s i v).getD k d = s.getD k d := by
  unfold replaceAt
  simp only [List.getD_eq_getElem?_getD]
  rw [List.getElem?_append_right (by simp; omega), List.getElem?_drop]
  congr 2
  simp
  omega

theorem getD_replaceAt_mid (s v : List Byte) (i k : Nat) (d : Byte) (h : i + v.length ≤ s.length)
    (hk : k < v.length) : (replaceAt s i v).getD (i + k) d = v.getD k d := by
  unfold replaceAt
  simp only [List.getD_eq_getElem?_getD, List.append_assoc]
  rw [List.getElem?_append_right (by simp), List.getElem?_append_left (by simp; omega)]
  congr 2
  simp; omega

theorem drop_replaceAt (s v : List Byte) (i n : Nat) (h : i + v.length ≤ s.length)
    (hn : i + v.length ≤ n) : (replaceAt s i v).drop n = s.drop n := by
  apply List.ext_getElem?
  intro k
  have h1 := getD_replaceAt_ge s v i (n + k) 0 h (by omega)
  rw [List.getElem?_drop, List.getElem?_drop]
  by_cases hk : n + k < s.length
  · have hk2 : n + k < (replaceAt s i v).length := by rw [length_replaceAt s v i h]; exact hk
    simp only [List.getD_eq_getElem?_getD] at h1
    rw [List.getElem?_eq_getElem hk, List.getElem?_eq_getElem hk2] at h1 ⊢
    simpa using h1
  · have hl := length_replaceAt s v i h
    rw [List.getElem?_eq_none (by omega), List.getElem?_eq_none (by omega)]

theorem leU32_replaceAt (s v : List Byte) (i k : Nat) (h : i + v.length ≤ s.length)
    (hk : k + 4 ≤ i ∨ i + v.length ≤ k) : leU32 (replaceAt s i v) k = leU32 s k := by
  unfold leU32
  rcases hk with hk | hk
  · rw [getD_replaceAt_lt _ _ _ _ _ h (by omega), getD_replaceAt_lt _ _ _ _ _ h (by omega),
      getD_replaceAt_lt _ _ _ _ _ h (by omega), getD_replaceAt_lt _ _ _ _ _ h (by omega)]
  · rw [getD_replaceAt_ge _ _ _ _ _ h (by omega), getD_replaceAt_ge _ _ _ _ _ h (by omega),
      getD_replaceAt_ge _ _ _ _ _ h (by omega), getD_replaceAt_ge _ _ _ _ _ h (by omega)]

theorem leU16_replaceAt (s v : List Byte) (i k : Nat) (h : i + v.length ≤ s.length)
    (hk : k + 2 ≤ i ∨ i + v.length ≤ k) : leU16 (replaceAt s i v) k = leU16 s k := by
  unfold leU16
  rcases hk with hk | hk
  · rw [getD_replaceAt_lt _ _ _ _ _ h (by omega), getD_replaceAt_lt _ _ _ _ _ h (by omega)]
  · rw [getD_replaceAt_ge _ _ _ _ _ h (by omega), getD_replaceAt_ge _ _ _ _ _ h (by omega)]

theorem leU32_replaceAt_self (s : List Byte) (a b c d : Byte) (i : Nat) (h : i + 4 ≤ s.length) :
    leU32 (replaceAt s i [a, b, c, d]) i = a.val + 2 ^ 8 * b.val + 2 ^ 16 * c.val + 2 ^ 24 * d.val := by
  unfold leU32
  have h0 := getD_replaceAt_mid s [a, b, c, d] i 0 0 h (by simp)
  have h1 := getD_replaceAt_mid s [a, b, c, d] i 1 0 h (by simp)
  have h2 := getD_replaceAt_mid s [a, b, c, d] i 2 0 h (by simp)
  have h3 := getD_replaceAt_mid s [a, b, c, d] i 3 0 h (by simp)
  rw [Nat.add_zero] at h0
  rw [h0, h1, h2, h3]
  rfl

theorem slice_take_magic (s : List Byte) (h18 : 18 ≤ s.length) :
    slice (List.take (14 + 4) s) 0 2 = [s.getD 0 0, s.getD 1 0] := by
  match s, h18 with
  | a :: b :: rest, _ => simp [slice]

/-- `decodebmp` with its palette on a stream of at least 18 bytes, by header fields. -/
theorem decodebmpPalette_header (s : List Byte) (h18 : 18 ≤ s.length) :
    decodebmpPalette s =
      if ¬ (s.getD 0 0 = 0x42 ∧ s.getD 1 0 = 0x4d) then .error .bmpInvalidFormat
      else if leU32 s 14 ≠ 40 ∧ leU32 s 14 ≠ 108 ∧ leU32 s 14 ≠ 124 then .error .ErrUnsupported
      else if s.length < 14 + leU32 s 14 then .error .ErrUnexpectedEOF
      else decodebmpBody (s.take (14 + leU32 s 14) ++ List.replicate (1024 - (14 + leU32 s 14)) 0)
        (leU32 s 10) (leU32 s 14) (s.drop (14 + leU32 s 14)) := by
  have e14 : readUint32 (slice (List.take (14 + 4) s) 14 18) = leU32 s 14 := by
    rw [readUint32_slice _ 14]
    have := leU32_take_append s [] 18 14 (by omega) h18
    simpa using this
  by_cases hBM : s.getD 0 0 = 0x42 ∧ s.getD 1 0 = 0x4d
  · rw [if_neg (by simpa using hBM)]
    have hs02 : slice (List.take (14 + 4) s) 0 2 = [0x42, 0x4d] := by
      rw [slice_take_magic s h18, hBM.1, hBM.2]
    by_cases hL : leU32 s 14 ≠ 40 ∧ leU32 s 14 ≠ 108 ∧ leU32 s 14 ≠ 124
    · rw [if_pos hL]
      unfold decodebmpPalette
      simp only [ReadFull, fileHeaderLen, h18, if_true, hs02, e14, ne_eq, not_true_eq_false,
        if_false, infoHeaderLen, v4InfoHeaderLen, v5InfoHeaderLen]
      rw [if_pos hL]
    · rw [if_neg hL]
      by_cases hlen : s.length < 14 + leU32 s 14
      · rw [if_pos hlen]
        unfold decodebmpPalette
        simp only [ReadFull, fileHeaderLen, h18, if_true, hs02, e14, ne_eq, not_true_eq_false,
          if_false, infoHeaderLen, v4InfoHeaderLen, v5InfoHeaderLen]
        rw [if_neg hL]
        have h2 : ¬ (14 + leU32 s 14 - (14 + 4) ≤ (List.drop (14 + 4) s).length) := by
          simp; omega
        rw [if_neg h2]
        by_cases h0 : (List.drop (14 + 4) s).length = 0
        · simp only [h0, if_true]
        · simp only [h0, if_false]
          rfl
      · rw [if_neg hlen]
        exact decodebmpPalette_eq_body s _ (by omega) (by omega) hBM.1 hBM.2 rfl
  · rw [if_pos hBM]
    have hs02 : slice (List.take (14 + 4) s) 0 2 ≠ [0x42, 0x4d] := by
      rw [slice_take_magic s h18]
      intro h
      apply hBM
      simp only [List.cons.injEq, and_true] at h
      exact h
    unfold decodebmpPalette
    simp only [ReadFull, fileHeaderLen, h18, if_true, hs02, ne_eq, not_false_eq_true]

/-! ## BMP: claims C6 and C10 -/

/-- C6: a BMP stream with a supported header length `L`, one plane, no compression, 24 or
32 bits per pixel, pixel-data offset `14 + L` and a width field that is not negative as a
signed 32-bit integer decodes to that width and the absolute value of the height field. -/
theorem decodebmp_returns_width_and_abs_height (s : List Byte) (L : Nat)
    (hL : L = 40 ∨ L = 108 ∨ L = 124) (hlen : 14 + L ≤ s.length)
    (hB : s.getD 0 0 = 0x42) (hM : s.getD 1 0 = 0x4d) (hinfo : leU32 s 14 = L)
    (hplanes : leU16 s 26 = 1) (hcomp : leU32 s 30 = 0)
    (hbpp : leU16 s 28 = 24 ∨ leU16 s 28 = 32) (hoff : leU32 s 10 = 14 + L)
    (hw : 0 ≤ toInt32 (leU32 s 18)) :
    decodebmp s = .ok ⟨toInt32 (leU32 s 18), |toInt32 (leU32 s 22)|⟩ :=
  decodebmp_direct_ok s L hL hlen hB hM hinfo hplanes hcomp hbpp hoff hw

theorem decodebmp_returns_width_and_abs_height_witness :
    decodebmp bmp24 = .ok ⟨3, 2⟩ :=
  decodebmp_returns_width_and_abs_height bmp24 40 (by decide) (by decide) (by decide) (by decide)
    (by decide) (by decide) (by decide) (by decide) (by decide) (by decide)

/-- C10: a stream of at least 18 bytes that starts with "BM" and declares a DIB header
length other than 40, 108 and 124 gives `ErrUnsupported`. -/
theorem decodebmp_header_length_unsupported (s : List Byte) (h18 : 18 ≤ s.length)
    (hB : s.getD 0 0 = 0x42) (hM : s.getD 1 0 = 0x4d)
    (hL : leU32 s 14 ≠ 40 ∧ leU32 s 14 ≠ 108 ∧ leU32 s 14 ≠ 124) :
    decodebmp s = .error .ErrUnsupported := by
  unfold decodebmp
  rw [decodebmpPalette_header s h18, if_neg (not_not.mpr ⟨hB, hM⟩), if_pos hL]
  rfl

theorem decodebmp_header_length_unsupported_witness :
    decodebmp bmpCore = .error .ErrUnsupported :=
  decodebmp_header_length_unsupported bmpCore (by decide) (by decide) (by decide) (by decide)

/-- Compression 3 with the default masks decodes like compression 0. -/
theorem decodebmp_bitfields_eq (s : List Byte) (L : Nat)
    (hL : L = 40 ∨ L = 108 ∨ L = 124) (hlen : 14 + L ≤ s.length)
    (hB : s.getD 0 0 = 0x42) (hM : s.getD 1 0 = 0x4d) (hinfo : leU32 s 14 = L)
    (hc : bitfieldsDefault s L) :
    decodebmp s = decodebmp (replaceAt s 30 [0, 0, 0, 0]) := by
  have h34 : 30 + ([0, 0, 0, 0] : List Byte).length ≤ s.length := by simp; omega
  have hlen2 : 14 + L ≤ (replaceAt s 30 [0, 0, 0, 0]).length := by
    rw [length_replaceAt _ _ _ h34]; exact hlen
  have hB2 : (replaceAt s 30 [0, 0, 0, 0]).getD 0 0 = 0x42 := by
    rw [getD_replaceAt_lt _ _ _ _ _ h34 (by omega)]; exact hB
  have hM2 : (replaceAt s 30 [0, 0, 0, 0]).getD 1 0 = 0x4d := by
    rw [getD_replaceAt_lt _ _ _ _ _ h34 (by omega)]; exact hM
  have hinfo2 : leU32 (replaceAt s 30 [0, 0, 0, 0]) 14 = L := by
    rw [leU32_replaceAt _ _ _ _ h34 (by omega)]; exact hinfo
  rw [decodebmp_fields s L hL hlen hB hM hinfo,
    decodebmp_fields _ L hL hlen2 hB2 hM2 hinfo2]
  have hl : ([0, 0, 0, 0] : List Byte).length = 4 := rfl
  rw [leU32_replaceAt s _ 30 18 h34 (by omega), leU32_replaceAt s _ 30 22 h34 (by omega),
    leU32_replaceAt s _ 30 10 h34 (by omega), leU32_replaceAt s _ 30 46 h34 (by omega),
    leU32_replaceAt s _ 30 54 h34 (by omega), leU32_replaceAt s _ 30 58 h34 (by omega),
    leU32_replaceAt s _ 30 62 h34 (by omega), leU32_replaceAt s _ 30 66 h34 (by omega),
    leU16_replaceAt s _ 30 26 h34 (by omega), leU16_replaceAt s _ 30 28 h34 (by omega),
    leU32_replaceAt_self s 0 0 0 0 30 (by omega), length_replaceAt _ _ _ h34]
  have hc2 : leU32 s 30 = 3 ∧ L > infoHeaderLen ∧ leU32 s 54 = 0xff0000 ∧ leU32 s 58 = 0xff00 ∧
      leU32 s 62 = 0xff ∧ leU32 s 66 = 0xff000000 := by
    simp only [infoHeaderLen]; exact hc
  simp only [hc2, and_self, if_true]
  simp

/-- Planes other than 1, or a compression that is neither 0 nor bit fields with the
default masks, give `ErrUnsupported`. -/
theorem decodebmp_planes_compression (s : List Byte) (L : Nat)
    (hL : L = 40 ∨ L = 108 ∨ L = 124) (hlen : 14 + L ≤ s.length)
    (hB : s.getD 0 0 = 0x42) (hM : s.getD 1 0 = 0x4d) (hinfo : leU32 s 14 = L)
    (h : leU16 s 26 ≠ 1 ∨ (leU32 s 30 ≠ 0 ∧ ¬ bitfieldsDefault s L)) :
    decodebmp s = .error .ErrUnsupported := by
  rw [decodebmp_fields s L hL hlen hB hM hinfo]
  simp only
  rw [ite_eq_left_iff]; intro _
  rw [if_pos]
  rcases h with h | ⟨h1, h2⟩
  · exact Or.inl h
  · right
    have h3 : ¬ (leU32 s 30 = 3 ∧ L > infoHeaderLen ∧ leU32 s 54 = 0xff0000 ∧
        leU32 s 58 = 0xff00 ∧ leU32 s 62 = 0xff ∧ leU32 s 66 = 0xff000000) := h2
    rw [if_neg h3]
    exact h1

/-- A colors-used field of 0 and one of 256 give the same result and the same palette. -/
theorem decodebmpPalette_colors_zero (s : List Byte) (h50 : 50 ≤ s.length) :
    decodebmpPalette (replaceAt s 46 [0, 0, 0, 0]) =
      decodebmpPalette (replaceAt s 46 [0, 1, 0, 0]) := by
  have h0 : 46 + ([0, 0, 0, 0] : List Byte).length ≤ s.length := by simp; omega
  have h1 : 46 + ([0, 1, 0, 0] : List Byte).length ≤ s.length := by simp; omega
  have hl0 : ([0, 0, 0, 0] : List Byte).length = 4 := rfl
  have hl1 : ([0, 1, 0, 0] : List Byte).length = 4 := rfl
  have e0 : leU32 (replaceAt s 46 [0, 0, 0, 0]) 46 = 0 := by
    rw [leU32_replaceAt_self s 0 0 0 0 46 (by omega)]; rfl
  have e1 : leU32 (replaceAt s 46 [0, 1, 0, 0]) 46 = 256 := by
    rw [leU32_replaceAt_self s 0 1 0 0 46 (by omega)]; rfl
  by_cases hv : (s.getD 0 0 = 0x42 ∧ s.getD 1 0 = 0x4d) ∧
      (leU32 s 14 = 40 ∨ leU32 s 14 = 108 ∨ leU32 s 14 = 124) ∧ 14 + leU32 s 14 ≤ s.length
  · obtain ⟨⟨hB, hM⟩, hL, hlen⟩ := hv
    have h54 : 50 ≤ 14 + leU32 s 14 := by omega
    rw [decodebmpPalette_fields (replaceAt s 46 [0, 0, 0, 0]) (leU32 s 14) hL
        (by rw [length_replaceAt _ _ _ h0]; exact hlen)
        (by rw [getD_replaceAt_lt _ _ _ _ _ h0 (by omega)]; exact hB)
        (by rw [getD_replaceAt_lt _ _ _ _ _ h0 (by omega)]; exact hM)
        (by rw [leU32_replaceAt _ _ _ _ h0 (by omega)]),
      decodebmpPalette_fields (replaceAt s 46 [0, 1, 0, 0]) (leU32 s 14) hL
        (by rw [length_replaceAt _ _ _ h1]; exact hlen)
        (by rw [getD_replaceAt_lt _ _ _ _ _ h1 (by omega)]; exact hB)
        (by rw [getD_replaceAt_lt _ _ _ _ _ h1 (by omega)]; exact hM)
        (by rw [leU32_replaceAt _ _ _ _ h1 (by omega)])]
    rw [e0, e1, length_replaceAt _ _ _ h0, length_replaceAt _ _ _ h1,
      drop_replaceAt _ _ _ _ h0 (by omega), drop_replaceAt _ _ _ _ h1 (by omega)]
    rw [leU32_replaceAt s _ 46 18 h0 (by omega), leU32_replaceAt s _ 46 22 h0 (by omega),
      leU32_replaceAt s _ 46 10 h0 (by omega), leU32_replaceAt s _ 46 30 h0 (by omega),
      leU32_replaceAt s _ 46 54 h0 (by omega), leU32_replaceAt s _ 46 58 h0 (by omega),
      leU32_replaceAt s _ 46 62 h0 (by omega), leU32_replaceAt s _ 46 66 h0 (by omega),
      leU16_replaceAt s _ 46 26 h0 (by omega), leU16_replaceAt s _ 46 28 h0 (by omega)]
    rw [leU32_replaceAt s _ 46 18 h1 (by omega), leU32_replaceAt s _ 46 22 h1 (by omega),
      leU32_replaceAt s _ 46 10 h1 (by omega), leU32_replaceAt s _ 46 30 h1 (by omega),
      leU32_replaceAt s _ 46 54 h1 (by omega), leU32_replaceAt s _ 46 58 h1 (by omega),
      leU32_replaceAt s _ 46 62 h1 (by omega), leU32_replaceAt s _ 46 66 h1 (by omega),
      leU16_replaceAt s _ 46 26 h1 (by omega), leU16_replaceAt s _ 46 28 h1 (by omega)]
    simp
  · rw [decodebmpPalette_header _ (by rw [length_replaceAt _ _ _ h0]; omega),
      decodebmpPalette_header _ (by rw [length_replaceAt _ _ _ h1]; omega)]
    rw [length_replaceAt _ _ _ h0, length_replaceAt _ _ _ h1,
      getD_replaceAt_lt _ _ _ _ _ h0 (by omega), getD_replaceAt_lt _ _ _ _ _ h0 (by omega),
      getD_replaceAt_lt _ _ _ _ _ h1 (by omega), getD_replaceAt_lt _ _ _ _ _ h1 (by omega),
      leU32_replaceAt s _ 46 14 h0 (by omega), leU32_replaceAt s _ 46 14 h1 (by omega)]
    by_cases hBM : s.getD 0 0 = 0x42 ∧ s.getD 1 0 = 0x4d
    · rw [if_neg (not_not.mpr hBM), if_neg (not_not.mpr hBM)]
      by_cases hL : leU32 s 14 ≠ 40 ∧ leU32 s 14 ≠ 108 ∧ leU32 s 14 ≠ 124
      · rw [if_pos hL, if_pos hL]
      · rw [if_neg hL, if_neg hL]
        have hlen : s.length < 14 + leU32 s 14 := by
          by_contra hc
          exact hv ⟨hBM, by omega, by omega⟩
        rw [if_pos hlen, if_pos hlen]
    · rw [if_pos hBM, if_pos hBM]

/-- More than 256 colors in an 8-bit image give `ErrUnsupported`. -/
theorem decodebmp_colors_above_256 (s : List Byte) (L : Nat)
    (hL : L = 40 ∨ L = 108 ∨ L = 124) (hlen : 14 + L ≤ s.length)
    (hB : s.getD 0 0 = 0x42) (hM : s.getD 1 0 = 0x4d) (hinfo : leU32 s 14 = L)
    (hbpp : leU16 s 28 = 8) (hcu : 256 < leU32 s 46) :
    decodebmp s = .error .ErrUnsupported := by
  rw [decodebmp_fields s L hL hlen hB hM hinfo]
  simp only
  rw [ite_eq_left_iff]; intro _
  rw [ite_eq_left_iff]; intro _
  rw [if_pos hbpp, if_pos ⟨by omega, hcu⟩]

/-- The palette of an 8-bit image with a colors-used field of 0 is made of the 1024 bytes
that follow the header. -/
theorem decodebmpPalette_zero_palette (s : List Byte) (L : Nat)
    (hL : L = 40 ∨ L = 108 ∨ L = 124) (hlen : 14 + L ≤ s.length)
    (hB : s.getD 0 0 = 0x42) (hM : s.getD 1 0 = 0x4d) (hinfo : leU32 s 14 = L)
    (hbpp : leU16 s 28 = 8) (hcu : leU32 s 46 = 0 ∨ leU32 s 46 = 256)
    (size : Size) (pal : List RGBA)
    (h : decodebmpPalette s = .ok (size, pal)) :
    14 + L + 1024 ≤ s.length ∧ leU32 s 10 = 14 + L + 1024 ∧
      pal = bmpPalette (s.drop (14 + L)) 256 := by
  rw [decodebmpPalette_fields s L hL hlen hB hM hinfo] at h
  simp only [fileHeaderLen] at h
  have hcu2 : (if leU32 s 46 = 0 then 256 else leU32 s 46) = 256 := by
    rcases hcu with h | h <;> simp [h]
  rw [hcu2] at h
  by_cases c1 : toInt32 (leU32 s 18) < 0 ∨
      (if toInt32 (leU32 s 22) < 0 then -toInt32 (leU32 s 22) else toInt32 (leU32 s 22)) < 0
  · rw [if_pos c1] at h; cases h
  · rw [if_neg c1] at h
    by_cases c2 : leU16 s 26 ≠ 1 ∨ (if leU32 s 30 = 3 ∧ L > infoHeaderLen ∧
        leU32 s 54 = 0xff0000 ∧ leU32 s 58 = 0xff00 ∧ leU32 s 62 = 0xff ∧
        leU32 s 66 = 0xff000000 then 0 else leU32 s 30) ≠ 0
    · rw [if_pos c2] at h; cases h
    · rw [if_neg c2, if_pos hbpp] at h
      by_cases c3 : leU32 s 46 ≠ 0 ∧ leU32 s 46 > 256
      · rw [if_pos c3] at h; cases h
      · rw [if_neg c3] at h
        by_cases c4 : leU32 s 10 ≠ (14 + L + 256 * 4) % 2 ^ 32
        · rw [if_pos c4] at h; cases h
        · rw [if_neg c4] at h
          by_cases c5 : 14 + L + 256 * 4 ≤ s.length
          · rw [if_pos c5] at h
            injection h with h
            injection h with h1 h2
            exact ⟨by omega, by omega, h2.symm⟩
          · rw [if_neg c5] at h; cases h

/-! ## BMP: claims C7, C8 and C9 -/

/-- C7: on a stream that holds a header of supported length `L`: planes other than 1 give
`ErrUnsupported`; a compression field that is neither 0 nor 3 with the four default masks
in an extended header gives `ErrUnsupported`; compression 3 with the default masks gives
the result of the same stream with compression 0; and where everything else is in order
(one plane, a width that is not negative, 24 or 32 bits, the matching offset) the stream
decodes to a `Size` exactly when the compression is 0 or 3 with the default masks. -/
theorem decodebmp_compression_check (s : List Byte) (L : Nat)
    (hL : L = 40 ∨ L = 108 ∨ L = 124) (hlen : 14 + L ≤ s.length)
    (hB : s.getD 0 0 = 0x42) (hM : s.getD 1 0 = 0x4d) (hinfo : leU32 s 14 = L) :
    (leU16 s 26 ≠ 1 → decodebmp s = .error .ErrUnsupported) ∧
    (leU32 s 30 ≠ 0 → ¬ bitfieldsDefault s L → decodebmp s = .error .ErrUnsupported) ∧
    (bitfieldsDefault s L → decodebmp s = decodebmp (replaceAt s 30 [0, 0, 0, 0])) ∧
    (leU16 s 26 = 1 → 0 ≤ toInt32 (leU32 s 18) → (leU16 s 28 = 24 ∨ leU16 s 28 = 32) →
      leU32 s 10 = 14 + L →
      ((∃ size, decodebmp s = .ok size) ↔ (leU32 s 30 = 0 ∨ bitfieldsDefault s L))) := by
  refine ⟨fun h => decodebmp_planes_compression s L hL hlen hB hM hinfo (Or.inl h),
    fun h1 h2 => decodebmp_planes_compression s L hL hlen hB hM hinfo (Or.inr ⟨h1, h2⟩),
    fun h => decodebmp_bitfields_eq s L hL hlen hB hM hinfo h, ?_⟩
  intro hplanes hw hbpp hoff
  constructor
  · rintro ⟨size, hsize⟩
    by_contra hne
    push_neg at hne
    rw [decodebmp_planes_compression s L hL hlen hB hM hinfo (Or.inr hne)] at hsize
    cases hsize
  · rintro (hc | hc)
    · exact ⟨_, decodebmp_direct_ok s L hL hlen hB hM hinfo hplanes hc hbpp hoff hw⟩
    · rw [decodebmp_bitfields_eq s L hL hlen hB hM hinfo hc]
      have h34 : 30 + ([0, 0, 0, 0] : List Byte).length ≤ s.length := by simp; omega
      have hl : ([0, 0, 0, 0] : List Byte).length = 4 := rfl
      refine ⟨_, decodebmp_direct_ok (replaceAt s 30 [0, 0, 0, 0]) L hL ?_ ?_ ?_ ?_ ?_ ?_ ?_ ?_ ?_⟩
      · rw [length_replaceAt _ _ _ h34]; exact hlen
      · rw [getD_replaceAt_lt _ _ _ _ _ h34 (by omega)]; exact hB
      · rw [getD_replaceAt_lt _ _ _ _ _ h34 (by omega)]; exact hM
      · rw [leU32_replaceAt _ _ _ _ h34 (by omega)]; exact hinfo
      · rw [leU16_replaceAt _ _ _ _ h34 (by omega)]; exact hplanes
      · rw [leU32_replaceAt_self s 0 0 0 0 30 (by omega)]; rfl
      · rw [leU16_replaceAt _ _ _ _ h34 (by omega)]; exact hbpp
      · rw [leU32_replaceAt _ _ _ _ h34 (by omega)]; exact hoff
      · rw [leU32_replaceAt _ _ _ _ h34 (by omega)]; exact hw

theorem decodebmp_compression_check_witness :
    decodebmp bmpBitfields = decodebmp (replaceAt bmpBitfields 30 [0, 0, 0, 0]) ∧
    decodebmp (replaceAt bmpBitfields 30 [1, 0, 0, 0]) = .error .ErrUnsupported :=
  ⟨(decodebmp_compression_check bmpBitfields 108 (by decide) (by decide) (by decide) (by decide)
      (by decide)).2.2.1 (by decide),
   (decodebmp_compression_check (replaceAt bmpBitfields 30 [1, 0, 0, 0]) 108 (by decide)
      (by decide) (by decide) (by decide) (by decide)).2.1 (by decide) (by decide)⟩

/-- C8: on a stream that holds a header of supported length `L`, with 8, 24 or 32 bits per
pixel, a pixel-data offset other than `14 + L` (24 and 32 bits) or `14 + L + 4 * colors`
(8 bits, `colors` being 256 for a colors-used field of 0) gives `ErrUnsupported`, whether
or not the earlier checks pass; no `Size` is returned. -/
theorem decodebmp_offset_mismatch_unsupported (s : List Byte) (L : Nat)
    (hL : L = 40 ∨ L = 108 ∨ L = 124) (hlen : 14 + L ≤ s.length)
    (hB : s.getD 0 0 = 0x42) (hM : s.getD 1 0 = 0x4d) (hinfo : leU32 s 14 = L)
    (hbpp : leU16 s 28 = 8 ∨ leU16 s 28 = 24 ∨ leU16 s 28 = 32)
    (hoff : leU32 s 10 ≠
      if leU16 s 28 = 8 then 14 + L + 4 * (if leU32 s 46 = 0 then 256 else leU32 s 46)
      else 14 + L) :
    decodebmp s = .error .ErrUnsupported ∧ ∀ size, decodebmp s ≠ .ok size := by
  have h := decodebmp_offset_mismatch s L hL hlen hB hM hinfo hbpp hoff
  refine ⟨h, ?_⟩
  intro size hs
  rw [h] at hs
  cases hs

theorem decodebmp_offset_mismatch_unsupported_witness :
    decodebmp (replaceAt bmp24 10 [55, 0, 0, 0]) = .error .ErrUnsupported ∧
    decodebmp (replaceAt bmp8 10 [0x36, 0, 0, 0]) = .error .ErrUnsupported :=
  ⟨(decodebmp_offset_mismatch_unsupported (replaceAt bmp24 10 [55, 0, 0, 0]) 40 (by decide)
      (by decide) (by decide) (by decide) (by decide) (by decide) (by decide)).1,
   (decodebmp_offset_mismatch_unsupported (replaceAt bmp8 10 [0x36, 0, 0, 0]) 40 (by decide)
      (by decide) (by decide) (by decide) (by decide) (by decide) (by decide)).1⟩

/-- C9: two streams that differ only in the colors-used field (bytes 46..49), 0 in one
and 256 in the other, give the same outcome of `decodebmp`, palette included; on an
8-bit stream with a readable header of length `L` both need the pixel-data offset
`14 + L + 1024`, a palette that is returned is made of the 1024 bytes after the header,
and a colors-used field above 256 gives `ErrUnsupported`. -/
theorem decodebmp_colors_used_zero_same_as_256 (s : List Byte) (h50 : 50 ≤ s.length) :
    decodebmpPalette (replaceAt s 46 [0, 0, 0, 0]) =
      decodebmpPalette (replaceAt s 46 [0, 1, 0, 0]) ∧
    decodebmp (replaceAt s 46 [0, 0, 0, 0]) = decodebmp (replaceAt s 46 [0, 1, 0, 0]) ∧
    ∀ L, (L = 40 ∨ L = 108 ∨ L = 124) → 14 + L ≤ s.length → s.getD 0 0 = 0x42 →
      s.getD 1 0 = 0x4d → leU32 s 14 = L → leU16 s 28 = 8 →
      (leU32 s 10 ≠ 14 + L + 1024 →
        decodebmp (replaceAt s 46 [0, 0, 0, 0]) = .error .ErrUnsupported ∧
        decodebmp (replaceAt s 46 [0, 1, 0, 0]) = .error .ErrUnsupported) ∧
      (∀ size pal, decodebmpPalette (replaceAt s 46 [0, 0, 0, 0]) = .ok (size, pal) →
        pal = bmpPalette (s.drop (14 + L)) 256) ∧
      (256 < leU32 s 46 → decodebmp s = .error .ErrUnsupported) := by
  have heq := decodebmpPalette_colors_zero s h50
  refine ⟨heq, by unfold decodebmp; rw [heq], ?_⟩
  intro L hL hlen hB hM hinfo hbpp
  have h0 : 46 + ([0, 0, 0, 0] : List Byte).length ≤ s.length := by simp; omega
  have hl0 : ([0, 0, 0, 0] : List Byte).length = 4 := rfl
  have e0 : leU32 (replaceAt s 46 [0, 0, 0, 0]) 46 = 0 := by
    rw [leU32_replaceAt_self s 0 0 0 0 46 (by omega)]; rfl
  have hlen0 : 14 + L ≤ (replaceAt s 46 [0, 0, 0, 0]).length := by
    rw [length_replaceAt _ _ _ h0]; exact hlen
  have hB0 : (replaceAt s 46 [0, 0, 0, 0]).getD 0 0 = 0x42 := by
    rw [getD_replaceAt_lt _ _ _ _ _ h0 (by omega)]; exact hB
  have hM0 : (replaceAt s 46 [0, 0, 0, 0]).getD 1 0 = 0x4d := by
    rw [getD_replaceAt_lt _ _ _ _ _ h0 (by omega)]; exact hM
  have hinfo0 : leU32 (replaceAt s 46 [0, 0, 0, 0]) 14 = L := by
    rw [leU32_replaceAt _ _ _ _ h0 (by omega)]; exact hinfo
  have hbpp0 : leU16 (replaceAt s 46 [0, 0, 0, 0]) 28 = 8 := by
    rw [leU16_replaceAt _ _ _ _ h0 (by omega)]; exact hbpp
  refine ⟨?_, ?_, fun hcu => decodebmp_colors_above_256 s L hL hlen hB hM hinfo hbpp hcu⟩
  · intro hoff
    have h1 : decodebmp (replaceAt s 46 [0, 0, 0, 0]) = .error .ErrUnsupported := by
      apply decodebmp_offset_mismatch _ L hL hlen0 hB0 hM0 hinfo0 (Or.inl hbpp0)
      rw [if_pos hbpp0, e0, leU32_replaceAt _ _ _ _ h0 (by omega)]
      simpa using hoff
    refine ⟨h1, ?_⟩
    unfold decodebmp at h1 ⊢
    rw [← heq]; exact h1
  · intro size pal h
    have := (decodebmpPalette_zero_palette _ L hL hlen0 hB0 hM0 hinfo0 hbpp0 (Or.inl e0)
      size pal h).2.2
    rw [drop_replaceAt _ _ _ _ h0 (by omega)] at this
    exact this

theorem decodebmp_colors_used_zero_same_as_256_witness :
    decodebmp (replaceAt bmp8 46 [0, 0, 0, 0]) = decodebmp (replaceAt bmp8 46 [0, 1, 0, 0]) :=
  (decodebmp_colors_used_zero_same_as_256 bmp8 (by decide)).2.1

/-! ## WebP: the VP8L bit reader -/

theorem subU32_eq (a b : Nat) (h : b ≤ a) (ha : a < 2 ^ 32) : subU32 a b = a - b := by
  unfold subU32
  rw [Nat.mod_eq_of_lt (by omega : b < 2 ^ 32)]
  omega

theorem mask_eq (n : Nat) (hn : n < 32) : ((1 <<< n) % 2 ^ 32 + 2 ^ 32 - 1) % 2 ^ 32 = 2 ^ n - 1 := by
  rw [Nat.one_shiftLeft]
  have h1 : 2 ^ n < 2 ^ 32 := Nat.pow_lt_pow_right (by omega) hn
  have h2 : 0 < 2 ^ n := Nat.two_pow_pos _
  rw [Nat.mod_eq_of_lt h1]
  omega

/-- `read` when enough bits are pending. -/
theorem readBits_done (n : Nat) (r : List Byte) (bits nBits : Nat) (hn : n < 32)
    (h : n ≤ nBits) (hb : nBits < 2 ^ 32) :
    vp8ldecoder.readBits n r bits nBits = .ok (bits % 2 ^ n, ⟨r, bits / 2 ^ n, nBits - n⟩) := by
  have h1 : ¬ nBits < n := by omega
  cases r <;>
    simp only [vp8ldecoder.readBits, h1, if_false, mask_eq n hn, Nat.and_pow_two_sub_one_eq_mod,
      Nat.shiftRight_eq_div_pow, subU32_eq nBits n h hb]

/-- `read` when a byte has to be fetched. -/
theorem readBits_step (n : Nat) (c : Byte) (r : List Byte) (bits nBits : Nat)
    (h : nBits < n) (h24 : nBits ≤ 24) (hbits : bits < 2 ^ nBits) :
    vp8ldecoder.readBits n (c :: r) bits nBits =
      vp8ldecoder.readBits n r (bits + 2 ^ nBits * c.val) (nBits + 8) := by
  have hc := c.isLt
  have h1 : c.val <<< nBits < 2 ^ 32 := by
    rw [Nat.shiftLeft_eq]
    calc c.val * 2 ^ nBits < 2 ^ 8 * 2 ^ nBits := by
          apply Nat.mul_lt_mul_of_pos_right (by omega) (Nat.two_pow_pos _)
      _ = 2 ^ (8 + nBits) := by rw [Nat.pow_add]
      _ ≤ 2 ^ 32 := Nat.pow_le_pow_right (by omega) (by omega)
  simp only [vp8ldecoder.readBits, h, if_true]
  rw [Nat.mod_eq_of_lt h1, or_shl_eq_add _ _ _ hbits, Nat.mod_eq_of_lt (by omega : nBits + 8 < 2 ^ 32)]

/-- The five reads of `decodeVP8LHeader` on five bytes. -/
theorem vp8l_reads (b0 b1 b2 b3 b4 : Byte) (rest : List Byte) :
    let V := b0.val + 2 ^ 8 * b1.val + 2 ^ 16 * b2.val + 2 ^ 24 * b3.val + 2 ^ 32 * b4.val
    vp8ldecoder.read ⟨b0 :: b1 :: b2 :: b3 :: b4 :: rest, 0, 0⟩ 8 =
      .ok (V % 2 ^ 8, ⟨b1 :: b2 :: b3 :: b4 :: rest, 0, 0⟩) ∧
    vp8ldecoder.read ⟨b1 :: b2 :: b3 :: b4 :: rest, 0, 0⟩ 14 =
      .ok (V / 2 ^ 8 % 2 ^ 14, ⟨b3 :: b4 :: rest, V / 2 ^ 22 % 2 ^ 2, 2⟩) ∧
    vp8ldecoder.read ⟨b3 :: b4 :: rest, V / 2 ^ 22 % 2 ^ 2, 2⟩ 14 =
      .ok (V / 2 ^ 22 % 2 ^ 14, ⟨rest, V / 2 ^ 36, 4⟩) ∧
    vp8ldecoder.read ⟨rest, V / 2 ^ 36, 4⟩ 1 = .ok (V / 2 ^ 36 % 2, ⟨rest, V / 2 ^ 37, 3⟩) ∧
    vp8ldecoder.read ⟨rest, V / 2 ^ 37, 3⟩ 3 = .ok (V / 2 ^ 37 % 2 ^ 3, ⟨rest, 0, 0⟩) := by
  intro V
  have h0 := b0.isLt
  have h1 := b1.isLt
  have h2 := b2.isLt
  have h3 := b3.isLt
  have h4 := b4.isLt
  simp only [vp8ldecoder.read]
  refine ⟨?_, ?_, ?_, ?_, ?_⟩
  · rw [readBits_step 8 b0 _ 0 0 (by omega) (by omega) (by omega),
      readBits_done 8 _ _ _ (by omega) (by omega) (by omega)]
    simp only [V]
    congr 2
    · omega
    · congr 1; omega
  · rw [readBits_step 14 b1 _ 0 0 (by omega) (by omega) (by omega),
      readBits_step 14 b2 _ _ (0 + 8) (by omega) (by omega) (by omega),
      readBits_done 14 _ _ _ (by omega) (by omega) (by omega)]
    simp only [V]
    congr 2
    · omega
    · congr 1; omega
  · rw [readBits_step 14 b3 _ _ 2 (by omega) (by omega) (by omega),
      readBits_step 14 b4 _ _ (2 + 8) (by omega) (by omega) (by omega),
      readBits_done 14 _ _ _ (by omega) (by omega) (by omega)]
    simp only [V]
    congr 2
    · omega
    · congr 1; omega
  · rw [readBits_done 1 _ _ _ (by omega) (by omega) (by omega)]
    simp only [V]
    congr 2
    · congr 1; omega
  · rw [readBits_done 3 _ _ _ (by omega) (by omega) (by omega)]
    simp only [V]
    congr 2
    · congr 1; omega

theorem toInt32_of_lt (u : Nat) (h : u < 2 ^ 31) : toInt32 u = (u : Int) := by
  unfold toInt32
  rw [Nat.mod_eq_of_lt (by omega : u < 2 ^ 32), if_pos h]

/-- `decodeVP8LHeader` on at least five bytes. -/
theorem decodeVP8LHeader_five (b0 b1 b2 b3 b4 : Byte) (rest : List Byte) :
    decodeVP8LHeader (b0 :: b1 :: b2 :: b3 :: b4 :: rest) =
      if b0.val ≠ 0x2f then .error .vp8lInvalidHeader
      else if b4.val / 2 ^ 5 ≠ 0 then .error .vp8lInvalidVersion
      else
        .ok (((1 + (b1.val + 2 ^ 8 * b2.val + 2 ^ 16 * b3.val + 2 ^ 24 * b4.val) % 2 ^ 14 : Nat) : Int),
             ((1 + (b1.val + 2 ^ 8 * b2.val + 2 ^ 16 * b3.val + 2 ^ 24 * b4.val) / 2 ^ 14 % 2 ^ 14
                : Nat) : Int)) := by
  have h0 := b0.isLt
  have h1 := b1.isLt
  have h2 := b2.isLt
  have h3 := b3.isLt
  have h4 := b4.isLt
  obtain ⟨r1, r2, r3, r4, r5⟩ := vp8l_reads b0 b1 b2 b3 b4 rest
  have hm : (b0.val + 2 ^ 8 * b1.val + 2 ^ 16 * b2.val + 2 ^ 24 * b3.val + 2 ^ 32 * b4.val) % 2 ^ 8
      = b0.val := by omega
  have hv : (b0.val + 2 ^ 8 * b1.val + 2 ^ 16 * b2.val + 2 ^ 24 * b3.val + 2 ^ 32 * b4.val)
      / 2 ^ 37 % 2 ^ 3 = b4.val / 2 ^ 5 := by omega
  rw [hm] at r1
  rw [hv] at r5
  unfold decodeVP8LHeader
  rw [r1]
  split
  · rename_i heq; cases heq
  rename_i heq; cases heq
  by_cases hmagic : b0.val ≠ 0x2f
  · rw [if_pos hmagic, if_pos hmagic]
  rw [if_neg hmagic, if_neg hmagic, r2]
  split
  · rename_i heq; cases heq
  rename_i heq; cases heq
  rw [r3]
  split
  · rename_i heq; cases heq
  rename_i heq; cases heq
  rw [r4]
  split
  · rename_i heq; cases heq
  rename_i heq; cases heq
  rw [r5]
  split
  · rename_i heq; cases heq
  rename_i heq; cases heq
  by_cases hver : b4.val / 2 ^ 5 ≠ 0
  · rw [if_pos hver, if_pos hver]
  rw [if_neg hver, if_neg hver]
  rw [toInt32_of_lt _ (by omega), toInt32_of_lt _ (by omega)]
  congr 3
  · omega
  · omega

/-! ## WebP: the chunk reader -/

theorem toByte_val (x : Nat) : (toByte x).val = x % 256 := rfl

theorem u32_le32 (d : Nat) (t : List Byte) (hd : d < 2 ^ 32) : u32 (le32 d ++ t) = d := by
  unfold u32 le32
  simp only [List.cons_append, List.nil_append, List.getD_cons_zero, List.getD_cons_succ]
  rw [or_shl4 _ _ _ _ (Fin.isLt _) (Fin.isLt _) (Fin.isLt _)]
  simp only [toByte_val]
  omega

theorem length_le32 (d : Nat) : (le32 d).length = 4 := rfl

theorem length_padOf_le (data : List Byte) (pad : Byte) : (padOf data pad).length ≤ 1 := by
  unfold padOf; split <;> simp

/-- A `Read` through the chunk reader when the chunk is used up. -/
theorem chunkReader_Read_zero (r : List Byte) (T : Nat) (p : Bool) (k : Nat) :
    chunkReader_Read ⟨r, none, T, 0, p⟩ k = (([], some .EOF), ⟨r, none, T, 0, p⟩) := by
  simp only [chunkReader_Read, if_true]

/-- A `Read` through the chunk reader when the underlying reader holds what is asked. -/
theorem chunkReader_Read_avail (r : List Byte) (T cl : Nat) (p : Bool) (k n : Nat)
    (hcl : cl ≠ 0) (hn : n = if cl > k then k else cl) (hk : k ≠ 0) (hr : n ≤ r.length) :
    chunkReader_Read ⟨r, none, T, cl, p⟩ k =
      ((r.take n, none), ⟨r.drop n, none, subU32 T n, subU32 cl n, p⟩) := by
  have hn0 : n ≠ 0 := by rw [hn]; split <;> omega
  have h1 : ¬ r.length = 0 := by omega
  have h2 : (List.take n r).length = n := by rw [List.length_take]; omega
  simp only [chunkReader_Read, hcl, if_false, readerRead, h1, ← hn, h2]
  simp

/-- Draining a chunk whose data the underlying reader holds. -/
theorem copyDiscardChunk_pending (data t : List Byte) (T : Nat) (p : Bool)
    (hne : data.length ≠ 0) (hT : data.length ≤ T) (hT32 : T < 2 ^ 32) :
    copyDiscardChunk ⟨data ++ t, none, T, data.length, p⟩ =
      ((data.length, none), ⟨t, none, T - data.length, 0, p⟩) := by
  have h2 : subU32 T data.length = T - data.length := subU32_eq _ _ hT hT32
  have h3 : subU32 data.length data.length = 0 := by
    rw [subU32_eq data.length data.length (le_refl _) (by omega)]; omega
  unfold copyDiscardChunk
  rw [chunkReader_Read_avail (data ++ t) T data.length p data.length data.length hne (by simp)
    hne (by simp)]
  simp only [List.take_left', List.drop_left', h2, h3]
  rw [chunkReader_Read_zero]
  simp

/-- The part of `next` after the previous chunk is drained and its padding is read. -/
theorem next_header (id : fourCC) (d T : Nat) (tail : List Byte)
    (hid : id.length = 4) (hd : d < 2 ^ 32) (hT : 8 + d ≤ T) :
    webpeader.next ⟨id ++ le32 d ++ tail, none, T, 0, false⟩ =
      (.ok (id, d), ⟨tail, none, T - 8, d, decide (d % 2 = 1)⟩) := by
  have h1 : ¬ T = 0 := by omega
  have h2 : ¬ T < 8 := by omega
  have h3 : 8 ≤ (id ++ le32 d ++ tail).length := by
    simp only [List.length_append, length_le32, hid]; omega
  have h4 : List.take 8 (id ++ le32 d ++ tail) = id ++ le32 d := by
    rw [List.append_assoc, ← List.append_assoc]
    apply List.take_left'
    simp [length_le32, hid]
  have h5 : List.drop 8 (id ++ le32 d ++ tail) = tail := by
    apply List.drop_left'
    simp [length_le32, hid]
  have h6 : slice (id ++ le32 d) 0 4 = id := by
    unfold slice
    simp only [List.drop_zero]
    exact List.take_left' hid
  have h7 : u32 (List.drop 4 (id ++ le32 d)) = d := by
    rw [List.drop_left' hid]
    have := u32_le32 d [] hd
    simpa using this
  have h8 : ¬ d > T - 8 := by omega
  simp only [webpeader.next, ne_eq, not_true_eq_false, if_false, Bool.false_eq_true, h1, h2,
    chunkHeaderSize, ReadFull, h3, if_true, h4, h5, h6, h7, h8]


/-- `next` on a reader with a whole chunk pending and a well-framed chunk header after it. -/
theorem next_pending (data : List Byte) (pad : Byte) (T : Nat) (id : fourCC) (d : Nat)
    (tail : List Byte) (hid : id.length = 4) (hd : d < 2 ^ 32) (hT32 : T < 2 ^ 32)
    (hT : data.length + (padOf data pad).length + 8 + d ≤ T) :
    (pendingState data pad T (id ++ le32 d ++ tail)).next =
      (.ok (id, d),
        ⟨tail, none, T - (data.length + (padOf data pad).length + 8), d, decide (d % 2 = 1)⟩) := by
  have h3 : 8 ≤ (id ++ le32 d ++ tail).length := by
    simp only [List.length_append, length_le32, hid]; omega
  have h4 : List.take 8 (id ++ le32 d ++ tail) = id ++ le32 d := by
    rw [List.append_assoc, ← List.append_assoc]
    apply List.take_left'
    simp [length_le32, hid]
  have h5 : List.drop 8 (id ++ le32 d ++ tail) = tail := by
    apply List.drop_left'
    simp [length_le32, hid]
  have h6 : slice (id ++ le32 d) 0 4 = id := by
    unfold slice
    simp only [List.drop_zero]
    exact List.take_left' hid
  have h7 : u32 (List.drop 4 (id ++ le32 d)) = d := by
    rw [List.drop_left' hid]
    have := u32_le32 d [] hd
    simpa using this
  by_cases hne : data.length = 0
  · have hdata : data = [] := List.length_eq_zero.mp hne
    subst hdata
    have := next_header id d T tail hid hd (by simpa [padOf] using hT)
    simpa [pendingState, padOf] using this
  · have hmod : data.length % 2 ^ 32 = data.length := Nat.mod_eq_of_lt (by omega)
    unfold pendingState
    generalize hR : id ++ le32 d ++ tail = R at h3 h4 h5 ⊢
    by_cases hodd : data.length % 2 = 1
    · have hp : padOf data pad = [pad] := by simp [padOf, hodd]
      rw [hp] at hT ⊢
      simp only [List.length_singleton] at hT
      rw [List.append_assoc, List.singleton_append]
      have hc := copyDiscardChunk_pending data (pad :: R) T true hne (by omega) hT32
      have h1 : ¬ T - data.length = 0 := by omega
      have h1b : ¬ T - data.length - 1 = 0 := by omega
      have h2 : ¬ T - data.length - 1 < 8 := by omega
      have h8 : ¬ d > T - data.length - 1 - 8 := by omega
      have h9 : T - data.length - 1 - 8 = T - (data.length + 1 + 8) := by omega
      have h10 : ¬ d > T - (data.length + 1 + 8) := by omega
      simp only [hodd, decide_True, webpeader.next, ne_eq, hne, not_false_eq_true,
        if_true, hc, hmod, not_true_eq_false,
        and_false, if_false, h1, ReadFull, List.length_cons,
        Nat.le_add_left, List.take_succ_cons, List.drop_succ_cons, List.drop_zero, h1b, h2,
        chunkHeaderSize, h3, h4, h5, h6, h7, h8, h9, h10, List.length_nil, Nat.zero_add]
    · have hp : padOf data pad = [] := by simp [padOf, hodd]
      rw [hp] at hT ⊢
      simp only [List.length_nil] at hT
      rw [List.append_nil]
      have hc := copyDiscardChunk_pending data R T false hne (by omega) hT32
      have h1 : ¬ T - data.length = 0 := by omega
      have h2 : ¬ T - data.length < 8 := by omega
      have h8 : ¬ d > T - data.length - 8 := by omega
      have h9 : T - data.length - 8 = T - (data.length + 0 + 8) := by omega
      have h10 : ¬ d > T - (data.length + 0 + 8) := by omega
      simp only [hodd, decide_False, webpeader.next, ne_eq, hne, not_false_eq_true,
        if_true, hc, hmod, not_true_eq_false, Bool.false_eq_true,
        and_false, if_false, h1, ReadFull, h2,
        chunkHeaderSize, h3, h4, h5, h6, h7, h8, h9, h10, List.length_nil]

theorem length_encodeChunk (c : RiffChunk) (hid : c.id.length = 4) :
    (encodeChunk c).length = 8 + c.data.length + (padOf c.data c.pad).length := by
  simp only [encodeChunk, List.length_append, length_le32, hid]

theorem length_encodeChunks_ge (cs : List RiffChunk) (h : ∀ c ∈ cs, c.id.length = 4 ∧ unrecognised c.id) :
    8 * cs.length ≤ (encodeChunks cs).length := by
  induction cs with
  | nil => simp [encodeChunks]
  | cons c cs ih =>
    have h1 := ih (fun c hc => h c (List.mem_cons_of_mem _ hc))
    have h2 := length_encodeChunk c (h c (List.mem_cons_self _ _)).1
    simp only [encodeChunks, List.length_append, List.length_cons, h2]
    omega

/-- The loop of `decodewebp` passes over chunks whose FourCC it does not act on. -/
theorem decodewebpLoop_skip (dec : List Byte → Except Err (List Byte) × Nat) (v : webpVars)
    (tail : List Byte) (res : Option (Except Err Size)) (Q : Nat → Prop)
    (hbase : ∀ data pad T fuel, T < 2 ^ 32 → data.length + (padOf data pad).length ≤ T →
      Q (T - (data.length + (padOf data pad).length)) →
      decodewebpLoop dec (fuel + 1) (pendingState data pad T tail) v = res)
    (cs : List RiffChunk) (hcs : ∀ c ∈ cs, c.id.length = 4 ∧ unrecognised c.id) :
    ∀ data pad T fuel, T < 2 ^ 32 →
      data.length + (padOf data pad).length + (encodeChunks cs).length ≤ T →
      Q (T - (data.length + (padOf data pad).length + (encodeChunks cs).length)) →
      decodewebpLoop dec (fuel + 1 + cs.length) (pendingState data pad T (encodeChunks cs ++ tail)) v
        = res := by
  induction cs with
  | nil =>
    intro data pad T fuel hT32 hT hQ
    simp only [encodeChunks, List.length_nil, Nat.add_zero, List.nil_append] at hT hQ ⊢
    exact hbase data pad T fuel hT32 hT hQ
  | cons c cs ih =>
    intro data pad T fuel hT32 hT hQ
    obtain ⟨hid, hun⟩ := hcs c (List.mem_cons_self _ _)
    have hlen := length_encodeChunk c hid
    simp only [encodeChunks, List.length_append, hlen] at hT hQ
    have hnext := next_pending data pad T c.id c.data.length
      (c.data ++ padOf c.data c.pad ++ (encodeChunks cs ++ tail)) hid (by omega) hT32 (by omega)
    have hr : encodeChunks (c :: cs) ++ tail =
        c.id ++ le32 c.data.length ++ (c.data ++ padOf c.data c.pad ++ (encodeChunks cs ++ tail)) := by
      simp only [encodeChunks, encodeChunk, List.append_assoc]
    rw [hr]
    have hfuel : fuel + 1 + (c :: cs).length = (fuel + 1 + cs.length) + 1 := by
      simp only [List.length_cons]; omega
    rw [hfuel, decodewebpLoop, hnext]
    obtain ⟨h1, h2, h3, h4⟩ := hun
    simp only [h1, h2, h3, h4, if_false]
    have := ih (fun c hc => hcs c (List.mem_cons_of_mem _ hc)) c.data c.pad
      (T - (data.length + (padOf data pad).length + 8)) fuel (by omega) (by omega)
      (by
        have e : T - (data.length + (padOf data pad).length + 8) -
            (c.data.length + (padOf c.data c.pad).length + (encodeChunks cs).length) =
            T - (data.length + (padOf data pad).length +
              (8 + c.data.length + (padOf c.data c.pad).length + (encodeChunks cs).length)) := by
          omega
        rw [e]; exact hQ)
    exact this

/-- `io.ReadFull` through the chunk reader when chunk and reader hold the bytes. -/
theorem ReadFullChunk_avail (r : List Byte) (T cl : Nat) (p : Bool) (k : Nat)
    (hk : k ≠ 0) (hkc : k ≤ cl) (hr : k ≤ r.length) :
    ReadFullChunk ⟨r, none, T, cl, p⟩ k =
      (.ok (r.take k), ⟨r.drop k, none, subU32 T k, subU32 cl k, p⟩) := by
  unfold ReadFullChunk
  rw [if_neg hk, chunkReader_Read_avail r T cl p k k (by omega) (by split <;> omega) hk hr]
  have h2 : (List.take k r).length = k := by rw [List.length_take]; omega
  simp only [h2, ge_iff_le, le_refl, if_true]

/-- `newReader` on a RIFF header with form type WEBP. -/
theorem newReader_riffHeader (n : Nat) (s : List Byte) (hn : 4 ≤ n) (hn32 : n < 2 ^ 32) :
    newReader (riffHeader n ++ s) = .ok (fccWEBP, ⟨s, none, n - 4, 0, false⟩) := by
  have h1 : ReadFull (riffHeader n ++ s) chunkHeaderSize =
      (.ok ([0x52, 0x49, 0x46, 0x46] ++ le32 n), fccWEBP ++ s) := by
    unfold ReadFull
    rw [if_pos (by simp [riffHeader, chunkHeaderSize, length_le32])]
    rfl
  have h2 : u32 (List.drop 4 ([0x52, 0x49, 0x46, 0x46] ++ le32 n)) = n := by
    have := u32_le32 n [] hn32
    simpa using this
  unfold newReader
  rw [h1]
  simp only [h2]
  have h3 : ¬ n < 4 := by omega
  simp [newListReader, h3, ReadFull, fccWEBP, slice]

/-- The loop of `decodewebp` at a `VP8X` chunk of length 10 whose data is there. -/
theorem decodewebpLoop_vp8x (dec : List Byte → Except Err (List Byte) × Nat) (v : webpVars)
    (payload rest : List Byte) (hp : payload.length = 10)
    (data : List Byte) (pad : Byte) (T fuel : Nat) (hT32 : T < 2 ^ 32)
    (hT : data.length + (padOf data pad).length ≤ T)
    (hQ : 18 ≤ T - (data.length + (padOf data pad).length)) :
    decodewebpLoop dec (fuel + 1)
        (pendingState data pad T (fccVP8X ++ le32 10 ++ (payload ++ rest))) v =
      some (.ok ⟨(leU24 payload 4 : Int) + 1, (leU24 payload 7 : Int) + 1⟩) := by
  have hnext := next_pending data pad T fccVP8X 10 (payload ++ rest) rfl (by omega) hT32 (by omega)
  rw [decodewebpLoop, hnext]
  have hrf := ReadFullChunk_avail (payload ++ rest)
    (T - (data.length + (padOf data pad).length + 8)) 10 (decide (10 % 2 = 1)) 10 (by omega)
    (by omega) (by simp [hp])
  have htake : List.take 10 (payload ++ rest) = payload := List.take_left' hp
  rw [htake] at hrf
  have e1 : fccVP8X ≠ fccALPH := by decide
  have e2 : fccVP8X ≠ fccVP8 := by decide
  have e3 : fccVP8X ≠ fccVP8L := by decide
  simp only [e1, e2, e3, if_false, if_true, ne_eq, not_true_eq_false, hrf, ite_self]
  rw [or_shl3 _ _ _ (Fin.isLt _) (Fin.isLt _), or_shl3 _ _ _ (Fin.isLt _) (Fin.isLt _)]
  rfl

/-! ## WebP: the chunk loop -/

/-- `decodewebp` on a well-framed container that starts with chunks it does not act on:
the result is that of the loop at what follows them. -/
theorem decodewebp_of_loop (dec : List Byte → Except Err (List Byte) × Nat) (n : Nat)
    (cs : List RiffChunk) (tail : List Byte) (res : Option (Except Err Size)) (Q : Nat → Prop)
    (hn32 : n < 2 ^ 32) (hcs : ∀ c ∈ cs, c.id.length = 4 ∧ unrecognised c.id)
    (hn : 4 + (encodeChunks cs).length ≤ n) (hQ : Q (n - 4 - (encodeChunks cs).length))
    (hbase : ∀ data pad T fuel, T < 2 ^ 32 → data.length + (padOf data pad).length ≤ T →
      Q (T - (data.length + (padOf data pad).length)) →
      decodewebpLoop dec (fuel + 1) (pendingState data pad T tail) ⟨none, 0, false, 0, 0⟩ = res) :
    decodewebp dec (riffHeader n ++ (encodeChunks cs ++ tail)) = res := by
  have hge := length_encodeChunks_ge cs hcs
  unfold decodewebp
  rw [newReader_riffHeader n _ (by omega) hn32]
  simp only [ne_eq, not_true_eq_false, if_false, chunkHeaderSize]
  have hstate : (⟨encodeChunks cs ++ tail, none, n - 4, 0, false⟩ : webpeader) =
      pendingState [] 0 (n - 4) (encodeChunks cs ++ tail) := by
    simp [pendingState, padOf]
  obtain ⟨fuel, hfuel⟩ : ∃ fuel, (n - 4) / 8 + 1 = fuel + 1 + cs.length :=
    ⟨(n - 4) / 8 - cs.length, by omega⟩
  rw [hstate, hfuel]
  apply decodewebpLoop_skip dec _ _ _ Q hbase cs hcs
  · omega
  · simp [padOf]; omega
  · simpa [padOf] using hQ

/-- `decodewebp` on a container whose first chunk with a FourCC it acts on is `VP8X`. -/
theorem decodewebp_vp8x_size (dec : List Byte → Except Err (List Byte) × Nat) (n : Nat)
    (cs : List RiffChunk) (payload rest : List Byte) (hn32 : n < 2 ^ 32)
    (hcs : ∀ c ∈ cs, c.id.length = 4 ∧ unrecognised c.id) (hp : payload.length = 10)
    (hn : 4 + (encodeChunks cs).length + 18 ≤ n) :
    decodewebp dec (riffHeader n ++ encodeChunks cs ++ (fccVP8X ++ le32 10 ++ payload) ++ rest) =
      some (.ok ⟨(leU24 payload 4 : Int) + 1, (leU24 payload 7 : Int) + 1⟩) := by
  have hs : riffHeader n ++ encodeChunks cs ++ (fccVP8X ++ le32 10 ++ payload) ++ rest =
      riffHeader n ++ (encodeChunks cs ++ (fccVP8X ++ le32 10 ++ (payload ++ rest))) := by
    simp only [List.append_assoc]
  rw [hs]
  exact decodewebp_of_loop dec n cs _ _ (fun t => 18 ≤ t) hn32 hcs (by omega) (by omega)
    (fun data pad T fuel hT32 hT hQ =>
      decodewebpLoop_vp8x dec _ payload rest hp data pad T fuel hT32 hT hQ)

/-- The loop of `decodewebp` at an `ALPH` chunk that no `VP8X` chunk announced. -/
theorem decodewebpLoop_alph_unannounced (dec : List Byte → Except Err (List Byte) × Nat)
    (v : webpVars) (hv : v.wantAlpha = false) (d : Nat) (tail : List Byte) (hd : d < 2 ^ 32)
    (data : List Byte) (pad : Byte) (T fuel : Nat) (hT32 : T < 2 ^ 32)
    (hT : data.length + (padOf data pad).length ≤ T)
    (hQ : 8 + d ≤ T - (data.length + (padOf data pad).length)) :
    decodewebpLoop dec (fuel + 1) (pendingState data pad T (fccALPH ++ le32 d ++ tail)) v =
      some (.error .errInvalidFormat) := by
  have hnext := next_pending data pad T fccALPH d tail rfl hd hT32 (by omega)
  rw [decodewebpLoop, hnext]
  simp only [if_true, hv, Bool.not_false]

/-- `readAlpha` with a compression mode other than 0 and 1. -/
theorem readAlpha_bad_mode (dec : List Byte → Except Err (List Byte) × Nat) (z : webpeader)
    (w h c : Nat) (hc : 2 ≤ c) : readAlpha dec z w h c = (.error .errInvalidFormat, z) := by
  unfold readAlpha
  rw [if_neg (by omega), if_neg (by omega)]

/-- The loop of `decodewebp` at an `ALPH` chunk that a `VP8X` chunk announced and whose
control byte selects compression mode 2 or 3. -/
theorem decodewebpLoop_alph_bad_mode (dec : List Byte → Except Err (List Byte) × Nat)
    (v : webpVars) (hv : v.wantAlpha = true) (d : Nat) (ctl : Byte) (tail : List Byte)
    (hd : d < 2 ^ 32) (hd1 : 1 ≤ d) (hmode : 2 ≤ ctl.val &&& 0x03)
    (data : List Byte) (pad : Byte) (T fuel : Nat) (hT32 : T < 2 ^ 32)
    (hT : data.length + (padOf data pad).length ≤ T)
    (hQ : 8 + d ≤ T - (data.length + (padOf data pad).length)) :
    decodewebpLoop dec (fuel + 1) (pendingState data pad T (fccALPH ++ le32 d ++ (ctl :: tail))) v =
      some (.error .errInvalidFormat) := by
  have hnext := next_pending data pad T fccALPH d (ctl :: tail) rfl hd hT32 (by omega)
  rw [decodewebpLoop, hnext]
  have hrf := ReadFullChunk_avail (ctl :: tail)
    (T - (data.length + (padOf data pad).length + 8)) d (decide (d % 2 = 1)) 1 (by omega)
    (by omega) (by simp)
  simp only [if_true, hv, Bool.not_true, Bool.false_eq_true, if_false, hrf, List.take_succ_cons,
    List.take_zero, List.getD_cons_zero]
  rw [readAlpha_bad_mode dec _ _ _ _ hmode]

/-- `io.ReadFull` through the chunk reader when chunk or reader end before `k` bytes. -/
theorem ReadFullChunk_short (r : List Byte) (T cl : Nat) (p : Bool) (k : Nat)
    (hcl32 : cl < 2 ^ 32) (hshort : cl < k ∨ r.length < k) :
    (ReadFullChunk ⟨r, none, T, cl, p⟩ k).1 =
      .error (if cl = 0 ∨ r.length = 0 then .EOF else .ErrUnexpectedEOF) := by
  have hk : k ≠ 0 := by omega
  unfold ReadFullChunk
  rw [if_neg hk]
  by_cases h0 : cl = 0
  · subst h0
    rw [chunkReader_Read_zero]
    simp [hk]
  by_cases hr : r.length = 0
  · have : r = [] := List.length_eq_zero.mp hr
    subst this
    simp [chunkReader_Read, h0, readerRead, hk]
  · -- a first read that is short, then end of file
    obtain ⟨n, hn⟩ : ∃ n, n = if cl > k then k else cl := ⟨_, rfl⟩
    have hn0 : n ≠ 0 := by rw [hn]; split <;> omega
    have hnle : n ≤ cl := by rw [hn]; split <;> omega
    have hnk : n ≤ k := by rw [hn]; split <;> omega
    have hlen : (List.take n r).length = min n r.length := List.length_take _ _
    have hlt : min n r.length < k := by
      rcases hshort with h | h
      · have : n = cl := by rw [hn]; rw [if_neg (by omega)]
        omega
      · omega
    have hpos : 0 < min n r.length := by omega
    have hsub : subU32 cl (min n r.length) = cl - min n r.length :=
      subU32_eq _ _ (by omega) hcl32
    simp only [chunkReader_Read, h0, if_false, readerRead, hr, ← hn, hlen, hsub]
    simp only [ne_eq, reduceCtorEq, not_false_eq_true, if_true, ge_iff_le]
    rw [if_neg (by omega)]
    by_cases h2 : cl - min n r.length = 0
    · simp only [h2, if_true, List.append_nil, hlen]
      rw [if_neg (by omega)]
      simp [h0, hr]
      omega
    · have h3 : (List.drop (min n r.length) r).length = 0 := by
        rw [List.length_drop]
        have hn2 : n = k ∨ n = cl := by rw [hn]; split <;> simp
        have : min n r.length = r.length := by omega
        omega
      simp only [h2, if_false, h3, if_true, List.append_nil, hlen]
      rw [if_neg (by omega)]
      simp [h0, hr]
      omega


/-- `readAlpha` in raw mode when the plane is longer than what the chunk still holds. -/
theorem readAlpha_raw_short (dec : List Byte → Except Err (List Byte) × Nat)
    (r : List Byte) (T cl : Nat) (p : Bool) (w h : Nat) (hcl32 : cl < 2 ^ 32)
    (hshort : cl < (w + 1) * (h + 1) ∨ r.length < (w + 1) * (h + 1)) :
    (readAlpha dec ⟨r, none, T, cl, p⟩ w h 0).1 =
      .error (if cl = 0 ∨ r.length = 0 then .EOF else .ErrUnexpectedEOF) := by
  have hs := ReadFullChunk_short r T cl p ((w + 1) * (h + 1)) hcl32 hshort
  unfold readAlpha
  rw [if_pos rfl]
  dsimp only
  rcases hrfc : ReadFullChunk ⟨r, none, T, cl, p⟩ ((w + 1) * (h + 1)) with ⟨res, z3⟩
  rw [hrfc] at hs
  simp only at hs
  subst hs
  rfl

/-- The loop of `decodewebp` at an `ALPH` chunk that a `VP8X` chunk announced, in raw
mode, with fewer bytes after the control byte than the plane needs. -/
theorem decodewebpLoop_alph_short_raw (dec : List Byte → Except Err (List Byte) × Nat)
    (v : webpVars) (hv : v.wantAlpha = true) (d : Nat) (ctl : Byte) (tail : List Byte)
    (hd : d < 2 ^ 32) (hd1 : 1 ≤ d) (hmode : ctl.val &&& 0x03 = 0)
    (hshort : d - 1 < (v.widthMinusOne + 1) * (v.heightMinusOne + 1) ∨
      tail.length < (v.widthMinusOne + 1) * (v.heightMinusOne + 1))
    (data : List Byte) (pad : Byte) (T fuel : Nat) (hT32 : T < 2 ^ 32)
    (hT : data.length + (padOf data pad).length ≤ T)
    (hQ : 8 + d ≤ T - (data.length + (padOf data pad).length)) :
    decodewebpLoop dec (fuel + 1) (pendingState data pad T (fccALPH ++ le32 d ++ (ctl :: tail))) v =
      some (.error (if d - 1 = 0 ∨ tail.length = 0 then .EOF else .ErrUnexpectedEOF)) := by
  have hnext := next_pending data pad T fccALPH d (ctl :: tail) rfl hd hT32 (by omega)
  rw [decodewebpLoop, hnext]
  have hrf := ReadFullChunk_avail (ctl :: tail)
    (T - (data.length + (padOf data pad).length + 8)) d (decide (d % 2 = 1)) 1 (by omega)
    (by omega) (by simp)
  have hsub : subU32 d 1 = d - 1 := subU32_eq _ _ hd1 hd
  simp only [if_true, hv, Bool.not_true, Bool.false_eq_true, if_false, hrf, List.take_succ_cons,
    List.take_zero, List.getD_cons_zero, List.drop_succ_cons, List.drop_zero, hmode, hsub]
  have hra := readAlpha_raw_short dec tail
    (subU32 (T - (data.length + (padOf data pad).length + 8)) 1) (d - 1) (decide (d % 2 = 1))
    v.widthMinusOne v.heightMinusOne (by omega) hshort
  rcases hpair : readAlpha dec ⟨tail, none,
    subU32 (T - (data.length + (padOf data pad).length + 8)) 1, d - 1, decide (d % 2 = 1)⟩
    v.widthMinusOne v.heightMinusOne 0 with ⟨res, z3⟩
  rw [hpair] at hra
  simp only at hra
  subst hra
  rfl

/-! ## WebP: claims C1, C2 and C3 -/

/-- C1: on a WebP stream (RIFF header, form type WEBP, then well-framed chunks with other
FourCCs) whose first chunk with a FourCC that `decodewebp` acts on is a `VP8X` chunk of
declared length 10 with its 10 bytes present, `decodewebp` returns without error the
24-bit little-endian integers of chunk bytes 4..6 and 7..9, each plus one; the result is
the same for every flag byte, every stream after the chunk and every `vp8l.Decode`. -/
theorem decodewebp_vp8x_dimensions (dec : List Byte → Except Err (List Byte) × Nat) (n : Nat)
    (cs : List RiffChunk) (payload rest : List Byte) (hn32 : n < 2 ^ 32)
    (hcs : ∀ c ∈ cs, c.id.length = 4 ∧ unrecognised c.id) (hp : payload.length = 10)
    (hn : 4 + (encodeChunks cs).length + 18 ≤ n) :
    decodewebp dec (riffHeader n ++ encodeChunks cs ++ (fccVP8X ++ le32 10 ++ payload) ++ rest) =
      some (.ok ⟨(leU24 payload 4 : Int) + 1, (leU24 payload 7 : Int) + 1⟩) ∧
    ∀ (dec2 : List Byte → Except Err (List Byte) × Nat) (flags : Byte) (rest2 : List Byte),
      decodewebp dec2 (riffHeader n ++ encodeChunks cs ++
          (fccVP8X ++ le32 10 ++ (flags :: payload.tail)) ++ rest2) =
        decodewebp dec
          (riffHeader n ++ encodeChunks cs ++ (fccVP8X ++ le32 10 ++ payload) ++ rest) := by
  have h1 := decodewebp_vp8x_size dec n cs payload rest hn32 hcs hp hn
  refine ⟨h1, ?_⟩
  intro dec2 flags rest2
  match payload, hp with
  | a :: t, hp =>
    have hp2 : (flags :: (a :: t).tail).length = 10 := by simpa using hp
    rw [decodewebp_vp8x_size dec2 n cs (flags :: (a :: t).tail) rest2 hn32 hcs hp2 hn, h1]
    rfl

theorem decodewebp_vp8x_dimensions_witness :
    decodewebp vp8lReject webpVP8XAlpha = some (.ok ⟨100, 50⟩) :=
  (decodewebp_vp8x_dimensions vp8lReject 22 [] vp8xAlpha [] (by decide)
    (fun c hc => absurd hc (List.not_mem_nil c)) rfl (by decide)).1

/-- C2, as stated, fails: a `VP8X` chunk with the alpha bit set followed by an `ALPH` chunk
whose control byte selects compression mode 2 decodes to the `VP8X` dimensions without
error. -/
theorem decodewebp_alpha_failure_not_surfaced :
    webpVP8XBadAlpha =
      riffHeader 32 ++ (fccVP8X ++ le32 10 ++ [0x10, 0, 0, 0, 1, 0, 0, 1, 0, 0]) ++
        encodeChunk ⟨fccALPH, [2], 0⟩ ∧
    decodewebp vp8lReject webpVP8XBadAlpha = some (.ok ⟨2, 2⟩) ∧
    ¬ ∃ e, decodewebp vp8lReject webpVP8XBadAlpha = some (.error e) := by
  have h : decodewebp vp8lReject webpVP8XBadAlpha = some (.ok ⟨2, 2⟩) := by decide
  refine ⟨by decide, h, ?_⟩
  rintro ⟨e, he⟩
  rw [h] at he
  cases he

/-- C2, amended: on a WebP stream whose first chunk with a FourCC that `decodewebp` acts on
is a `VP8X` chunk (length 10, data present) with the alpha bit set, followed by an `ALPH`
chunk with any data, `decodewebp` returns the `VP8X` dimensions and no error. An `ALPH`
chunk that no `VP8X` chunk announced gives the invalid-format error. The `ALPH` branch of
the loop, entered with `wantAlpha` set, gives an error for compression mode 2 or 3 and for
a raw plane with fewer bytes than width x height. -/
theorem decodewebp_alpha_after_vp8x (dec : List Byte → Except Err (List Byte) × Nat) (n : Nat)
    (cs : List RiffChunk) (payload alphData : List Byte) (pad : Byte) (rest : List Byte)
    (hn32 : n < 2 ^ 32) (hcs : ∀ c ∈ cs, c.id.length = 4 ∧ unrecognised c.id)
    (hp : payload.length = 10) (_halpha : (payload.getD 0 0).val &&& alphaBit ≠ 0)
    (hn : 4 + (encodeChunks cs).length + 18 ≤ n) :
    decodewebp dec (riffHeader n ++ encodeChunks cs ++ (fccVP8X ++ le32 10 ++ payload) ++
        (encodeChunk ⟨fccALPH, alphData, pad⟩ ++ rest)) =
      some (.ok ⟨(leU24 payload 4 : Int) + 1, (leU24 payload 7 : Int) + 1⟩) ∧
    (∀ d tail, 4 + (encodeChunks cs).length + 8 + d ≤ n →
      decodewebp dec (riffHeader n ++ (encodeChunks cs ++ (fccALPH ++ le32 d ++ tail))) =
        some (.error .errInvalidFormat)) ∧
    (∀ (v : webpVars) (d : Nat) (ctl : Byte) (tail data : List Byte) (p : Byte) (T fuel : Nat),
      v.wantAlpha = true → 1 ≤ d → T < 2 ^ 32 →
      data.length + (padOf data p).length + 8 + d ≤ T →
      (2 ≤ ctl.val &&& 0x03 →
        decodewebpLoop dec (fuel + 1)
          (pendingState data p T (fccALPH ++ le32 d ++ (ctl :: tail))) v =
          some (.error .errInvalidFormat)) ∧
      (ctl.val &&& 0x03 = 0 →
        (d - 1 < (v.widthMinusOne + 1) * (v.heightMinusOne + 1) ∨
          tail.length < (v.widthMinusOne + 1) * (v.heightMinusOne + 1)) →
        decodewebpLoop dec (fuel + 1)
          (pendingState data p T (fccALPH ++ le32 d ++ (ctl :: tail))) v =
          some (.error (if d - 1 = 0 ∨ tail.length = 0 then .EOF else .ErrUnexpectedEOF)))) := by
  refine ⟨decodewebp_vp8x_size dec n cs payload _ hn32 hcs hp hn, ?_, ?_⟩
  · intro d tail hd
    exact decodewebp_of_loop dec n cs _ _ (fun t => 8 + d ≤ t) hn32 hcs (by omega) (by omega)
      (fun data pad T fuel hT32 hT hQ =>
        decodewebpLoop_alph_unannounced dec _ rfl d tail (by omega) data pad T fuel hT32 hT hQ)
  · intro v d ctl tail data p T fuel hv hd1 hT32 hT
    exact ⟨fun hmode => decodewebpLoop_alph_bad_mode dec v hv d ctl tail (by omega) hd1 hmode
        data p T fuel hT32 (by omega) (by omega),
      fun hmode hshort => decodewebpLoop_alph_short_raw dec v hv d ctl tail (by omega) hd1 hmode
        hshort data p T fuel hT32 (by omega) (by omega)⟩

theorem decodewebp_alpha_after_vp8x_witness :
    decodewebp vp8lReject webpVP8XBadAlpha = some (.ok ⟨2, 2⟩) :=
  (decodewebp_alpha_after_vp8x vp8lReject 32 [] [0x10, 0, 0, 0, 1, 0, 0, 1, 0, 0] [2] 0 []
    (by decide) (fun c hc => absurd hc (List.not_mem_nil c)) rfl (by decide) (by decide)).1

/-- C3: on five bytes `b0 .. b4` (and whatever follows them) `decodeVP8LHeader` succeeds
exactly when `b0 = 0x2f` and the top three bits of `b4` are zero; it then returns
`1 + v mod 2^14` and `1 + (v / 2^14) mod 2^14` for `v = b1 + 2^8 b2 + 2^16 b3 + 2^24 b4`;
another `b0` gives the invalid-header error and then a non-zero version the
invalid-version error; the five reads of 8, 14, 14, 1 and 3 bits are the consecutive
slices, low bits first, of the 40-bit little-endian value of the five bytes. -/
theorem decodeVP8LHeader_five_bytes (b0 b1 b2 b3 b4 : Byte) (rest : List Byte) :
    let v := b1.val + 2 ^ 8 * b2.val + 2 ^ 16 * b3.val + 2 ^ 24 * b4.val
    let V := b0.val + 2 ^ 8 * b1.val + 2 ^ 16 * b2.val + 2 ^ 24 * b3.val + 2 ^ 32 * b4.val
    ((∃ wh, decodeVP8LHeader (b0 :: b1 :: b2 :: b3 :: b4 :: rest) = .ok wh) ↔
      (b0 = 0x2f ∧ b4.val / 2 ^ 5 = 0)) ∧
    (b0 = 0x2f → b4.val / 2 ^ 5 = 0 →
      decodeVP8LHeader (b0 :: b1 :: b2 :: b3 :: b4 :: rest) =
        .ok (((1 + v % 2 ^ 14 : Nat) : Int), ((1 + v / 2 ^ 14 % 2 ^ 14 : Nat) : Int))) ∧
    (b0 ≠ 0x2f →
      decodeVP8LHeader (b0 :: b1 :: b2 :: b3 :: b4 :: rest) = .error .vp8lInvalidHeader) ∧
    (b0 = 0x2f → b4.val / 2 ^ 5 ≠ 0 →
      decodeVP8LHeader (b0 :: b1 :: b2 :: b3 :: b4 :: rest) = .error .vp8lInvalidVersion) ∧
    (∃ d1 d2 d3 d4 d5,
      vp8ldecoder.read ⟨b0 :: b1 :: b2 :: b3 :: b4 :: rest, 0, 0⟩ 8 = .ok (V % 2 ^ 8, d1) ∧
      d1.read 14 = .ok (V / 2 ^ 8 % 2 ^ 14, d2) ∧
      d2.read 14 = .ok (V / 2 ^ 22 % 2 ^ 14, d3) ∧
      d3.read 1 = .ok (V / 2 ^ 36 % 2, d4) ∧
      d4.read 3 = .ok (V / 2 ^ 37 % 2 ^ 3, d5)) := by
  intro v V
  have hmain := decodeVP8LHeader_five b0 b1 b2 b3 b4 rest
  have hb0 : b0 = 0x2f ↔ b0.val = 0x2f := by
    constructor
    · intro h; rw [h]; rfl
    · intro h; exact Fin.ext h
  refine ⟨?_, ?_, ?_, ?_, ?_⟩
  · rw [hmain]
    constructor
    · rintro ⟨wh, h⟩
      by_cases h1 : b0.val ≠ 0x2f
      · rw [if_pos h1] at h; cases h
      · rw [if_neg h1] at h
        by_cases h2 : b4.val / 2 ^ 5 ≠ 0
        · rw [if_pos h2] at h; cases h
        · exact ⟨hb0.mpr (not_not.mp h1), not_not.mp h2⟩
    · rintro ⟨h1, h2⟩
      rw [if_neg (not_not.mpr (hb0.mp h1)), if_neg (not_not.mpr h2)]
      exact ⟨_, rfl⟩
  · intro h1 h2
    rw [hmain, if_neg (not_not.mpr (hb0.mp h1)), if_neg (not_not.mpr h2)]
  · intro h1
    rw [hmain, if_pos (fun h => h1 (hb0.mpr h))]
  · intro h1 h2
    rw [hmain, if_neg (not_not.mpr (hb0.mp h1)), if_pos h2]
  · obtain ⟨r1, r2, r3, r4, r5⟩ := vp8l_reads b0 b1 b2 b3 b4 rest
    exact ⟨_, _, _, _, _, r1, r2, r3, r4, r5⟩

theorem decodeVP8LHeader_five_bytes_witness :
    decodeVP8LHeader [0x2f, 0x64, 0x00, 0x14, 0x00] = .ok (101, 81) ∧
    decodeVP8LHeader [0x2f, 0x64, 0x00, 0x14, 0x20] = .error .vp8lInvalidVersion :=
  ⟨(decodeVP8LHeader_five_bytes 0x2f 0x64 0x00 0x14 0x00 []).2.1 rfl (by decide),
   (decodeVP8LHeader_five_bytes 0x2f 0x64 0x00 0x14 0x20 []).2.2.2.1 rfl (by decide)⟩

/-! ## TIFF: the walk over the directory -/

/-- `ifdUint` uses the reader and the byte order of the decoder only. -/
theorem ifdUint_congr (d d2 : tiffdecoder) (p : List Byte) (hr : d.r = d2.r)
    (hb : d.byteOrder = d2.byteOrder) : d.ifdUint p = d2.ifdUint p := by
  unfold tiffdecoder.ifdUint
  rw [hr, hb]

/-- What `parseIFD` returns without error: the tag of the entry and a decoder over the
same reader with the same byte order. -/
theorem parseIFD_ok (d : tiffdecoder) (p : List Byte) (tag : Nat) (d1 : tiffdecoder)
    (h : d.parseIFD p = .ok (tag, d1)) :
    tag = ifdTag d.byteOrder p ∧ d1.r = d.r ∧ d1.byteOrder = d.byteOrder := by
  unfold tiffdecoder.parseIFD at h
  simp only at h
  split_ifs at h
  · split at h
    · cases h
    · injection h with h; injection h with h1 h2
      subst h2; exact ⟨h1.symm, rfl, rfl⟩
  · split at h
    · cases h
    · split_ifs at h
      injection h with h; injection h with h1 h2
      subst h2; exact ⟨h1.symm, rfl, rfl⟩
  · split at h
    · cases h
    · split_ifs at h
      injection h with h; injection h with h1 h2
      subst h2; exact ⟨h1.symm, rfl, rfl⟩
  · injection h with h; injection h with h1 h2
    subst h2; exact ⟨h1.symm, rfl, rfl⟩

/-- Whether `parseIFD` fails does not depend on what the decoder has stored. -/
theorem parseIFD_ok_congr (d d2 : tiffdecoder) (p : List Byte) (hr : d.r = d2.r)
    (hb : d.byteOrder = d2.byteOrder) (h : ∃ res, d.parseIFD p = .ok res) :
    ∃ res, d2.parseIFD p = .ok res := by
  obtain ⟨res, h⟩ := h
  unfold tiffdecoder.parseIFD at h ⊢
  rw [← ifdUint_congr d d2 p hr hb, ← hb]
  simp only at h ⊢
  split_ifs at h ⊢
  · split at h
    · cases h
    · exact ⟨_, rfl⟩
  · split at h
    · cases h
    · split_ifs at h ⊢
      exact ⟨_, rfl⟩
  · split at h
    · cases h
    · split_ifs at h ⊢
      exact ⟨_, rfl⟩
  · exact ⟨_, rfl⟩


/-- The walk over the directory fails with the not-sorted error or succeeds according to
whether the tags ascend, when every entry parses on its own. -/
theorem walkIFD_sorted (s : List Byte) (bo : ByteOrder) (es : List (List Byte)) :
    ∀ (prev : Int) (d : tiffdecoder), d.r = s → d.byteOrder = bo →
      (∀ e ∈ es, ∃ res, (tiffStart s bo).parseIFD e = .ok res) →
      (List.Chain (· < ·) prev (es.map fun e => (ifdTag bo e : Int)) →
        ∃ d1, walkIFD es prev d = .ok d1) ∧
      (¬ List.Chain (· < ·) prev (es.map fun e => (ifdTag bo e : Int)) →
        walkIFD es prev d = .error notSorted) := by
  induction es with
  | nil =>
    intro prev d _ _ _
    exact ⟨fun _ => ⟨d, rfl⟩, fun h => absurd List.Chain.nil h⟩
  | cons e es ih =>
    intro prev d hr hb hparse
    obtain ⟨⟨tag, d1⟩, hres⟩ := parseIFD_ok_congr (tiffStart s bo) d e (by rw [hr]; rfl)
      (by rw [hb]; rfl) (hparse e (List.mem_cons_self _ _))
    obtain ⟨htag, hr1, hb1⟩ := parseIFD_ok d e tag d1 hres
    rw [hb] at htag
    have ih1 := ih (tag : Int) d1 (by rw [hr1, hr]) (by rw [hb1, hb])
      (fun e he => hparse e (List.mem_cons_of_mem _ he))
    simp only [List.map_cons, List.chain_cons, walkIFD, hres]
    rw [← htag]
    by_cases hlt : prev < (tag : Int)
    · rw [if_neg (by omega)]
      constructor
      · intro h; exact ih1.1 h.2
      · intro h; exact ih1.2 (fun hc => h ⟨hlt, hc⟩)
    · rw [if_pos (by omega)]
      constructor
      · intro h; exact absurd h.1 hlt
      · intro _; rfl

theorem chain_start (l : List Nat) :
    List.Chain (· < ·) (-1 : Int) (l.map fun (t : Nat) => (t : Int)) ↔
      List.Chain' (· < ·) l := by
  cases l with
  | nil => simp
  | cons a l =>
    change _ ↔ List.Chain (· < ·) a l
    simp only [List.map_cons, List.chain_cons]
    rw [List.chain_map]
    constructor
    · intro h
      exact List.Chain.imp (fun a b hab => by exact_mod_cast hab) h.2
    · intro h
      exact ⟨by omega, List.Chain.imp (fun a b hab => by exact_mod_cast hab) h⟩

/-- `decodetiff` in terms of the directory and the walk over it. -/
theorem decodetiff_eq_walk (s : List Byte) (bo : ByteOrder) (p : List Byte)
    (hdir : readDirectory s = .ok (bo, p)) :
    decodetiff s =
      match walkIFD (ifdEntries p) (-1) (tiffStart s bo) with
      | .error e => .error e
      | .ok d => .ok ⟨(d.firstVal tImageWidth : Nat), (d.firstVal tImageLength : Nat)⟩ := by
  unfold decodetiff newtiffDecoder newReaderAt
  simp only [hdir]
  unfold tiffStart
  rcases hw : walkIFD (ifdEntries p) (-1) ⟨s, bo, ⟨0, 0⟩, [], []⟩ with e | d
  · rfl
  · rfl

/-! ## TIFF: claim C4 -/

theorem parsesAlone_iff (s : List Byte) (bo : ByteOrder) (e : List Byte) :
    parsesAlone s bo e ↔ ∃ res, (tiffStart s bo).parseIFD e = .ok res := by
  unfold parsesAlone
  rcases h : (tiffStart s bo).parseIFD e with err | res
  · simp [Except.toBool]
  · simp [Except.toBool]

/-- C4: on a TIFF stream whose header and directory are readable and in which every
directory entry parses without error on its own, `decodetiff` succeeds exactly when the
tags of all entries, in directory order, are strictly increasing; otherwise it fails with
the error "tags are not sorted in ascending order". The same holds for the walk over any
permutation of the entries. -/
theorem decodetiff_iff_tags_ascend (s : List Byte) (bo : ByteOrder) (p : List Byte)
    (hdir : readDirectory s = .ok (bo, p))
    (hparse : ∀ e ∈ ifdEntries p, parsesAlone s bo e) :
    ((∃ size, decodetiff s = .ok size) ↔
      List.Chain' (· < ·) ((ifdEntries p).map (ifdTag bo))) ∧
    (¬ List.Chain' (· < ·) ((ifdEntries p).map (ifdTag bo)) →
      decodetiff s = .error notSorted) ∧
    (∀ es : List (List Byte), es.Perm (ifdEntries p) →
      ((∃ d, walkIFD es (-1) (tiffStart s bo) = .ok d) ↔
        List.Chain' (· < ·) (es.map (ifdTag bo))) ∧
      (¬ List.Chain' (· < ·) (es.map (ifdTag bo)) →
        walkIFD es (-1) (tiffStart s bo) = .error notSorted)) := by
  have key : ∀ es : List (List Byte), (∀ e ∈ es, parsesAlone s bo e) →
      ((∃ d, walkIFD es (-1) (tiffStart s bo) = .ok d) ↔
        List.Chain' (· < ·) (es.map (ifdTag bo))) ∧
      (¬ List.Chain' (· < ·) (es.map (ifdTag bo)) →
        walkIFD es (-1) (tiffStart s bo) = .error notSorted) := by
    intro es hes
    have hw := walkIFD_sorted s bo es (-1) (tiffStart s bo) rfl rfl
      (fun e he => (parsesAlone_iff s bo e).mp (hes e he))
    have hc := chain_start (es.map (ifdTag bo))
    rw [List.map_map] at hc
    have hfun : ((fun (t : Nat) => (t : Int)) ∘ ifdTag bo) = fun e => (ifdTag bo e : Int) := rfl
    rw [hfun] at hc
    rw [hc] at hw
    refine ⟨⟨?_, hw.1⟩, hw.2⟩
    rintro ⟨d, hd⟩
    by_contra hn
    rw [hw.2 hn] at hd
    cases hd
  have hmain := key (ifdEntries p) hparse
  have heq := decodetiff_eq_walk s bo p hdir
  refine ⟨?_, ?_, ?_⟩
  · rw [← hmain.1, heq]
    constructor
    · rintro ⟨size, h⟩
      rcases hw : walkIFD (ifdEntries p) (-1) (tiffStart s bo) with e | d
      · rw [hw] at h; cases h
      · exact ⟨d, rfl⟩
    · rintro ⟨d, hd⟩
      rw [hd]
      exact ⟨_, rfl⟩
  · intro hn
    rw [heq, hmain.2 hn]
  · intro es hperm
    exact key es (fun e he => hparse e (hperm.mem_iff.mp he))

theorem decodetiff_iff_tags_ascend_witness :
    (∃ size, decodetiff tiffLE = .ok size) ∧ decodetiff tiffSwapped = .error notSorted :=
  ⟨(decodetiff_iff_tags_ascend tiffLE .LittleEndian (tiffLE.drop 10)
      (by decide) (by decide)).1.mpr
      (by
        have h : (ifdEntries (tiffLE.drop 10)).map (ifdTag .LittleEndian) = [256, 257] := by
          decide
        rw [h]
        simp),
   (decodetiff_iff_tags_ascend tiffSwapped .LittleEndian (tiffSwapped.drop 10)
      (by decide) (by decide)).2.1
      (by
        have h : (ifdEntries (tiffSwapped.drop 10)).map (ifdTag .LittleEndian) = [257, 256] := by
          decide
        rw [h]
        simp)⟩

/-! ## TIFF: values of directory entries -/

/-- `ReadAt` gives the bytes at the offset. -/
theorem ReadAt_ok (data : List Byte) (n off : Nat) (buf : List Byte)
    (h : ReadAt data n off = .ok buf) :
    buf = slice data off (off + n) ∧ off + n ≤ data.length := by
  unfold ReadAt at h
  split_ifs at h with h1 h2
  injection h with h
  exact ⟨h.symm, h2⟩

theorem slice_append_slice (data : List Byte) (a b c : Nat) (hab : a ≤ b) (hbc : b ≤ c) :
    slice data a b ++ slice data b c = slice data a c := by
  unfold slice
  have h1 : List.drop b data = List.drop (b - a) (List.drop a data) := by
    rw [List.drop_drop]; congr 1; omega
  rw [h1]
  have h2 : c - a = (b - a) + (c - b) := by omega
  rw [h2, List.take_add]

/-- The loop of `safeReadAt` appends the bytes at the offset. -/
theorem safeReadAtLoop_ok (data : List Byte) :
    ∀ (n off : Nat) (buf res : List Byte), safeReadAtLoop data n off buf = .ok res →
      res = buf ++ slice data off (off + n) := by
  intro n
  induction n using Nat.strong_induction_on with
  | _ n ih =>
    intro off buf res h
    rw [safeReadAtLoop] at h
    by_cases hn : n > 0
    · rw [dif_pos hn] at h
      simp only at h
      split at h
      · cases h
      · rename_i chunk hchunk
        obtain ⟨hc, _⟩ := ReadAt_ok _ _ _ _ hchunk
        have hnext : (if n > maxChunkSize then maxChunkSize else n) ≤ n := by split <;> omega
        have hpos : 0 < (if n > maxChunkSize then maxChunkSize else n) := by
          split
          · simp [maxChunkSize]
          · omega
        have := ih (n - (if n > maxChunkSize then maxChunkSize else n)) (by omega) _ _ _ h
        rw [this, hc, List.append_assoc, slice_append_slice _ _ _ _ (by omega) (by omega)]
        congr 2
        omega
    · rw [dif_neg hn] at h
      injection h with h
      have h0 : n = 0 := by omega
      subst h0
      simp [slice, h]

/-- `safeReadAt` gives the bytes at the offset. -/
theorem safeReadAt_ok (data : List Byte) (n off : Nat) (res : List Byte)
    (h : safeReadAt data n off = .ok res) : res = slice data off (off + n) := by
  unfold safeReadAt at h
  split_ifs at h with h1 h2
  · split at h
    · rename_i e he
      split_ifs at h with h3
      injection h with h
      have h0 : n = 0 := by
        by_contra hc
        exact h3 (Or.inr (by omega))
      subst h0
      simp [slice, ← h]
    · rename_i buf hb
      injection h with h
      rw [← h]
      exact (ReadAt_ok _ _ _ _ hb).1
  · have := safeReadAtLoop_ok data n off [] res h
    simpa using this

theorem getD_drop (l : List Byte) (n i : Nat) (d : Byte) :
    (l.drop n).getD i d = l.getD (n + i) d := by
  simp only [List.getD_eq_getElem?_getD, List.getElem?_drop]

theorem Uint16_congr (bo : ByteOrder) (a b : List Byte) (h0 : a.getD 0 0 = b.getD 0 0)
    (h1 : a.getD 1 0 = b.getD 1 0) : bo.Uint16 a = bo.Uint16 b := by
  cases bo <;> simp only [ByteOrder.Uint16, h0, h1]

theorem Uint32_congr (bo : ByteOrder) (a b : List Byte) (h0 : a.getD 0 0 = b.getD 0 0)
    (h1 : a.getD 1 0 = b.getD 1 0) (h2 : a.getD 2 0 = b.getD 2 0)
    (h3 : a.getD 3 0 = b.getD 3 0) : bo.Uint32 a = bo.Uint32 b := by
  cases bo <;> simp only [ByteOrder.Uint32, h0, h1, h2, h3]

/-- The bytes that `ifdUint` decodes are those where the format puts the values. -/
theorem ifdUint_raw (data e raw : List Byte) (off datalen : Nat)
    (h : (if datalen > 4 then safeReadAt data datalen off else .ok (slice e 8 (8 + datalen)))
      = .ok raw) :
    ∀ i, i < datalen →
      raw.getD i 0 = (if datalen ≤ 4 then slice e 8 12 else data.drop off).getD i 0 := by
  intro i hi
  by_cases hd : datalen > 4
  · rw [if_pos hd] at h
    rw [if_neg (by omega), safeReadAt_ok _ _ _ _ h, getD_slice _ _ _ _ _ (by omega), getD_drop]
  · rw [if_neg hd] at h
    injection h with h
    rw [if_pos (by omega), ← h, getD_slice _ _ _ _ _ (by omega), getD_slice _ _ _ _ _ (by omega)]

theorem getD_map_range (f : Nat → Nat) (n : Nat) (hn : 0 < n) :
    ((List.range n).map f).getD 0 0 = f 0 := by
  cases n with
  | zero => omega
  | succ n =>
    rw [List.range_succ_eq_map]
    rfl

/-- `ifdUint` on an entry whose datatype `dt` has the size `len`. -/
theorem ifdUint_typed (d : tiffdecoder) (e : List Byte) (vals : List Nat)
    (h : d.ifdUint e = .ok vals) :
    ∃ len raw, 0 < len ∧ len ≤ 4 ∧
      (if len * d.byteOrder.Uint32 (slice e 4 8) > 4 then
          safeReadAt d.r (len * d.byteOrder.Uint32 (slice e 4 8))
            (d.byteOrder.Uint32 (slice e 8 12))
        else .ok (slice e 8 (8 + len * d.byteOrder.Uint32 (slice e 4 8)))) = .ok raw ∧
      ((d.byteOrder.Uint16 (slice e 2 4) = dtByte ∧ len = 1 ∧
          vals = (List.range (d.byteOrder.Uint32 (slice e 4 8))).map
            fun i => (raw.getD i 0).val) ∨
       (d.byteOrder.Uint16 (slice e 2 4) = dtShort ∧ len = 2 ∧
          vals = (List.range (d.byteOrder.Uint32 (slice e 4 8))).map
            fun i => d.byteOrder.Uint16 (slice raw (2 * i) (2 * (i + 1)))) ∨
       (d.byteOrder.Uint16 (slice e 2 4) = dtLong ∧ len = 4 ∧
          vals = (List.range (d.byteOrder.Uint32 (slice e 4 8))).map
            fun i => d.byteOrder.Uint32 (slice raw (4 * i) (4 * (i + 1))))) := by
  unfold tiffdecoder.ifdUint at h
  generalize d.byteOrder.Uint16 (slice e 2 4) = dt at h ⊢
  generalize d.byteOrder.Uint32 (slice e 4 8) = cnt at h ⊢
  generalize d.byteOrder.Uint32 (slice e 8 12) = off at h ⊢
  by_cases h1 : e.length < ifdLen
  · rw [if_pos h1] at h; cases h
  rw [if_neg h1] at h
  by_cases h2 : dt ≤ 0 ∨ dt ≥ lengths.length
  · simp only [h2, if_true] at h; cases h
  simp only [h2, if_false] at h
  have hl : lengths.length = 6 := rfl
  have hdt : dt = 1 ∨ dt = 2 ∨ dt = 3 ∨ dt = 4 ∨ dt = 5 := by omega
  by_cases h3 : cnt > MaxInt32 / lengths.getD dt 0
  · simp only [h3, if_true] at h; cases h
  simp only [h3, if_false] at h
  have hM : MaxInt32 = 2147483647 := rfl
  rcases hdt with hdt | hdt | hdt | hdt | hdt <;> subst hdt
  · have hlen : lengths.getD 1 0 = 1 := rfl
    rw [hlen] at h h3
    have hmod : 1 * cnt % 2 ^ 32 = 1 * cnt := by
      rw [hM] at h3; omega
    rw [hmod] at h
    refine ⟨1, ?_⟩
    split at h
    · cases h
    rename_i raw hraw
    refine ⟨raw, by omega, by omega, hraw, Or.inl ⟨rfl, rfl, ?_⟩⟩
    have hb : (1 : Nat) = dtByte := rfl
    rw [if_pos hb] at h
    injection h with h
    exact h.symm
  · have hlen : lengths.getD 2 0 = 1 := rfl
    rw [hlen] at h h3
    split at h
    · cases h
    rw [if_neg (by decide), if_neg (by decide), if_neg (by decide)] at h
    cases h
  · have hlen : lengths.getD 3 0 = 2 := rfl
    rw [hlen] at h h3
    have hmod : 2 * cnt % 2 ^ 32 = 2 * cnt := by
      rw [hM] at h3; omega
    rw [hmod] at h
    refine ⟨2, ?_⟩
    split at h
    · cases h
    rename_i raw hraw
    refine ⟨raw, by omega, by omega, hraw, Or.inr (Or.inl ⟨rfl, rfl, ?_⟩)⟩
    have hb : (3 : Nat) = dtShort := rfl
    rw [if_neg (by decide), if_pos hb] at h
    injection h with h
    exact h.symm
  · have hlen : lengths.getD 4 0 = 4 := rfl
    rw [hlen] at h h3
    have hmod : 4 * cnt % 2 ^ 32 = 4 * cnt := by
      rw [hM] at h3; omega
    rw [hmod] at h
    refine ⟨4, ?_⟩
    split at h
    · cases h
    rename_i raw hraw
    refine ⟨raw, by omega, by omega, hraw, Or.inr (Or.inr ⟨rfl, rfl, ?_⟩)⟩
    have hb : (4 : Nat) = dtLong := rfl
    rw [if_neg (by decide), if_neg (by decide), if_pos hb] at h
    injection h with h
    exact h.symm
  · have hlen : lengths.getD 5 0 = 8 := rfl
    rw [hlen] at h h3
    split at h
    · cases h
    rw [if_neg (by decide), if_neg (by decide), if_neg (by decide)] at h
    cases h

/-- What `ifdUint` returns without error: as many values as the count says, the first
being the first value of the entry, of an entry of type Byte, Short or Long. -/
theorem ifdUint_first (d : tiffdecoder) (e : List Byte) (vals : List Nat)
    (h : d.ifdUint e = .ok vals) :
    (if vals.length = 0 then 0 else vals.getD 0 0) = entryFirstValue d.byteOrder d.r e ∧
    (d.byteOrder.Uint16 (slice e 2 4) = dtByte ∨ d.byteOrder.Uint16 (slice e 2 4) = dtShort ∨
      d.byteOrder.Uint16 (slice e 2 4) = dtLong) ∧
    vals.length = d.byteOrder.Uint32 (slice e 4 8) := by
  obtain ⟨len, raw, hlen0, hlen4, hraw, hcase⟩ := ifdUint_typed d e vals h
  unfold entryFirstValue
  generalize d.byteOrder.Uint16 (slice e 2 4) = dt at hcase ⊢
  generalize d.byteOrder.Uint32 (slice e 4 8) = cnt at hraw hcase ⊢
  generalize d.byteOrder.Uint32 (slice e 8 12) = off at hraw ⊢
  have hr := ifdUint_raw d.r e raw off (len * cnt) hraw
  by_cases hc : cnt = 0
  · subst hc
    rcases hcase with ⟨h1, _, h3⟩ | ⟨h1, _, h3⟩ | ⟨h1, _, h3⟩ <;> subst h3 <;>
      simp [h1]
  have hpos : 0 < cnt := by omega
  rcases hcase with ⟨h1, h2, h3⟩ | ⟨h1, h2, h3⟩ | ⟨h1, h2, h3⟩ <;> subst h1 h2 h3
  · refine ⟨?_, Or.inl rfl, by simp⟩
    simp only [List.length_map, List.length_range, hc, if_false, if_true]
    rw [getD_map_range (fun i => (raw.getD i 0).val) cnt hpos, hr 0 (by omega)]
  · refine ⟨?_, Or.inr (Or.inl rfl), by simp⟩
    have hne : ¬ dtShort = dtByte := by decide
    simp only [List.length_map, List.length_range, hc, if_false, if_true, hne]
    rw [getD_map_range (fun i => d.byteOrder.Uint16 (slice raw (2 * i) (2 * (i + 1)))) cnt hpos]
    apply Uint16_congr
    · rw [getD_slice _ _ _ _ _ (by omega)]; exact hr 0 (by omega)
    · rw [getD_slice _ _ _ _ _ (by omega)]; exact hr 1 (by omega)
  · refine ⟨?_, Or.inr (Or.inr rfl), by simp⟩
    have hne : ¬ dtLong = dtByte := by decide
    have hne2 : ¬ dtLong = dtShort := by decide
    simp only [List.length_map, List.length_range, hc, if_false, if_true, hne, hne2]
    rw [getD_map_range (fun i => d.byteOrder.Uint32 (slice raw (4 * i) (4 * (i + 1)))) cnt hpos]
    apply Uint32_congr
    · rw [getD_slice _ _ _ _ _ (by omega)]; exact hr 0 (by omega)
    · rw [getD_slice _ _ _ _ _ (by omega)]; exact hr 1 (by omega)
    · rw [getD_slice _ _ _ _ _ (by omega)]; exact hr 2 (by omega)
    · rw [getD_slice _ _ _ _ _ (by omega)]; exact hr 3 (by omega)

/-- What `parseIFD` does to the values stored under a retained tag `t`. -/
theorem parseIFD_features (d : tiffdecoder) (e : List Byte) (tag : Nat) (d1 : tiffdecoder)
    (h : d.parseIFD e = .ok (tag, d1)) (t : Nat) (ht : t ∈ retainedTags) :
    (tag = t → ∃ vals, d.ifdUint e = .ok vals ∧ d1.features.lookup t = some vals) ∧
    (tag ≠ t → d1.features.lookup t = d.features.lookup t) := by
  unfold tiffdecoder.parseIFD at h
  simp only at h
  by_cases hret : d.byteOrder.Uint16 (slice e 0 2) ∈ retainedTags
  · rw [if_pos hret] at h
    rcases hu : d.ifdUint e with err | vals
    · rw [hu] at h; cases h
    · rw [hu] at h
      injection h with h; injection h with h1 h2
      subst h1 h2
      constructor
      · intro htag
        exact ⟨vals, rfl, by simp [List.lookup, htag]⟩
      · intro htag
        have : (t == d.byteOrder.Uint16 (slice e 0 2)) = false := by
          simp only [beq_eq_false_iff_ne, ne_eq]
          exact fun hc => htag hc.symm
        simp [List.lookup, this]
  · rw [if_neg hret] at h
    have hfeat : tag = d.byteOrder.Uint16 (slice e 0 2) ∧ d1.features = d.features := by
      split_ifs at h
      · split at h
        · cases h
        · split_ifs at h
          injection h with h; injection h with h1 h2
          subst h2; exact ⟨h1.symm, rfl⟩
      · split at h
        · cases h
        · split_ifs at h
          injection h with h; injection h with h1 h2
          subst h2; exact ⟨h1.symm, rfl⟩
      · injection h with h; injection h with h1 h2
        subst h2; exact ⟨h1.symm, rfl⟩
    constructor
    · intro htag
      rw [hfeat.1] at htag
      rw [htag] at hret
      exact absurd ht hret
    · intro _
      rw [hfeat.2]

/-- A walk that succeeds has passed only tags above the previous one. -/
theorem walkIFD_tags_gt (es : List (List Byte)) :
    ∀ (prev : Int) (d d2 : tiffdecoder), walkIFD es prev d = .ok d2 →
      ∀ e ∈ es, prev < (ifdTag d.byteOrder e : Int) := by
  induction es with
  | nil => intro prev d d2 _ e he; cases he
  | cons e0 es ih =>
    intro prev d d2 h e he
    rw [walkIFD] at h
    rcases hp : d.parseIFD e0 with err | ⟨tag, d1⟩
    · rw [hp] at h; cases h
    · rw [hp] at h
      simp only at h
      obtain ⟨htag, _, hb1⟩ := parseIFD_ok d e0 tag d1 hp
      by_cases hle : (tag : Int) ≤ prev
      · rw [if_pos hle] at h; cases h
      · rw [if_neg hle] at h
        rcases List.mem_cons.mp he with rfl | he
        · rw [← htag]; omega
        · have := ih (tag : Int) d1 d2 h e he
          rw [hb1] at this
          omega

/-- The values stored under a retained tag `t` after a walk that succeeds. -/
theorem walkIFD_features (es : List (List Byte)) (t : Nat) (ht : t ∈ retainedTags) :
    ∀ (prev : Int) (d d2 : tiffdecoder), walkIFD es prev d = .ok d2 →
      (∀ e ∈ es, ifdTag d.byteOrder e = t →
        ∃ vals, d.ifdUint e = .ok vals ∧ d2.features.lookup t = some vals) ∧
      ((∀ e ∈ es, ifdTag d.byteOrder e ≠ t) → d2.features.lookup t = d.features.lookup t) := by
  induction es with
  | nil =>
    intro prev d d2 h
    rw [walkIFD] at h
    injection h with h
    subst h
    exact ⟨fun e he => (by cases he), fun _ => rfl⟩
  | cons e0 es ih =>
    intro prev d d2 h
    have hgt := walkIFD_tags_gt (e0 :: es) prev d d2 h
    rw [walkIFD] at h
    rcases hp : d.parseIFD e0 with err | ⟨tag, d1⟩
    · rw [hp] at h; cases h
    rw [hp] at h
    simp only at h
    obtain ⟨htag, hr1, hb1⟩ := parseIFD_ok d e0 tag d1 hp
    by_cases hle : (tag : Int) ≤ prev
    · rw [if_pos hle] at h; cases h
    rw [if_neg hle] at h
    have hgt1 := walkIFD_tags_gt es (tag : Int) d1 d2 h
    obtain ⟨ih1, ih2⟩ := ih (tag : Int) d1 d2 h
    obtain ⟨pf1, pf2⟩ := parseIFD_features d e0 tag d1 hp t ht
    rw [hb1] at ih1 ih2 hgt1
    constructor
    · intro e he hte
      rcases List.mem_cons.mp he with rfl | he
      · obtain ⟨vals, hv, hl⟩ := pf1 (by rw [htag, hte])
        refine ⟨vals, hv, ?_⟩
        rw [ih2 ?_, hl]
        intro e2 he2 hc
        have := hgt1 e2 he2
        rw [hc, ← hte, ← htag] at this
        omega
      · obtain ⟨vals, hv, hl⟩ := ih1 e he hte
        exact ⟨vals, by rw [← ifdUint_congr d1 d e hr1 hb1]; exact hv, hl⟩
    · intro hall
      rw [ih2 (fun e he => hall e (List.mem_cons_of_mem _ he))]
      apply pf2
      rw [htag]
      exact hall e0 (List.mem_cons_self _ _)

/-- The first value that a walk that succeeds leaves under a retained tag. -/
theorem walkIFD_firstVal (s : List Byte) (bo : ByteOrder) (es : List (List Byte)) (t : Nat)
    (ht : t ∈ retainedTags) (d2 : tiffdecoder)
    (h : walkIFD es (-1) (tiffStart s bo) = .ok d2) :
    (∀ e ∈ es, ifdTag bo e = t →
      d2.firstVal t = entryFirstValue bo s e ∧
      (bo.Uint16 (slice e 2 4) = dtByte ∨ bo.Uint16 (slice e 2 4) = dtShort ∨
        bo.Uint16 (slice e 2 4) = dtLong)) ∧
    ((∀ e ∈ es, ifdTag bo e ≠ t) → d2.firstVal t = 0) := by
  obtain ⟨h1, h2⟩ := walkIFD_features es t ht (-1) (tiffStart s bo) d2 h
  constructor
  · intro e he hte
    obtain ⟨vals, hv, hl⟩ := h1 e he hte
    obtain ⟨f1, f2, _⟩ := ifdUint_first (tiffStart s bo) e vals hv
    refine ⟨?_, f2⟩
    unfold tiffdecoder.firstVal
    rw [hl]
    exact f1
  · intro hall
    unfold tiffdecoder.firstVal
    rw [h2 hall]
    rfl

/-- The byte order that `readDirectory` returns is the one of the magic. -/
theorem readDirectory_magic (s : List Byte) (bo : ByteOrder) (p : List Byte)
    (h : readDirectory s = .ok (bo, p)) : slice s 0 4 = bo.magic := by
  unfold readDirectory at h
  rcases hr : ReadAt s 8 0 with err | p0
  · rw [hr] at h; cases h
  rw [hr] at h
  simp only at h
  obtain ⟨hp0, hlen⟩ := ReadAt_ok s 8 0 p0 hr
  have hs : slice p0 0 4 = slice s 0 4 := by
    rw [hp0]
    unfold slice
    simp only [List.drop_zero, Nat.sub_zero, Nat.zero_add, List.take_take]
    rfl
  rw [hs] at h
  by_cases h1 : slice s 0 4 = leHeader
  · rw [if_pos h1] at h
    simp only at h
    split at h
    · cases h
    · split at h
      · cases h
      · injection h with h; injection h with hb _
        rw [← hb]; exact h1
  · rw [if_neg h1] at h
    by_cases h2 : slice s 0 4 = beHeader
    · rw [if_pos h2] at h
      simp only at h
      split at h
      · cases h
      · split at h
        · cases h
        · injection h with h; injection h with hb _
          rw [← hb]; exact h2
    · rw [if_neg h2] at h
      cases h

theorem minimalTiff_le (a b c d e f g h : Byte) :
    decodetiff [0x49, 0x49, 0x2a, 0, 8, 0, 0, 0, 2, 0,
        0, 1, 4, 0, 1, 0, 0, 0, a, b, c, d,
        1, 1, 4, 0, 1, 0, 0, 0, e, f, g, h, 0, 0, 0, 0] =
      .ok ⟨(ByteOrder.LittleEndian.Uint32 [a, b, c, d] : Nat),
           (ByteOrder.LittleEndian.Uint32 [e, f, g, h] : Nat)⟩ := by
  simp [decodetiff, newtiffDecoder, newReaderAt, readDirectory, ReadAt, slice, leHeader, beHeader,
    ByteOrder.Uint32, ByteOrder.Uint16, safeReadAt, maxChunkSize, ifdLen, ifdEntries, walkIFD,
    tiffdecoder.parseIFD, tiffdecoder.ifdUint, retainedTags, tBitsPerSample, tExtraSamples,
    tPhotometricInterpretation, tCompression, tPredictor, tStripOffsets, tStripByteCounts,
    tRowsPerStrip, tTileWidth, tTileLength, tTileOffsets, tTileByteCounts, tImageLength,
    tImageWidth, tFillOrder, tT4Options, tT6Options, tColorMap, tSampleFormat,
    tiffdecoder.firstVal, List.lookup, lengths, MaxInt32, dtByte, dtShort, dtLong, List.range,
    List.range.loop, Fin.coe_ofNat_eq_mod]

theorem minimalTiff_be (a b c d e f g h : Byte) :
    decodetiff [0x4d, 0x4d, 0, 0x2a, 0, 0, 0, 8, 0, 2,
        1, 0, 0, 4, 0, 0, 0, 1, a, b, c, d,
        1, 1, 0, 4, 0, 0, 0, 1, e, f, g, h, 0, 0, 0, 0] =
      .ok ⟨(ByteOrder.BigEndian.Uint32 [a, b, c, d] : Nat),
           (ByteOrder.BigEndian.Uint32 [e, f, g, h] : Nat)⟩ := by
  simp [decodetiff, newtiffDecoder, newReaderAt, readDirectory, ReadAt, slice, leHeader, beHeader,
    ByteOrder.Uint32, ByteOrder.Uint16, safeReadAt, maxChunkSize, ifdLen, ifdEntries, walkIFD,
    tiffdecoder.parseIFD, tiffdecoder.ifdUint, retainedTags, tBitsPerSample, tExtraSamples,
    tPhotometricInterpretation, tCompression, tPredictor, tStripOffsets, tStripByteCounts,
    tRowsPerStrip, tTileWidth, tTileLength, tTileOffsets, tTileByteCounts, tImageLength,
    tImageWidth, tFillOrder, tT4Options, tT6Options, tColorMap, tSampleFormat,
    tiffdecoder.firstVal, List.lookup, lengths, MaxInt32, dtByte, dtShort, dtLong, List.range,
    List.range.loop, Fin.coe_ofNat_eq_mod]

/-! ## TIFF: claim C5 -/

theorem Uint32_put32 (bo : ByteOrder) (n : Nat) (hn : n < 2 ^ 32) :
    bo.Uint32 (bo.put32 n) = n := by
  cases bo <;>
    simp only [ByteOrder.Uint32, ByteOrder.put32, List.getD_cons_zero, List.getD_cons_succ,
      toByte_val] <;> omega

/-- The minimal TIFF stream with the two Long entries for width and height decodes to
them. -/
theorem decodetiff_minimalTiff (bo : ByteOrder) (w h : Nat) (hw : w < 2 ^ 32)
    (hh : h < 2 ^ 32) : decodetiff (minimalTiff bo w h) = .ok ⟨(w : Int), (h : Int)⟩ := by
  have h1 := Uint32_put32 bo w hw
  have h2 := Uint32_put32 bo h hh
  cases bo
  · have e : minimalTiff .LittleEndian w h =
        [0x49, 0x49, 0x2a, 0, 8, 0, 0, 0, 2, 0,
          0, 1, 4, 0, 1, 0, 0, 0, toByte w, toByte (w / 2 ^ 8), toByte (w / 2 ^ 16),
          toByte (w / 2 ^ 24),
          1, 1, 4, 0, 1, 0, 0, 0, toByte h, toByte (h / 2 ^ 8), toByte (h / 2 ^ 16),
          toByte (h / 2 ^ 24), 0, 0, 0, 0] := by
      rfl
    rw [e, minimalTiff_le]
    simp only [ByteOrder.put32] at h1 h2
    rw [h1, h2]
  · have e : minimalTiff .BigEndian w h =
        [0x4d, 0x4d, 0, 0x2a, 0, 0, 0, 8, 0, 2,
          1, 0, 0, 4, 0, 0, 0, 1, toByte (w / 2 ^ 24), toByte (w / 2 ^ 16), toByte (w / 2 ^ 8),
          toByte w,
          1, 1, 0, 4, 0, 0, 0, 1, toByte (h / 2 ^ 24), toByte (h / 2 ^ 16), toByte (h / 2 ^ 8),
          toByte h, 0, 0, 0, 0] := by
      rfl
    rw [e, minimalTiff_be]
    simp only [ByteOrder.put32] at h1 h2
    rw [h1, h2]

/-- C5: when `decodetiff` accepts a stream, the stream starts with the magic of a byte
order in which the directory was read; for every directory entry with tag 256 the
returned width is the first value of that entry, an entry of type Byte, Short or Long,
decoded in that byte order, and 0 stands for a count of 0; with no entry of tag 256 the
width is 0; the same holds for the height and tag 257. The minimal stream with the two
Long entries 256 = `w` and 257 = `h` decodes to `Size{w, h}` in both byte orders. -/
theorem decodetiff_width_height (s : List Byte) (size : Size) (h : decodetiff s = .ok size) :
    (∃ bo p, readDirectory s = .ok (bo, p) ∧ slice s 0 4 = bo.magic ∧
      (∀ e ∈ ifdEntries p, ifdTag bo e = tImageWidth →
        size.Width = (entryFirstValue bo s e : Int) ∧
        (bo.Uint16 (slice e 2 4) = dtByte ∨ bo.Uint16 (slice e 2 4) = dtShort ∨
          bo.Uint16 (slice e 2 4) = dtLong)) ∧
      ((∀ e ∈ ifdEntries p, ifdTag bo e ≠ tImageWidth) → size.Width = 0) ∧
      (∀ e ∈ ifdEntries p, ifdTag bo e = tImageLength →
        size.Height = (entryFirstValue bo s e : Int) ∧
        (bo.Uint16 (slice e 2 4) = dtByte ∨ bo.Uint16 (slice e 2 4) = dtShort ∨
          bo.Uint16 (slice e 2 4) = dtLong)) ∧
      ((∀ e ∈ ifdEntries p, ifdTag bo e ≠ tImageLength) → size.Height = 0)) ∧
    (∀ (bo : ByteOrder) (w h : Nat), w < 2 ^ 32 → h < 2 ^ 32 →
      decodetiff (minimalTiff bo w h) = .ok ⟨(w : Int), (h : Int)⟩) := by
  refine ⟨?_, fun bo w h hw hh => decodetiff_minimalTiff bo w h hw hh⟩
  rcases hdir : readDirectory s with err | ⟨bo, p⟩
  · unfold decodetiff newtiffDecoder newReaderAt at h
    simp only [hdir] at h
    cases h
  refine ⟨bo, p, rfl, readDirectory_magic s bo p hdir, ?_⟩
  rw [decodetiff_eq_walk s bo p hdir] at h
  rcases hw : walkIFD (ifdEntries p) (-1) (tiffStart s bo) with err | d2
  · rw [hw] at h; cases h
  rw [hw] at h
  injection h with h
  subst h
  obtain ⟨w1, w2⟩ := walkIFD_firstVal s bo (ifdEntries p) tImageWidth (by decide) d2 hw
  obtain ⟨l1, l2⟩ := walkIFD_firstVal s bo (ifdEntries p) tImageLength (by decide) d2 hw
  refine ⟨?_, ?_, ?_, ?_⟩
  · intro e he hte
    obtain ⟨a, b⟩ := w1 e he hte
    exact ⟨by simp only; rw [a], b⟩
  · intro hall
    simp only
    rw [w2 hall]
    rfl
  · intro e he hte
    obtain ⟨a, b⟩ := l1 e he hte
    exact ⟨by simp only; rw [a], b⟩
  · intro hall
    simp only
    rw [l2 hall]
    rfl

theorem decodetiff_width_height_witness :
    ∃ bo p, readDirectory tiffLE = .ok (bo, p) ∧ slice tiffLE 0 4 = bo.magic ∧
      (∀ e ∈ ifdEntries p, ifdTag bo e = tImageWidth →
        (0x2010 : Int) = (entryFirstValue bo tiffLE e : Int) ∧
        (bo.Uint16 (slice e 2 4) = dtByte ∨ bo.Uint16 (slice e 2 4) = dtShort ∨
          bo.Uint16 (slice e 2 4) = dtLong)) ∧
      ((∀ e ∈ ifdEntries p, ifdTag bo e ≠ tImageWidth) → (0x2010 : Int) = 0) ∧
      (∀ e ∈ ifdEntries p, ifdTag bo e = tImageLength →
        (0x30 : Int) = (entryFirstValue bo tiffLE e : Int) ∧
        (bo.Uint16 (slice e 2 4) = dtByte ∨ bo.Uint16 (slice e 2 4) = dtShort ∨
          bo.Uint16 (slice e 2 4) = dtLong)) ∧
      ((∀ e ∈ ifdEntries p, ifdTag bo e ≠ tImageLength) → (0x30 : Int) = 0) :=
  (decodetiff_width_height tiffLE ⟨0x2010, 0x30⟩ (by decide)).1

/-! ## BMP: the end of the stream -/

/-- C11: what `decodebmp` returns when the stream ends too early. Inside the first 18
bytes and inside the rest of the DIB header the error is `io.ErrUnexpectedEOF`. Inside the
palette of an 8-bit image whose header is in order, the error of `io.ReadFull` is returned
as it is: `io.EOF` when the stream ends exactly after the DIB header, and
`io.ErrUnexpectedEOF` when it ends later. -/
theorem decodebmp_end_of_stream_error (s : List Byte) :
    (s.length < 18 → decodebmp s = .error .ErrUnexpectedEOF) ∧
    (18 ≤ s.length → s.getD 0 0 = 0x42 → s.getD 1 0 = 0x4d →
      (leU32 s 14 = 40 ∨ leU32 s 14 = 108 ∨ leU32 s 14 = 124) → s.length < 14 + leU32 s 14 →
      decodebmp s = .error .ErrUnexpectedEOF) ∧
    (∀ L colors, (L = 40 ∨ L = 108 ∨ L = 124) → 14 + L ≤ s.length → s.getD 0 0 = 0x42 →
      s.getD 1 0 = 0x4d → leU32 s 14 = L → 0 ≤ toInt32 (leU32 s 18) → leU16 s 26 = 1 →
      leU32 s 30 = 0 → leU16 s 28 = 8 → leU32 s 46 ≤ 256 →
      colors = (if leU32 s 46 = 0 then 256 else leU32 s 46) →
      leU32 s 10 = 14 + L + 4 * colors → s.length < 14 + L + 4 * colors →
      decodebmp s = .error (if s.length = 14 + L then .EOF else .ErrUnexpectedEOF)) := by
  refine ⟨?_, ?_, ?_⟩
  · intro h
    have h1 : ¬ (fileHeaderLen + 4 ≤ s.length) := by simp only [fileHeaderLen]; omega
    unfold decodebmp decodebmpPalette ReadFull
    rw [if_neg h1]
    by_cases h0 : s.length = 0
    · rw [if_pos h0]; rfl
    · rw [if_neg h0]; rfl
  · intro h18 hB hM hL hshort
    unfold decodebmp
    rw [decodebmpPalette_header s h18, if_neg (not_not.mpr ⟨hB, hM⟩), if_neg (by omega),
      if_pos hshort]
    rfl
  · intro L colors hL hlen hB hM hinfo hw hplanes hcomp hbpp hcu hcol hoff hshort
    rw [decodebmp_fields s L hL hlen hB hM hinfo]
    have hh : ¬ ((if toInt32 (leU32 s 22) < 0 then -toInt32 (leU32 s 22)
        else toInt32 (leU32 s 22)) < 0) := by
      rw [abs_height]; exact not_lt.mpr (abs_nonneg _)
    have hc3 : ¬ (leU32 s 30 = 3 ∧ L > infoHeaderLen ∧ leU32 s 54 = 0xff0000 ∧
        leU32 s 58 = 0xff00 ∧ leU32 s 62 = 0xff ∧ leU32 s 66 = 0xff000000) := by
      rw [hcomp]; rintro ⟨h, _⟩; omega
    have hoff2 : leU32 s 10 = (fileHeaderLen + L + colors * 4) % 2 ^ 32 := by
      rw [hoff]; simp only [fileHeaderLen]
      have : colors ≤ 256 := by rw [hcol]; split <;> omega
      omega
    simp only []
    rw [if_neg (by rintro (h | h); exact absurd h (not_lt.mpr hw); exact hh h), if_neg hc3,
      if_neg (by rw [hplanes, hcomp]; simp), if_pos hbpp, if_neg (by omega), ← hcol,
      if_neg (not_not.mpr hoff2), if_neg (by omega)]

theorem decodebmp_end_of_stream_error_witness : decodebmp bmp8 = .error .EOF :=
  (decodebmp_end_of_stream_error bmp8).2.2 40 256 (by decide) (by decide) (by decide)
    (by decide) (by decide) (by decide) (by decide) (by decide) (by decide) (by decide)
    (by decide) (by decide) (by decide)

/-! ## TIFF: reads that follow an offset -/

theorem ReadAt_eq (data : List Byte) (n off : Nat) :
    ReadAt data n off =
      if off < data.length ∧ off + n ≤ data.length then .ok (slice data off (off + n))
      else .error .EOF := by
  unfold ReadAt
  by_cases h1 : off ≥ data.length
  · rw [if_pos h1, if_neg (by omega)]
  · rw [if_neg h1]
    by_cases h2 : off + n ≤ data.length
    · rw [if_pos h2, if_pos ⟨by omega, h2⟩]
    · rw [if_neg h2, if_neg (fun h => h2 h.2)]

/-- The loop of `safeReadAt` gives all the bytes or an error. -/
theorem safeReadAtLoop_eq (data : List Byte) :
    ∀ (n off : Nat) (buf : List Byte), 0 < n →
      safeReadAtLoop data n off buf =
        if off + n ≤ data.length then .ok (buf ++ slice data off (off + n))
        else .error .EOF := by
  intro n
  induction n using Nat.strong_induction_on with
  | _ n ih =>
    intro off buf hn
    rw [safeReadAtLoop, dif_pos hn]
    simp only
    have hnext : (if n > maxChunkSize then maxChunkSize else n) ≤ n := by split <;> omega
    have hpos : 0 < (if n > maxChunkSize then maxChunkSize else n) := by
      split
      · simp [maxChunkSize]
      · omega
    generalize (if n > maxChunkSize then maxChunkSize else n) = next at hnext hpos
    rw [ReadAt_eq]
    by_cases h1 : off < data.length ∧ off + next ≤ data.length
    · rw [if_pos h1]
      simp only
      by_cases hrest : 0 < n - next
      · rw [ih (n - next) (by omega) _ _ hrest]
        have e1 : off + next + (n - next) = off + n := by omega
        rw [e1]
        by_cases h2 : off + n ≤ data.length
        · rw [if_pos h2, if_pos h2, List.append_assoc,
            slice_append_slice _ _ _ _ (by omega) (by omega)]
        · rw [if_neg h2, if_neg h2]
      · have e0 : n - next = 0 := by omega
        have e1 : next = n := by omega
        rw [e0, safeReadAtLoop, dif_neg (by omega), e1, if_pos (by omega)]
    · rw [if_neg h1, if_neg (by omega)]

/-- `safeReadAt` gives all the bytes or an error. -/
theorem safeReadAt_eq (data : List Byte) (n off : Nat) (hn : 0 < n) :
    safeReadAt data n off =
      if n ≥ 2 ^ 63 then .error .ErrUnexpectedEOF
      else if off + n ≤ data.length then .ok (slice data off (off + n))
      else .error .EOF := by
  unfold safeReadAt
  by_cases h63 : n ≥ 2 ^ 63
  · rw [if_pos h63, if_pos h63]
  · rw [if_neg h63, if_neg h63]
    by_cases hc : n < maxChunkSize
    · rw [if_pos hc, ReadAt_eq]
      by_cases h2 : off + n ≤ data.length
      · rw [if_pos ⟨by omega, h2⟩, if_pos h2]
      · rw [if_neg (fun h => h2 h.2), if_neg h2]
        simp only
        rw [if_pos (Or.inr hn)]
    · rw [if_neg hc, safeReadAtLoop_eq data n off [] hn, List.nil_append]

theorem length_slice (data : List Byte) (a b : Nat) (h : b ≤ data.length) :
    (slice data a b).length = b - a := by
  unfold slice
  rw [List.length_take, List.length_drop]
  omega

/-- An entry whose value lies past the end of the stream makes `ifdUint` fail. -/
theorem ifdUint_pastEnd (d : tiffdecoder) (e : List Byte)
    (h : valuePastEnd d.byteOrder d.r.length e) : d.ifdUint e = .error .EOF := by
  obtain ⟨h12, h1, h5, hc, h4, hend⟩ := h
  unfold ifdType at h1 h5 hc h4 hend
  unfold ifdCount at hc h4 hend
  unfold ifdOffset at hend
  unfold tiffdecoder.ifdUint
  have hl : lengths.length = 6 := rfl
  rw [if_neg (by rw [h12]; decide), if_neg (by rw [hl]; omega)]
  simp only
  rw [if_neg (by omega)]
  have hlen4 : lengths.getD (d.byteOrder.Uint16 (slice e 2 4)) 0 ≤ 8 := by
    generalize d.byteOrder.Uint16 (slice e 2 4) = t at h1 h5
    interval_cases t <;> decide
  have hM : MaxInt32 = 2147483647 := rfl
  have hprod : lengths.getD (d.byteOrder.Uint16 (slice e 2 4)) 0 *
      d.byteOrder.Uint32 (slice e 4 8) ≤ MaxInt32 := by
    have hpos : 0 < lengths.getD (d.byteOrder.Uint16 (slice e 2 4)) 0 := by
      rcases Nat.eq_zero_or_pos (lengths.getD (d.byteOrder.Uint16 (slice e 2 4)) 0) with h0 | h0
      · rw [h0] at h4; omega
      · exact h0
    rw [Nat.mul_comm]
    exact (Nat.le_div_iff_mul_le hpos).mp hc
  generalize lengths.getD (d.byteOrder.Uint16 (slice e 2 4)) 0 *
      d.byteOrder.Uint32 (slice e 4 8) = P at h4 hend hprod
  have hP : P % 2 ^ 32 = P := Nat.mod_eq_of_lt (by omega)
  rw [hP, if_pos h4, safeReadAt_eq _ _ _ (by omega), if_neg (by omega), if_neg (by omega)]

/-- The walk keeps the source and the byte order of the decoder. -/
theorem walkIFD_ok_r (es : List (List Byte)) :
    ∀ (prev : Int) (d d1 : tiffdecoder), walkIFD es prev d = .ok d1 →
      d1.r = d.r ∧ d1.byteOrder = d.byteOrder := by
  induction es with
  | nil =>
    intro prev d d1 h
    rw [walkIFD] at h
    cases h
    exact ⟨rfl, rfl⟩
  | cons p es ih =>
    intro prev d d1 h
    rw [walkIFD] at h
    split at h
    · cases h
    · rename_i tag d2 hp
      split at h
      · cases h
      · obtain ⟨_, hr, hb⟩ := parseIFD_ok d p tag d2 hp
        obtain ⟨hr2, hb2⟩ := ih _ _ _ h
        exact ⟨hr2.trans hr, hb2.trans hb⟩

/-- The walk over a directory, split after the entries `pre`. -/
theorem walkIFD_append (rest : List (List Byte)) (pre : List (List Byte)) :
    ∀ (prev : Int) (d d1 : tiffdecoder), walkIFD pre prev d = .ok d1 →
      walkIFD (pre ++ rest) prev d = walkIFD rest (lastTag d.byteOrder pre prev) d1 := by
  induction pre with
  | nil =>
    intro prev d d1 h
    rw [walkIFD] at h
    cases h
    rfl
  | cons p pre ih =>
    intro prev d d1 h
    rw [walkIFD] at h
    rw [List.cons_append, walkIFD]
    split at h
    · cases h
    · rename_i tag d2 hp
      split at h
      · cases h
      · rename_i hlt
        rw [if_neg hlt]
        obtain ⟨ht, _, hb⟩ := parseIFD_ok d p tag d2 hp
        rw [ih _ _ _ h, hb, lastTag, ht]

/-- On an inspected tag an error of `ifdUint` is the error of `parseIFD`. -/
theorem parseIFD_ifdUint_error (d : tiffdecoder) (p : List Byte) (err : Err)
    (ht : ifdTag d.byteOrder p ∈ inspectedTags) (h : d.ifdUint p = .error err) :
    d.parseIFD p = .error err := by
  unfold ifdTag at ht
  unfold tiffdecoder.parseIFD
  simp only [h]
  by_cases h1 : d.byteOrder.Uint16 (slice p 0 2) ∈ retainedTags
  · rw [if_pos h1]
  · rw [if_neg h1]
    by_cases h2 : d.byteOrder.Uint16 (slice p 0 2) = tColorMap
    · rw [if_pos h2]
    · rw [if_neg h2]
      by_cases h3 : d.byteOrder.Uint16 (slice p 0 2) = tSampleFormat
      · rw [if_pos h3]
      · exfalso
        simp only [inspectedTags, List.mem_append, List.mem_cons, List.mem_singleton,
          List.not_mem_nil, or_false] at ht
        rcases ht with ht | ht | ht
        · exact h1 ht
        · exact h2 ht
        · exact h3 ht

/-- C12: over a byte sequence `data` (of a length that a Go slice can have) and for
`n > 0`, `safeReadAt` succeeds exactly when `off + n ≤ len(data)`, and then it returns the
`n` bytes `data[off : off+n]`; otherwise it returns an error. The loop that reads in
chunks of at most 10 MiB behaves the same. So an IFD entry whose value is read through an
offset and does not end within the stream makes `ifdUint` fail with `io.EOF`, and with it
`decodetiff` when the directory walk reaches the entry and the tag is one that `parseIFD`
inspects. -/
theorem safeReadAt_all_or_error (data : List Byte) (n off : Nat)
    (hdata : data.length < 2 ^ 63) (hn : 0 < n) :
    (off + n ≤ data.length → safeReadAt data n off = .ok (slice data off (off + n))) ∧
    (data.length < off + n →
      safeReadAt data n off = .error (if n ≥ 2 ^ 63 then .ErrUnexpectedEOF else .EOF)) ∧
    ((∃ res, safeReadAt data n off = .ok res) ↔ off + n ≤ data.length) ∧
    (∀ res, safeReadAt data n off = .ok res → res.length = n) ∧
    safeReadAtLoop data n off [] =
      (if off + n ≤ data.length then .ok (slice data off (off + n)) else .error .EOF) ∧
    (∀ (d : tiffdecoder) (e : List Byte), d.r = data →
      valuePastEnd d.byteOrder data.length e → d.ifdUint e = .error .EOF) ∧
    (∀ (bo : ByteOrder) (p : List Byte) (pre post : List (List Byte)) (e : List Byte),
      readDirectory data = .ok (bo, p) → ifdEntries p = pre ++ e :: post →
      (∃ d1, walkIFD pre (-1) (tiffStart data bo) = .ok d1) →
      ifdTag bo e ∈ inspectedTags → valuePastEnd bo data.length e →
      decodetiff data = .error .EOF) := by
  have heq := safeReadAt_eq data n off hn
  have hok : off + n ≤ data.length → safeReadAt data n off = .ok (slice data off (off + n)) := by
    intro h
    rw [heq, if_neg (by omega), if_pos h]
  have herr : data.length < off + n →
      safeReadAt data n off = .error (if n ≥ 2 ^ 63 then .ErrUnexpectedEOF else .EOF) := by
    intro h
    rw [heq]
    by_cases h63 : n ≥ 2 ^ 63
    · rw [if_pos h63, if_pos h63]
    · rw [if_neg h63, if_neg h63, if_neg (by omega)]
  refine ⟨hok, herr, ⟨?_, fun h => ⟨_, hok h⟩⟩, ?_, ?_, ?_, ?_⟩
  · rintro ⟨res, hres⟩
    by_contra hc
    rw [herr (by omega)] at hres
    cases hres
  · intro res hres
    by_cases hc : off + n ≤ data.length
    · rw [hok hc] at hres
      cases hres
      rw [length_slice _ _ _ hc]
      omega
    · rw [herr (by omega)] at hres
      cases hres
  · rw [safeReadAtLoop_eq data n off [] hn, List.nil_append]
  · intro d e hr h
    rw [← hr] at h
    exact ifdUint_pastEnd d e h
  · intro bo p pre post e hdir hent ⟨d1, hwalk⟩ htag hpast
    rw [decodetiff_eq_walk data bo p hdir, hent, walkIFD_append _ _ _ _ _ hwalk, walkIFD]
    obtain ⟨hr, hb⟩ := walkIFD_ok_r _ _ _ _ hwalk
    have hr1 : d1.r = data := hr
    have hb1 : d1.byteOrder = bo := hb
    have h1 : d1.ifdUint e = .error .EOF :=
      ifdUint_pastEnd d1 e (by rw [hr1, hb1]; exact hpast)
    rw [parseIFD_ifdUint_error d1 e _ (by rw [hb1]; exact htag) h1]

theorem safeReadAt_all_or_error_witness :
    safeReadAt tiffLE 4 30 = .ok [0x30, 0, 0, 0] ∧
    safeReadAt tiffLE (11 * 2 ^ 20) 0 = .error .EOF ∧
    decodetiff tiffPastEnd = .error .EOF :=
  ⟨(safeReadAt_all_or_error tiffLE 4 30 (by decide) (by decide)).1 (by decide),
   (safeReadAt_all_or_error tiffLE (11 * 2 ^ 20) 0 (by decide) (by decide)).2.1 (by decide),
   (safeReadAt_all_or_error tiffPastEnd 1 0 (by decide) (by decide)).2.2.2.2.2.2
     .LittleEndian (slice tiffPastEnd 10 22) [] []
     (slice tiffPastEnd 10 22) (by decide) (by decide) ⟨_, rfl⟩ (by decide)
     (by decide)⟩

/-! ## WebP: the `VP8` chunk -/

/-- The `VP8` branch of the loop of `decodewebp`. -/
theorem decodewebpLoop_vp8 (dec : List Byte → Except Err (List Byte) × Nat) (v : webpVars)
    (d : Nat) (tail : List Byte) (hd : d < 2 ^ 32)
    (data : List Byte) (pad : Byte) (T fuel : Nat) (hT32 : T < 2 ^ 32)
    (hT : data.length + (padOf data pad).length + 8 + d ≤ T) :
    decodewebpLoop dec (fuel + 1) (pendingState data pad T (fccVP8 ++ le32 d ++ tail)) v =
      if v.wantAlpha = true ∨ d ≥ 2 ^ 31 then some (.error .errInvalidFormat)
      else
        match decodeVP8FrameHeader
            ⟨tail, none, T - (data.length + (padOf data pad).length + 8), d,
              decide (d % 2 = 1)⟩ with
        | .error e => some (.error e)
        | .ok (w, h) => some (.ok ⟨w, h⟩) := by
  have hnext := next_pending data pad T fccVP8 d tail rfl hd hT32 hT
  rw [decodewebpLoop, hnext]
  have e1 : fccVP8 ≠ fccALPH := by decide
  simp only [e1, if_false, if_true]

/-- A frame header whose first byte has bit 0 set gives no dimensions and no error. -/
theorem decodeVP8FrameHeader_non_key (b0 b1 b2 : Byte) (rest : List Byte) (T cl : Nat)
    (p : Bool) (hcl : 3 ≤ cl) (h0 : b0.val % 2 = 1) :
    decodeVP8FrameHeader ⟨b0 :: b1 :: b2 :: rest, none, T, cl, p⟩ = .ok (0, 0) := by
  have e3 : List.take 3 (b0 :: b1 :: b2 :: rest) = [b0, b1, b2] := rfl
  unfold decodeVP8FrameHeader
  rw [ReadFullChunk_avail _ _ _ _ 3 (by omega) (by omega) (by simp), e3]
  simp only [List.getD_cons_zero, Nat.and_one_is_mod]
  rw [if_pos (by omega)]

/-- `decodewebp` on a stream whose first chunk with a FourCC it acts on is a `VP8` chunk
of declared length `2^31` or more. -/
theorem decodewebp_vp8_too_long (dec : List Byte → Except Err (List Byte) × Nat) (n : Nat)
    (cs : List RiffChunk) (d : Nat) (tail : List Byte) (hn32 : n < 2 ^ 32)
    (hcs : ∀ c ∈ cs, c.id.length = 4 ∧ unrecognised c.id)
    (hn : 4 + (encodeChunks cs).length + 8 + d ≤ n) (hd : 2 ^ 31 ≤ d) :
    decodewebp dec (riffHeader n ++ (encodeChunks cs ++ (fccVP8 ++ le32 d ++ tail))) =
      some (.error .errInvalidFormat) := by
  apply decodewebp_of_loop dec n cs _ _ (fun t => 8 + d ≤ t) hn32 hcs (by omega) (by omega)
  intro data pad T fuel hT32 hT hQ
  rw [decodewebpLoop_vp8 dec _ d tail (by omega) data pad T fuel hT32 (by omega),
    if_pos (Or.inr hd)]

/-- `decodewebp` on a stream whose first chunk with a FourCC it acts on is a `VP8` chunk
that starts with a byte whose bit 0 is set. -/
theorem decodewebp_vp8_zero (dec : List Byte → Except Err (List Byte) × Nat) (n : Nat)
    (cs : List RiffChunk) (d : Nat) (b0 b1 b2 : Byte) (rest : List Byte) (hn32 : n < 2 ^ 32)
    (hcs : ∀ c ∈ cs, c.id.length = 4 ∧ unrecognised c.id)
    (hn : 4 + (encodeChunks cs).length + 8 + d ≤ n) (h3 : 3 ≤ d) (hd : d < 2 ^ 31)
    (h0 : b0.val % 2 = 1) :
    decodewebp dec
        (riffHeader n ++ (encodeChunks cs ++ (fccVP8 ++ le32 d ++ (b0 :: b1 :: b2 :: rest)))) =
      some (.ok ⟨0, 0⟩) := by
  apply decodewebp_of_loop dec n cs _ _ (fun t => 8 + d ≤ t) hn32 hcs (by omega) (by omega)
  intro data pad T fuel hT32 hT hQ
  rw [decodewebpLoop_vp8 dec _ d _ (by omega) data pad T fuel hT32 (by omega),
    if_neg (by simp; omega), decodeVP8FrameHeader_non_key b0 b1 b2 rest _ d _ h3 h0]

/-- The same when no chunk comes before the `VP8` chunk. -/
theorem decodewebp_vp8_too_long_first (dec : List Byte → Except Err (List Byte) × Nat)
    (n d : Nat) (tail : List Byte) (hn32 : n < 2 ^ 32) (hn : 4 + 8 + d ≤ n)
    (hd : 2 ^ 31 ≤ d) :
    decodewebp dec (riffHeader n ++ (fccVP8 ++ le32 d ++ tail)) =
      some (.error .errInvalidFormat) := by
  have h := decodewebp_vp8_too_long dec n [] d tail hn32
    (fun c hc => absurd hc (List.not_mem_nil c)) (by simp only [encodeChunks, List.length_nil]; omega) hd
  simpa only [encodeChunks, List.nil_append] using h

/-- C13, as stated, fails: on a well-framed WebP stream whose only chunk is a `VP8` chunk of
`2^31` data bytes, the first of which has bit 0 set, `decodewebp` returns the webp
invalid-format error and not the zero `Size`. -/
theorem decodewebp_vp8_non_key_rejected :
    hugeFrame.length = 2 ^ 31 ∧ (hugeFrame.getD 0 0).val % 2 = 1 ∧
    decodewebp vp8lReject (riffHeader (2 ^ 31 + 12) ++ (fccVP8 ++ le32 (2 ^ 31) ++ hugeFrame)) =
      some (.error .errInvalidFormat) ∧
    decodewebp vp8lReject (riffHeader (2 ^ 31 + 12) ++ (fccVP8 ++ le32 (2 ^ 31) ++ hugeFrame)) ≠
      some (.ok ⟨0, 0⟩) := by
  have hlen : hugeFrame.length = 2 ^ 31 := by
    unfold hugeFrame
    rw [List.length_cons, List.length_replicate]
    norm_num
  have h0 : (hugeFrame.getD 0 0).val % 2 = 1 := by
    unfold hugeFrame
    rw [List.getD_cons_zero]
    decide
  have hrun := decodewebp_vp8_too_long_first vp8lReject (2 ^ 31 + 12) (2 ^ 31) hugeFrame
    (by norm_num) (by norm_num) (le_refl _)
  refine ⟨hlen, h0, hrun, ?_⟩
  rw [hrun]
  intro h
  cases h

/-- C13, amended: on a WebP stream (RIFF header, form type WEBP, then well-framed chunks
with other FourCCs) whose first chunk with a FourCC that `decodewebp` acts on is a `VP8`
chunk of declared length `d` with `3 ≤ d < 2^31`, whose first three data bytes are there
and whose first data byte has bit 0 set, `decodewebp` returns the zero `Size` and no
error. When the declared length is `2^31` or more, it returns the webp invalid-format
error. -/
theorem decodewebp_vp8_non_key_frame (dec : List Byte → Except Err (List Byte) × Nat)
    (n : Nat) (cs : List RiffChunk) (d : Nat) (b0 b1 b2 : Byte) (rest : List Byte)
    (hn32 : n < 2 ^ 32) (hcs : ∀ c ∈ cs, c.id.length = 4 ∧ unrecognised c.id)
    (hn : 4 + (encodeChunks cs).length + 8 + d ≤ n) (h3 : 3 ≤ d) (h0 : b0.val % 2 = 1) :
    (d < 2 ^ 31 →
      decodewebp dec
          (riffHeader n ++ encodeChunks cs ++ (fccVP8 ++ le32 d ++ (b0 :: b1 :: b2 :: rest))) =
        some (.ok ⟨0, 0⟩)) ∧
    (2 ^ 31 ≤ d →
      decodewebp dec
          (riffHeader n ++ encodeChunks cs ++ (fccVP8 ++ le32 d ++ (b0 :: b1 :: b2 :: rest))) =
        some (.error .errInvalidFormat)) := by
  rw [List.append_assoc]
  exact ⟨fun hd => decodewebp_vp8_zero dec n cs d b0 b1 b2 rest hn32 hcs hn h3 hd h0,
    fun hd => decodewebp_vp8_too_long dec n cs d _ hn32 hcs hn hd⟩

theorem decodewebp_vp8_non_key_frame_witness :
    decodewebp vp8lReject webpVP8NonKey = some (.ok ⟨0, 0⟩) :=
  (decodewebp_vp8_non_key_frame vp8lReject 17 [] 5 0x31 0x02 0x00 [] (by decide)
    (fun c hc => absurd hc (List.not_mem_nil c)) (by decide) (by decide) (by decide)).1
    (by decide)

/-! ## WebP: the VP8 frame header -/

theorem and_3f_shl_or (x y : Nat) (hy : y < 2 ^ 8) :
    (x &&& 0x3f) <<< 8 ||| y = y + 256 * (x % 64) := by
  have h1 : x &&& 0x3f = x % 64 := Nat.and_pow_two_sub_one_eq_mod x 6
  rw [h1, Nat.lor_comm, or_shl_eq_add _ _ _ hy]
  norm_num

/-- `decodeVP8FrameHeader` on a chunk reader that holds the ten bytes of a frame header. -/
theorem decodeVP8FrameHeader_ten (f0 f1 f2 f3 f4 f5 f6 f7 f8 f9 : Byte) (rest : List Byte)
    (T cl : Nat) (p : Bool) (hcl : 10 ≤ cl) (hcl32 : cl < 2 ^ 32) :
    decodeVP8FrameHeader ⟨f0 :: f1 :: f2 :: f3 :: f4 :: f5 :: f6 :: f7 :: f8 :: f9 :: rest,
        none, T, cl, p⟩ =
      if f0.val % 2 ≠ 0 then .ok (0, 0)
      else if f3 = 0x9d ∧ f4 = 0x01 ∧ f5 = 0x2a then
        .ok (((f6.val + 256 * (f7.val % 64) : Nat) : Int),
             ((f8.val + 256 * (f9.val % 64) : Nat) : Int))
      else .error .vp8InvalidFormat := by
  unfold decodeVP8FrameHeader
  have e3 : List.take 3 (f0 :: f1 :: f2 :: f3 :: f4 :: f5 :: f6 :: f7 :: f8 :: f9 :: rest) =
      [f0, f1, f2] := rfl
  have d3 : List.drop 3 (f0 :: f1 :: f2 :: f3 :: f4 :: f5 :: f6 :: f7 :: f8 :: f9 :: rest) =
      f3 :: f4 :: f5 :: f6 :: f7 :: f8 :: f9 :: rest := rfl
  have e7 : List.take 7 (f3 :: f4 :: f5 :: f6 :: f7 :: f8 :: f9 :: rest) =
      [f3, f4, f5, f6, f7, f8, f9] := rfl
  rw [ReadFullChunk_avail _ _ _ _ 3 (by omega) (by omega) (by simp), e3, d3]
  simp only [List.getD_cons_zero, Nat.and_one_is_mod]
  by_cases h0 : f0.val % 2 ≠ 0
  · rw [if_pos h0, if_pos h0]
  · rw [if_neg h0, if_neg h0, subU32_eq _ _ (by omega) hcl32,
      ReadFullChunk_avail _ _ _ _ 7 (by omega) (by omega) (by simp), e7]
    simp only [List.getD_cons_zero, List.getD_cons_succ]
    rw [and_3f_shl_or _ _ (Fin.isLt _), and_3f_shl_or _ _ (Fin.isLt _)]
    by_cases hm : f3 = 0x9d ∧ f4 = 0x01 ∧ f5 = 0x2a
    · rw [if_pos hm, if_neg (by simp [hm.1, hm.2.1, hm.2.2])]
    · rw [if_neg hm, if_pos (by
        by_contra hc
        simp only [not_or, not_not] at hc
        exact hm hc)]

/-- C14: on a chunk reader that holds a 10-byte VP8 frame header `f` whose first byte has
bit 0 clear (a key frame), `decodeVP8FrameHeader` succeeds exactly when bytes 3, 4, 5 are
`9d 01 2a`; it then returns the width `f[6] + 256 * (f[7] mod 64)` and the height
`f[8] + 256 * (f[9] mod 64)`, both below `2^14`, and otherwise fails with the VP8
invalid-format error. The top two bits of `f[7]` and `f[9]` do not change the result. -/
theorem decodeVP8FrameHeader_key_frame (f rest : List Byte) (T cl : Nat) (p : Bool)
    (hf : f.length = 10) (hcl : 10 ≤ cl) (hcl32 : cl < 2 ^ 32)
    (hkey : (f.getD 0 0).val % 2 = 0) :
    ((∃ res, decodeVP8FrameHeader ⟨f ++ rest, none, T, cl, p⟩ = .ok res) ↔
      (f.getD 3 0 = 0x9d ∧ f.getD 4 0 = 0x01 ∧ f.getD 5 0 = 0x2a)) ∧
    ((f.getD 3 0 = 0x9d ∧ f.getD 4 0 = 0x01 ∧ f.getD 5 0 = 0x2a) →
      decodeVP8FrameHeader ⟨f ++ rest, none, T, cl, p⟩ =
        .ok ((((f.getD 6 0).val + 256 * ((f.getD 7 0).val % 64) : Nat) : Int),
             (((f.getD 8 0).val + 256 * ((f.getD 9 0).val % 64) : Nat) : Int))) ∧
    (¬ (f.getD 3 0 = 0x9d ∧ f.getD 4 0 = 0x01 ∧ f.getD 5 0 = 0x2a) →
      decodeVP8FrameHeader ⟨f ++ rest, none, T, cl, p⟩ = .error .vp8InvalidFormat) ∧
    (f.getD 6 0).val + 256 * ((f.getD 7 0).val % 64) < 2 ^ 14 ∧
    (f.getD 8 0).val + 256 * ((f.getD 9 0).val % 64) < 2 ^ 14 ∧
    ∀ a b : Byte, a.val % 64 = (f.getD 7 0).val % 64 → b.val % 64 = (f.getD 9 0).val % 64 →
      decodeVP8FrameHeader ⟨replaceAt (replaceAt f 7 [a]) 9 [b] ++ rest, none, T, cl, p⟩ =
        decodeVP8FrameHeader ⟨f ++ rest, none, T, cl, p⟩ := by
  match f, hf with
  | [f0, f1, f2, f3, f4, f5, f6, f7, f8, f9], _ =>
    have hk : ¬ (f0.val % 2 ≠ 0) := not_not.mpr hkey
    have hmain := decodeVP8FrameHeader_ten f0 f1 f2 f3 f4 f5 f6 f7 f8 f9 rest T cl p hcl hcl32
    rw [if_neg hk] at hmain
    have happ : [f0, f1, f2, f3, f4, f5, f6, f7, f8, f9] ++ rest =
        f0 :: f1 :: f2 :: f3 :: f4 :: f5 :: f6 :: f7 :: f8 :: f9 :: rest := rfl
    simp only [List.getD_cons_zero, List.getD_cons_succ]
    rw [happ, hmain]
    refine ⟨?_, ?_, ?_, ?_, ?_, ?_⟩
    · constructor
      · rintro ⟨res, hres⟩
        by_contra hc
        rw [if_neg hc] at hres
        cases hres
      · intro h
        rw [if_pos h]
        exact ⟨_, rfl⟩
    · intro h
      rw [if_pos h]
    · intro h
      rw [if_neg h]
    · omega
    · omega
    · intro a b ha hb
      have hrep : replaceAt (replaceAt [f0, f1, f2, f3, f4, f5, f6, f7, f8, f9] 7 [a]) 9 [b] ++
          rest = f0 :: f1 :: f2 :: f3 :: f4 :: f5 :: f6 :: a :: f8 :: b :: rest := rfl
      have hmain2 :=
        decodeVP8FrameHeader_ten f0 f1 f2 f3 f4 f5 f6 a f8 b rest T cl p hcl hcl32
      rw [if_neg hk] at hmain2
      rw [hrep, hmain2, ha, hb]

theorem decodeVP8FrameHeader_key_frame_witness :
    decodeVP8FrameHeader
        ⟨[0, 0, 0, 0x9d, 0x01, 0x2a, 0x20, 0xc3, 0x10, 0x42] ++ [], none, 10, 10, false⟩ =
      .ok (800, 528) :=
  (decodeVP8FrameHeader_key_frame [0, 0, 0, 0x9d, 0x01, 0x2a, 0x20, 0xc3, 0x10, 0x42] []
    10 10 false rfl (by decide) (by decide) (by decide)).2.1 (by decide)

/-! ## WebP: containers without a chunk that gives a size -/

/-- `next` on a reader with a whole chunk pending that ends the container. -/
theorem next_pending_end (data : List Byte) (pad : Byte) (T : Nat) (tail : List Byte)
    (hT32 : T < 2 ^ 32) (hT : data.length + (padOf data pad).length = T) :
    ((pendingState data pad T tail).next).1 = .error .EOF := by
  by_cases hne : data.length = 0
  · have hdata : data = [] := List.length_eq_zero.mp hne
    subst hdata
    have hT0 : T = 0 := by simpa [padOf] using hT.symm
    subst hT0
    simp [pendingState, padOf, webpeader.next]
  · have hmod : data.length % 2 ^ 32 = data.length := Nat.mod_eq_of_lt (by omega)
    unfold pendingState
    by_cases hodd : data.length % 2 = 1
    · have hp : padOf data pad = [pad] := by simp [padOf, hodd]
      rw [hp] at hT ⊢
      simp only [List.length_singleton] at hT
      rw [List.append_assoc, List.singleton_append]
      have hc := copyDiscardChunk_pending data (pad :: tail) T true hne (by omega) hT32
      have h1 : ¬ T - data.length = 0 := by omega
      have h1b : T - data.length - 1 = 0 := by omega
      simp only [hodd, decide_True, webpeader.next, ne_eq, hne, not_false_eq_true,
        if_true, hc, hmod, not_true_eq_false,
        and_false, if_false, h1, ReadFull, List.length_cons,
        Nat.le_add_left, List.take_succ_cons, List.drop_succ_cons, List.drop_zero, h1b]
    · have hp : padOf data pad = [] := by simp [padOf, hodd]
      rw [hp] at hT ⊢
      simp only [List.length_nil] at hT
      rw [List.append_nil]
      have hc := copyDiscardChunk_pending data tail T false hne (by omega) hT32
      have h1 : T - data.length = 0 := by omega
      simp only [hodd, decide_False, webpeader.next, ne_eq, hne, not_false_eq_true,
        if_true, hc, hmod, not_true_eq_false, Bool.false_eq_true,
        and_false, if_false, h1]

/-- The loop of `decodewebp` at the end of the container. -/
theorem decodewebpLoop_end (dec : List Byte → Except Err (List Byte) × Nat) (v : webpVars)
    (data : List Byte) (pad : Byte) (T fuel : Nat) (tail : List Byte)
    (hT32 : T < 2 ^ 32) (hT : data.length + (padOf data pad).length = T) :
    decodewebpLoop dec (fuel + 1) (pendingState data pad T tail) v =
      some (.error .errInvalidFormat) := by
  have h := next_pending_end data pad T tail hT32 hT
  rw [decodewebpLoop]
  rcases hn : (pendingState data pad T tail).next with ⟨res, z⟩
  rw [hn] at h
  simp only at h
  subst h
  rfl

/-- C15: on a well-framed RIFF container with form type WEBP none of whose chunks has the
FourCC `ALPH`, `VP8 `, `VP8L` or `VP8X`, `decodewebp` passes over all the chunks and
returns the webp invalid-format error, whatever follows the container; it returns no
`Size`. The container may hold no chunk at all, and chunks of odd length are followed by
their pad byte. -/
theorem decodewebp_no_recognised_chunk (dec : List Byte → Except Err (List Byte) × Nat)
    (n : Nat) (cs : List RiffChunk) (rest : List Byte) (hn32 : n < 2 ^ 32)
    (hcs : ∀ c ∈ cs, c.id.length = 4 ∧ unrecognised c.id)
    (hn : n = 4 + (encodeChunks cs).length) :
    decodewebp dec (riffHeader n ++ encodeChunks cs ++ rest) =
        some (.error .errInvalidFormat) ∧
    ∀ size, decodewebp dec (riffHeader n ++ encodeChunks cs ++ rest) ≠ some (.ok size) := by
  have h : decodewebp dec (riffHeader n ++ encodeChunks cs ++ rest) =
      some (.error .errInvalidFormat) := by
    rw [List.append_assoc]
    apply decodewebp_of_loop dec n cs rest _ (fun t => t = 0) hn32 hcs (by omega) (by omega)
    intro data pad T fuel hT32 hT hQ
    exact decodewebpLoop_end dec _ data pad T fuel rest hT32 (by omega)
  refine ⟨h, ?_⟩
  intro size hs
  rw [h] at hs
  cases hs

theorem decodewebp_no_recognised_chunk_witness :
    decodewebp vp8lReject (riffHeader 16 ++ encodeChunks [iccpChunk] ++ [7, 7]) =
      some (.error .errInvalidFormat) ∧
    decodewebp vp8lReject (riffHeader 4 ++ encodeChunks [] ++ []) =
      some (.error .errInvalidFormat) :=
  ⟨(decodewebp_no_recognised_chunk vp8lReject 16 [iccpChunk] [7, 7] (by decide) (by decide)
      (by decide)).1,
   (decodewebp_no_recognised_chunk vp8lReject 4 [] [] (by decide) (by decide)
      (by decide)).1⟩

/-! ## The fields of a returned `Size` are not negative -/

/-- A `Size` that `decodebmp` returns has passed the check on width and height. -/
theorem decodebmpBody_nonneg (b : List Byte) (offset infoLen : Nat) (r : List Byte)
    (s : Size) (pal : List RGBA) (h : decodebmpBody b offset infoLen r = .ok (s, pal)) :
    0 ≤ s.Width ∧ 0 ≤ s.Height := by
  unfold decodebmpBody at h
  simp only [] at h
  by_cases hneg : toInt32 (readUint32 (slice b 18 22)) < 0 ∨
      (if toInt32 (readUint32 (slice b 22 26)) < 0 then -toInt32 (readUint32 (slice b 22 26))
        else toInt32 (readUint32 (slice b 22 26))) < 0
  · rw [if_pos hneg] at h
    cases h
  · rw [if_neg hneg] at h
    have hw := not_lt.mp (fun hc => hneg (Or.inl hc))
    have hh := not_lt.mp (fun hc => hneg (Or.inr hc))
    generalize toInt32 (readUint32 (slice b 18 22)) = W at h hw
    generalize (if toInt32 (readUint32 (slice b 22 26)) < 0
      then -toInt32 (readUint32 (slice b 22 26))
      else toInt32 (readUint32 (slice b 22 26))) = H at h hh
    split_ifs at h
    all_goals first
      | (cases h; exact ⟨hw, hh⟩)
      | (split at h
         · cases h
         · cases h; exact ⟨hw, hh⟩)

theorem decodebmp_nonneg (r : List Byte) (s : Size) (h : decodebmp r = .ok s) :
    0 ≤ s.Width ∧ 0 ≤ s.Height := by
  unfold decodebmp at h
  rcases hp : decodebmpPalette r with e | ⟨s1, pal⟩
  · rw [hp] at h
    cases h
  · rw [hp] at h
    have hs : s1 = s := by
      simp only [Except.map] at h
      cases h
      rfl
    subst hs
    unfold decodebmpPalette at hp
    split at hp
    · cases hp
    · split_ifs at hp
      simp only [] at hp
      split_ifs at hp
      split at hp
      · cases hp
      · exact decodebmpBody_nonneg _ _ _ _ _ _ hp

theorem decodetiff_nonneg (r : List Byte) (s : Size) (h : decodetiff r = .ok s) :
    0 ≤ s.Width ∧ 0 ≤ s.Height := by
  unfold decodetiff at h
  split at h
  · cases h
  · rename_i d hd
    cases h
    unfold newtiffDecoder at hd
    simp only [] at hd
    split at hd
    · cases hd
    · split at hd
      · cases hd
      · cases hd
        exact ⟨Int.natCast_nonneg _, Int.natCast_nonneg _⟩

/-- A read of `n` bits gives a value below `2^n`. -/
theorem readBits_lt (n : Nat) (hn : n < 32) :
    ∀ (r : List Byte) (bits nBits u : Nat) (d : vp8ldecoder),
      vp8ldecoder.readBits n r bits nBits = .ok (u, d) → u < 2 ^ n := by
  have hmask : ∀ bits : Nat, bits &&& ((1 <<< n) % 2 ^ 32 + 2 ^ 32 - 1) % 2 ^ 32 < 2 ^ n := by
    intro bits
    rw [mask_eq n hn, Nat.and_pow_two_sub_one_eq_mod]
    exact Nat.mod_lt _ (Nat.two_pow_pos n)
  intro r
  induction r with
  | nil =>
    intro bits nBits u d h
    rw [vp8ldecoder.readBits] at h
    split_ifs at h
    cases h
    exact hmask bits
  | cons c r ih =>
    intro bits nBits u d h
    rw [vp8ldecoder.readBits] at h
    split_ifs at h
    · exact ih _ _ _ _ h
    · cases h
      exact hmask bits

theorem toInt32_succ_nonneg (u : Nat) (h : u < 2 ^ 14) : 0 ≤ toInt32 ((u + 1) % 2 ^ 32) := by
  have h1 : (u + 1) % 2 ^ 32 = u + 1 := Nat.mod_eq_of_lt (by omega)
  rw [h1, toInt32_of_lt _ (by omega)]
  exact Int.natCast_nonneg _

theorem decodeVP8LHeader_nonneg (r : List Byte) (w h : Int)
    (hd : decodeVP8LHeader r = .ok (w, h)) : 0 ≤ w ∧ 0 ≤ h := by
  unfold decodeVP8LHeader at hd
  split at hd
  · cases hd
  · split_ifs at hd
    split at hd
    · cases hd
    · rename_i width d1 hw
      split at hd
      · cases hd
      · rename_i height d2 hh
        split at hd
        · cases hd
        · split at hd
          · cases hd
          · split_ifs at hd
            cases hd
            exact ⟨toInt32_succ_nonneg _ (readBits_lt 14 (by omega) _ _ _ _ _ hw),
              toInt32_succ_nonneg _ (readBits_lt 14 (by omega) _ _ _ _ _ hh)⟩

theorem decodeVP8FrameHeader_nonneg (z : webpeader) (w h : Int)
    (hd : decodeVP8FrameHeader z = .ok (w, h)) : 0 ≤ w ∧ 0 ≤ h := by
  unfold decodeVP8FrameHeader at hd
  split at hd
  · cases hd
  · split_ifs at hd
    · cases hd
      exact ⟨le_refl _, le_refl _⟩
    · split at hd
      · cases hd
      · split_ifs at hd
        cases hd
        exact ⟨Int.natCast_nonneg _, Int.natCast_nonneg _⟩

/-- A `Size` that the loop of `decodewebp` returns has no negative field. -/
theorem decodewebpLoop_nonneg (dec : List Byte → Except Err (List Byte) × Nat) :
    ∀ (fuel : Nat) (z : webpeader) (v : webpVars) (s : Size),
      decodewebpLoop dec fuel z v = some (.ok s) → 0 ≤ s.Width ∧ 0 ≤ s.Height := by
  intro fuel
  induction fuel with
  | zero =>
    intro z v s h
    rw [decodewebpLoop] at h
    cases h
  | succ fuel ih =>
    intro z v s h
    rw [decodewebpLoop] at h
    split at h
    · cases h
    · split_ifs at h
      · cases h
      · split at h
        · cases h
        · simp only [] at h
          split at h
          · cases h
          · exact ih _ _ _ h
      · cases h
      · split at h
        · cases h
        · rename_i w0 h0 hf
          cases h
          exact decodeVP8FrameHeader_nonneg _ _ _ hf
      · cases h
      · split at h
        · cases h
        · rename_i w0 h0 hf
          cases h
          exact decodeVP8LHeader_nonneg _ _ _ hf
      · cases h
      · split at h
        · cases h
        · simp only [] at h
          split_ifs at h
          all_goals
            cases h
            exact ⟨add_nonneg (Int.natCast_nonneg _) zero_le_one,
              add_nonneg (Int.natCast_nonneg _) zero_le_one⟩
      · exact ih _ _ _ h

theorem decodewebp_nonneg (dec : List Byte → Except Err (List Byte) × Nat) (r : List Byte)
    (s : Size) (h : decodewebp dec r = some (.ok s)) : 0 ≤ s.Width ∧ 0 ≤ s.Height := by
  unfold decodewebp at h
  split at h
  · cases h
  · split_ifs at h
    · cases h
    · exact decodewebpLoop_nonneg dec _ _ _ _ h

/-- C16: a `Size` that `decodebmp`, `decodetiff` or `decodewebp` returns without error has
`Width ≥ 0` and `Height ≥ 0`, with Go's `int` of 64 bits. A BMP height field of `-2^31`
gives the height `2^31`, a BMP with a negative width field is rejected, and TIFF Long
values of `2^32 - 1` are returned as they are. -/
theorem decoders_size_nonneg (dec : List Byte → Except Err (List Byte) × Nat)
    (r : List Byte) (s : Size) :
    (decodebmp r = .ok s → 0 ≤ s.Width ∧ 0 ≤ s.Height) ∧
    (decodetiff r = .ok s → 0 ≤ s.Width ∧ 0 ≤ s.Height) ∧
    (decodewebp dec r = some (.ok s) → 0 ≤ s.Width ∧ 0 ≤ s.Height) ∧
    decodebmp (replaceAt bmp24 22 [0, 0, 0, 0x80]) = .ok ⟨3, 2 ^ 31⟩ ∧
    decodebmp (replaceAt bmp24 18 [0xff, 0xff, 0xff, 0xff]) = .error .ErrUnsupported ∧
    ∀ bo, decodetiff (minimalTiff bo (2 ^ 32 - 1) (2 ^ 32 - 1)) =
      .ok ⟨2 ^ 32 - 1, 2 ^ 32 - 1⟩ := by
  refine ⟨decodebmp_nonneg r s, decodetiff_nonneg r s, decodewebp_nonneg dec r s, by decide,
    by decide, ?_⟩
  intro bo
  exact decodetiff_minimalTiff bo (2 ^ 32 - 1) (2 ^ 32 - 1) (by norm_num) (by norm_num)

theorem decoders_size_nonneg_witness :
    (0 : Int) ≤ 3 ∧ (0 : Int) ≤ 2 ∧ (0 : Int) ≤ 0x2010 ∧ (0 : Int) ≤ 0x30 ∧
      (0 : Int) ≤ 100 ∧ (0 : Int) ≤ 50 :=
  ⟨((decoders_size_nonneg vp8lReject bmp24 ⟨3, 2⟩).1 (by decide)).1,
   ((decoders_size_nonneg vp8lReject bmp24 ⟨3, 2⟩).1 (by decide)).2,
   ((decoders_size_nonneg vp8lReject tiffLE ⟨0x2010, 0x30⟩).2.1 (by decide)).1,
   ((decoders_size_nonneg vp8lReject tiffLE ⟨0x2010, 0x30⟩).2.1 (by decide)).2,
   ((decoders_size_nonneg vp8lReject webpVP8XAlpha ⟨100, 50⟩).2.2.1 (by decide)).1,
   ((decoders_size_nonneg vp8lReject webpVP8XAlpha ⟨100, 50⟩).2.2.1 (by decide)).2⟩

/-! ## TIFF: the datatype of an entry -/

/-- A datatype outside 1..5 makes `ifdUint` fail. -/
theorem ifdUint_bad_datatype (d : tiffdecoder) (e : List Byte) (h12 : e.length = 12)
    (ht : ifdType d.byteOrder e = 0 ∨ 6 ≤ ifdType d.byteOrder e) :
    d.ifdUint e = .error (.UnsupportedError "IFD entry datatype") := by
  unfold ifdType at ht
  unfold tiffdecoder.ifdUint
  have hl : lengths.length = 6 := rfl
  rw [if_neg (by rw [h12]; decide), if_pos (by rw [hl]; omega)]

/-- The datatypes ASCII and Rational make `ifdUint` fail once the value is read. -/
theorem ifdUint_ascii_rational (d : tiffdecoder) (e : List Byte) (h12 : e.length = 12)
    (ht : ifdType d.byteOrder e = 2 ∨ ifdType d.byteOrder e = 5)
    (hr : valueReadable d.byteOrder d.r.length e) :
    d.ifdUint e = .error (.UnsupportedError "data type") := by
  obtain ⟨hc, hv⟩ := hr
  unfold ifdType at ht hc hv
  unfold ifdCount at hc hv
  unfold ifdOffset at hv
  unfold tiffdecoder.ifdUint
  have hl : lengths.length = 6 := rfl
  rw [if_neg (by rw [h12]; decide), if_neg (by rw [hl]; omega)]
  simp only
  rw [if_neg (by omega)]
  have hM : MaxInt32 = 2147483647 := rfl
  have hlen : 0 < lengths.getD (d.byteOrder.Uint16 (slice e 2 4)) 0 := by
    rcases ht with ht | ht <;> rw [ht] <;> decide
  have hprod : lengths.getD (d.byteOrder.Uint16 (slice e 2 4)) 0 *
      d.byteOrder.Uint32 (slice e 4 8) ≤ MaxInt32 := by
    rw [Nat.mul_comm]
    exact (Nat.le_div_iff_mul_le hlen).mp hc
  have h1 : d.byteOrder.Uint16 (slice e 2 4) ≠ dtByte := by
    unfold dtByte; omega
  have h3 : d.byteOrder.Uint16 (slice e 2 4) ≠ dtShort := by
    unfold dtShort; omega
  have h4 : d.byteOrder.Uint16 (slice e 2 4) ≠ dtLong := by
    unfold dtLong; omega
  generalize lengths.getD (d.byteOrder.Uint16 (slice e 2 4)) 0 *
      d.byteOrder.Uint32 (slice e 4 8) = P at hv hprod
  have hP : P % 2 ^ 32 = P := Nat.mod_eq_of_lt (by omega)
  rw [hP]
  by_cases hi : P > 4
  · rw [if_pos hi, safeReadAt_eq _ _ _ (by omega), if_neg (by omega), if_pos (by omega)]
    simp only
    rw [if_neg h1, if_neg h3, if_neg h4]
  · rw [if_neg hi]
    simp only
    rw [if_neg h1, if_neg h3, if_neg h4]

/-- On an inspected tag `parseIFD` succeeds only when `ifdUint` does. -/
theorem parseIFD_ok_ifdUint (d : tiffdecoder) (e : List Byte)
    (ht : ifdTag d.byteOrder e ∈ inspectedTags) (res : Nat × tiffdecoder)
    (h : d.parseIFD e = .ok res) : ∃ vals, d.ifdUint e = .ok vals := by
  rcases hu : d.ifdUint e with err | vals
  · rw [parseIFD_ifdUint_error d e err ht hu] at h
    cases h
  · exact ⟨vals, rfl⟩

/-- A tag that is not inspected leaves the decoder as it is. -/
theorem parseIFD_not_inspected (d : tiffdecoder) (e : List Byte)
    (ht : ifdTag d.byteOrder e ∉ inspectedTags) :
    d.parseIFD e = .ok (ifdTag d.byteOrder e, d) := by
  unfold ifdTag at ht ⊢
  simp only [inspectedTags, List.mem_append, List.mem_cons, List.mem_singleton,
    List.not_mem_nil, or_false, not_or] at ht
  unfold tiffdecoder.parseIFD
  simp only
  rw [if_neg ht.1, if_neg ht.2.1, if_neg ht.2.2]

/-- C17: an IFD entry of 12 bytes whose tag is one that `parseIFD` inspects (a retained
tag, ColorMap or SampleFormat) is accepted only with the datatype Byte (1), Short (3) or
Long (4): the datatype 0 or one above 5 gives `UnsupportedError("IFD entry datatype")`, and
ASCII (2) or Rational (5) with a readable value gives `UnsupportedError("data type")`. For
an entry with any other tag `parseIFD` returns the tag and leaves the decoder as it is,
whatever the other ten bytes of the entry and the stream are. -/
theorem parseIFD_datatype_check (d : tiffdecoder) (e : List Byte) :
    (e.length = 12 → ifdTag d.byteOrder e ∈ inspectedTags →
      ((ifdType d.byteOrder e = 0 ∨ 6 ≤ ifdType d.byteOrder e) →
        d.parseIFD e = .error (.UnsupportedError "IFD entry datatype")) ∧
      ((ifdType d.byteOrder e = 2 ∨ ifdType d.byteOrder e = 5) →
        valueReadable d.byteOrder d.r.length e →
        d.parseIFD e = .error (.UnsupportedError "data type")) ∧
      (∀ res, d.parseIFD e = .ok res →
        ifdType d.byteOrder e = 1 ∨ ifdType d.byteOrder e = 3 ∨ ifdType d.byteOrder e = 4)) ∧
    (ifdTag d.byteOrder e ∉ inspectedTags →
      d.parseIFD e = .ok (ifdTag d.byteOrder e, d) ∧
      ∀ (d2 : tiffdecoder) (e2 : List Byte), d2.byteOrder = d.byteOrder →
        slice e2 0 2 = slice e 0 2 → d2.parseIFD e2 = .ok (ifdTag d.byteOrder e, d2)) := by
  refine ⟨fun h12 ht => ⟨fun hty => ?_, fun hty hr => ?_, fun res hres => ?_⟩, fun ht => ⟨?_, ?_⟩⟩
  · exact parseIFD_ifdUint_error d e _ ht (ifdUint_bad_datatype d e h12 hty)
  · exact parseIFD_ifdUint_error d e _ ht (ifdUint_ascii_rational d e h12 hty hr)
  · obtain ⟨vals, hv⟩ := parseIFD_ok_ifdUint d e ht res hres
    exact (ifdUint_first d e vals hv).2.1
  · exact parseIFD_not_inspected d e ht
  · intro d2 e2 hb he
    have htag : ifdTag d2.byteOrder e2 = ifdTag d.byteOrder e := by
      unfold ifdTag
      rw [hb, he]
    rw [← htag]
    apply parseIFD_not_inspected
    rw [htag]
    exact ht

theorem parseIFD_datatype_check_witness :
    (tiffStart [] .LittleEndian).parseIFD (ifdEntryLE 256 2 1 [0x41, 0, 0, 0]) =
      .error (.UnsupportedError "data type") ∧
    (tiffStart [] .LittleEndian).parseIFD (ifdEntryLE 256 7 1 [0x41, 0, 0, 0]) =
      .error (.UnsupportedError "IFD entry datatype") ∧
    (tiffStart [] .LittleEndian).parseIFD (ifdEntryLE 305 2 9 [0xff, 0xff, 0xff, 0xff]) =
      .ok (305, tiffStart [] .LittleEndian) :=
  ⟨((parseIFD_datatype_check (tiffStart [] .LittleEndian) (ifdEntryLE 256 2 1 [0x41, 0, 0, 0])).1
      (by decide) (by decide)).2.1 (by decide) (by decide),
   ((parseIFD_datatype_check (tiffStart [] .LittleEndian) (ifdEntryLE 256 7 1 [0x41, 0, 0, 0])).1
      (by decide) (by decide)).1 (by decide),
   ((parseIFD_datatype_check (tiffStart [] .LittleEndian)
      (ifdEntryLE 305 2 9 [0xff, 0xff, 0xff, 0xff])).2 (by decide)).1⟩

/-! ## TIFF: the sample format -/

/-- `parseIFD` on a SampleFormat entry whose values `ifdUint` has decoded. -/
theorem parseIFD_sample_format (d : tiffdecoder) (e : List Byte) (vals : List Nat)
    (ht : ifdTag d.byteOrder e = tSampleFormat) (hv : d.ifdUint e = .ok vals) :
    d.parseIFD e =
      if vals.any (fun v => v ≠ 1) then .error (.UnsupportedError "sample format")
      else .ok (tSampleFormat, d) := by
  unfold ifdTag at ht
  unfold tiffdecoder.parseIFD
  simp only [hv, ht]
  rw [if_neg (by decide), if_neg (by decide), if_pos trivial]

/-- C18, as stated, fails: the stream `tiffUnsortedSampleFormat` holds a SampleFormat entry
(tag 339) whose one decoded value is 2, and `decodetiff` fails on it with
`FormatError("tags are not sorted in ascending order")`, not with
`UnsupportedError("sample format")`: the walk stops at the second entry, whose tag 256
follows the tag 257, and never reaches the SampleFormat entry. -/
theorem decodetiff_sample_format_not_reached :
    readDirectory tiffUnsortedSampleFormat =
      .ok (.LittleEndian, slice tiffUnsortedSampleFormat 10 46) ∧
    (ifdEntries (slice tiffUnsortedSampleFormat 10 46)).map (ifdTag .LittleEndian) =
      [257, 256, 339] ∧
    ifdTag .LittleEndian (slice tiffUnsortedSampleFormat 34 46) = tSampleFormat ∧
    (tiffStart tiffUnsortedSampleFormat .LittleEndian).ifdUint
      (slice tiffUnsortedSampleFormat 34 46) = .ok [2] ∧
    decodetiff tiffUnsortedSampleFormat = .error notSorted ∧
    decodetiff tiffUnsortedSampleFormat ≠ .error (.UnsupportedError "sample format") := by
  decide

/-- C18, amended: for every TIFF stream whose directory walk reaches a SampleFormat entry
(tag 339), that is, the entries before it parse without error and their tags ascend: when
the decoded values of the entry include one other than 1, `decodetiff` fails with
`UnsupportedError("sample format")`. When all the values are 1, and so when the count is
0, the entry does not cause failure: `parseIFD` accepts it and leaves the decoder as it
is, and the walk goes on with the entries after it. -/
theorem decodetiff_sample_format (data : List Byte) (bo : ByteOrder) (p : List Byte)
    (pre post : List (List Byte)) (e : List Byte) (d1 : tiffdecoder) (vals : List Nat)
    (hdir : readDirectory data = .ok (bo, p)) (hent : ifdEntries p = pre ++ e :: post)
    (hwalk : walkIFD pre (-1) (tiffStart data bo) = .ok d1)
    (htag : ifdTag bo e = tSampleFormat) (hvals : (tiffStart data bo).ifdUint e = .ok vals) :
    ((∃ v ∈ vals, v ≠ 1) →
      d1.parseIFD e = .error (.UnsupportedError "sample format") ∧
      decodetiff data = .error (.UnsupportedError "sample format")) ∧
    ((∀ v ∈ vals, v = 1) →
      d1.parseIFD e = .ok (tSampleFormat, d1) ∧
      walkIFD (ifdEntries p) (-1) (tiffStart data bo) =
        if (tSampleFormat : Int) ≤ lastTag bo pre (-1) then .error notSorted
        else walkIFD post tSampleFormat d1) ∧
    (ifdCount bo e = 0 → vals = []) := by
  obtain ⟨hr, hb⟩ := walkIFD_ok_r _ _ _ _ hwalk
  have hb1 : d1.byteOrder = bo := hb
  have hv1 : d1.ifdUint e = .ok vals := by
    rw [ifdUint_congr d1 (tiffStart data bo) e hr hb]
    exact hvals
  have hp := parseIFD_sample_format d1 e vals (by rw [hb1]; exact htag) hv1
  have hw : walkIFD (ifdEntries p) (-1) (tiffStart data bo) =
      walkIFD (e :: post) (lastTag bo pre (-1)) d1 := by
    rw [hent, walkIFD_append _ _ _ _ _ hwalk]
    rfl
  refine ⟨fun hex => ?_, fun hall => ?_, fun hc => ?_⟩
  · have hany : vals.any (fun v => v ≠ 1) = true := by
      obtain ⟨v, hv, hne⟩ := hex
      rw [List.any_eq_true]
      exact ⟨v, hv, by simpa using hne⟩
    rw [if_pos hany] at hp
    refine ⟨hp, ?_⟩
    rw [decodetiff_eq_walk data bo p hdir, hw, walkIFD, hp]
  · have hany : ¬ (vals.any (fun v => v ≠ 1) = true) := by
      rw [List.any_eq_true]
      rintro ⟨v, hv, hne⟩
      exact (by simpa using hne : v ≠ 1) (hall v hv)
    rw [if_neg hany] at hp
    refine ⟨hp, ?_⟩
    rw [hw, walkIFD, hp]
    rfl
  · have hlen := (ifdUint_first _ _ _ hvals).2.2
    unfold ifdCount at hc
    have hb0 : (tiffStart data bo).byteOrder = bo := rfl
    rw [hb0, hc] at hlen
    exact List.length_eq_zero.mp hlen

theorem decodetiff_sample_format_witness :
    decodetiff (tiffSampleFormat 2) = .error (.UnsupportedError "sample format") ∧
    walkIFD (ifdEntries (slice (tiffSampleFormat 1) 10 46)) (-1)
        (tiffStart (tiffSampleFormat 1) .LittleEndian) =
      .ok { tiffStart (tiffSampleFormat 1) .LittleEndian with
            features := [(257, [0x30]), (256, [0x2010])] } ∧
    decodetiff (tiffSampleFormat 1) = .ok ⟨0x2010, 0x30⟩ :=
  ⟨((decodetiff_sample_format (tiffSampleFormat 2) .LittleEndian
      (slice (tiffSampleFormat 2) 10 46)
      [slice (tiffSampleFormat 2) 10 22, slice (tiffSampleFormat 2) 22 34] []
      (slice (tiffSampleFormat 2) 34 46)
      ({ tiffStart (tiffSampleFormat 2) .LittleEndian with
          features := [(257, [0x30]), (256, [0x2010])] }) [2]
      (by decide) (by decide) (by decide) (by decide) (by decide)).1
      ⟨2, by decide, by decide⟩).2,
   ((decodetiff_sample_format (tiffSampleFormat 1) .LittleEndian
      (slice (tiffSampleFormat 1) 10 46)
      [slice (tiffSampleFormat 1) 10 22, slice (tiffSampleFormat 1) 22 34] []
      (slice (tiffSampleFormat 1) 34 46)
      ({ tiffStart (tiffSampleFormat 1) .LittleEndian with
          features := [(257, [0x30]), (256, [0x2010])] }) [1]
      (by decide) (by decide) (by decide) (by decide) (by decide)).2.1
      (by decide)).2,
   by decide⟩

/-! ## The format registry: first-match dispatch -/

/-- What the Magic Matcher accepts. -/
theorem matchMagic_iff (magic : List Byte) :
    ∀ b : List Byte, matchMagic magic b = true ↔
      magic.length ≤ b.length ∧
        ∀ i, i < magic.length → magic.getD i 0 = 0x3f ∨ magic.getD i 0 = b.getD i 0 := by
  induction magic with
  | nil =>
    intro b
    simp [matchMagic]
  | cons m magic ih =>
    intro b
    cases b with
    | nil => simp [matchMagic]
    | cons c b =>
      rw [matchMagic, Bool.and_eq_true, ih b]
      simp only [Bool.or_eq_true, decide_eq_true_eq, List.length_cons, Nat.add_le_add_iff_right]
      constructor
      · rintro ⟨h0, hlen, hrest⟩
        refine ⟨hlen, ?_⟩
        intro i hi
        cases i with
        | zero => simpa using h0
        | succ i =>
          have := hrest i (by omega)
          simpa using this
      · rintro ⟨hlen, hall⟩
        refine ⟨by simpa using hall 0 (by omega), hlen, ?_⟩
        intro i hi
        have := hall (i + 1) (by omega)
        simpa using this

/-- The matcher looks at no byte after the pattern. -/
theorem matchMagic_take (magic : List Byte) :
    ∀ (b : List Byte) (k : Nat), magic.length ≤ k →
      matchMagic magic (b.take k) = matchMagic magic b := by
  induction magic with
  | nil =>
    intro b k _
    simp [matchMagic]
  | cons m magic ih =>
    intro b k hk
    cases b with
    | nil => simp
    | cons c b =>
      cases k with
      | zero => simp at hk
      | succ k =>
        rw [List.take_succ_cons, matchMagic, matchMagic, ih b k (by simpa using hk)]

/-- Sniffing finds the first entry whose pattern matches the look-ahead buffer. -/
theorem sniff_eq_find (buf : List Byte) (fs : List FormatEntry) :
    sniff buf fs = fs.find? fun f => matchMagic f.magic buf := by
  induction fs with
  | nil => rfl
  | cons f fs ih =>
    rw [sniff, List.find?_cons]
    by_cases hm : matchMagic f.magic buf = true
    · rw [if_pos hm, hm]
    · rw [if_neg hm, ih]
      simp only [Bool.not_eq_true] at hm
      rw [hm]

theorem le_foldl_max (l : List Nat) :
    ∀ a : Nat, a ≤ l.foldl max a ∧ ∀ x ∈ l, x ≤ l.foldl max a := by
  induction l with
  | nil =>
    intro a
    exact ⟨le_refl _, fun x hx => absurd hx (List.not_mem_nil x)⟩
  | cons y l ih =>
    intro a
    rw [List.foldl_cons]
    obtain ⟨h1, h2⟩ := ih (max a y)
    refine ⟨le_trans (le_max_left a y) h1, ?_⟩
    intro x hx
    rcases List.mem_cons.mp hx with hx | hx
    · rw [hx]
      exact le_trans (le_max_right a y) h1
    · exact h2 x hx

theorem find_congr (fs : List FormatEntry) (p q : FormatEntry → Bool)
    (h : ∀ f ∈ fs, p f = q f) : fs.find? p = fs.find? q := by
  induction fs with
  | nil => rfl
  | cons f fs ih =>
    rw [List.find?_cons, List.find?_cons, h f (List.mem_cons_self _ _),
      ih (fun g hg => h g (List.mem_cons_of_mem _ hg))]

/-- The first entry of a list that satisfies `p`. -/
theorem find_first (fs : List FormatEntry) (p : FormatEntry → Bool) (f : FormatEntry) :
    ∀ pre post : List FormatEntry, fs = pre ++ f :: post → (∀ g ∈ pre, p g = false) →
      p f = true → fs.find? p = some f := by
  intro pre
  induction pre generalizing fs with
  | nil =>
    intro post hfs _ hf
    rw [hfs, List.nil_append, List.find?_cons, hf]
  | cons g pre ih =>
    intro post hfs hpre hf
    rw [hfs, List.cons_append, List.find?_cons, hpre g (List.mem_cons_self _ _)]
    exact ih (pre ++ f :: post) post rfl
      (fun x hx => hpre x (List.mem_cons_of_mem _ hx)) hf

/-- On every stream `DecodeSize` runs the decoder of the first entry whose pattern matches
the leading bytes. -/
theorem DecodeSize_eq_find (fs : List FormatEntry) (r : List Byte) :
    DecodeSize fs r =
      match fs.find? (fun f => matchMagic f.magic r) with
      | some f => (f.decode r, f.name)
      | none => (some (.error .ErrFormat), "") := by
  unfold DecodeSize
  simp only
  generalize hL : (fs.map fun f => f.magic.length).foldl max 0 = L
  have hmax : ∀ f ∈ fs, f.magic.length ≤ L := by
    intro f hf
    rw [← hL]
    exact (le_foldl_max _ 0).2 _ (List.mem_map_of_mem _ hf)
  rw [sniff_eq_find (r.take L) fs]
  rw [find_congr fs _ (fun f => matchMagic f.magic r)
    (fun f hf => matchMagic_take f.magic r L (hmax f hf))]
  generalize fs.find? (fun f => matchMagic f.magic r) = o
  cases o <;> rfl

/-- The entry that sniffing finds for each of the seven patterns. -/
theorem find_builtin (jpeg png gif : List Byte → Option (Except Err Size))
    (dec : List Byte → Except Err (List Byte) × Nat) (r : List Byte) :
    (matchMagic [0xff, 0xd8] r = true →
      ((builtinFormats jpeg png gif dec).find? (fun f => matchMagic f.magic r)).map
        (fun f => (f.decode r, f.name)) = some (jpeg r, "jpeg")) ∧
    (matchMagic pngHeader r = true →
      ((builtinFormats jpeg png gif dec).find? (fun f => matchMagic f.magic r)).map
        (fun f => (f.decode r, f.name)) = some (png r, "png")) ∧
    (matchMagic [0x47, 0x49, 0x46, 0x38, 0x3f, 0x61] r = true →
      ((builtinFormats jpeg png gif dec).find? (fun f => matchMagic f.magic r)).map
        (fun f => (f.decode r, f.name)) = some (gif r, "gif")) ∧
    (matchMagic
        [0x52, 0x49, 0x46, 0x46, 0x3f, 0x3f, 0x3f, 0x3f, 0x57, 0x45, 0x42, 0x50, 0x56, 0x50, 0x38]
        r = true →
      ((builtinFormats jpeg png gif dec).find? (fun f => matchMagic f.magic r)).map
        (fun f => (f.decode r, f.name)) = some (decodewebp dec r, "webp")) ∧
    (matchMagic [0x42, 0x4d, 0x3f, 0x3f, 0x3f, 0x3f, 0, 0, 0, 0] r = true →
      ((builtinFormats jpeg png gif dec).find? (fun f => matchMagic f.magic r)).map
        (fun f => (f.decode r, f.name)) = some (some (decodebmp r), "bmp")) ∧
    (matchMagic leHeader r = true →
      ((builtinFormats jpeg png gif dec).find? (fun f => matchMagic f.magic r)).map
        (fun f => (f.decode r, f.name)) = some (some (decodetiff r), "tiff")) ∧
    (matchMagic beHeader r = true →
      ((builtinFormats jpeg png gif dec).find? (fun f => matchMagic f.magic r)).map
        (fun f => (f.decode r, f.name)) = some (some (decodetiff r), "tiff")) := by
  cases r with
  | nil => simp [matchMagic, pngHeader, leHeader, beHeader]
  | cons c r =>
    simp only [builtinFormats, RegisterFormat, List.nil_append, List.cons_append,
      List.find?_cons, pngHeader, leHeader, beHeader]
    refine ⟨?_, ?_, ?_, ?_, ?_, ?_, ?_⟩ <;> intro h
    all_goals
      have hc := h
      rw [matchMagic, Bool.and_eq_true] at hc
      have hc0 := hc.1
      simp only [Bool.or_eq_true, decide_eq_true_eq] at hc0
      rcases hc0 with hc0 | hc0
      · exact absurd hc0 (by decide)
      · subst hc0
        simp [matchMagic] at h ⊢
        try simp [h]

/-- C19: over the registrations of `init.go`, in the order jpeg, png, gif, webp, bmp,
tiff (little-endian), tiff (big-endian), `DecodeSize` returns on every stream the name and
the decoder result of the first entry whose pattern matches the leading bytes of the
stream, where a pattern byte `?` matches any byte and every other byte must be equal; when
no pattern matches, as on 16 unrecognised bytes or on the empty stream, it returns the
no-match error and no `Size`. -/
theorem DecodeSize_first_match (jpeg png gif : List Byte → Option (Except Err Size))
    (dec : List Byte → Except Err (List Byte) × Nat) (r : List Byte) :
    (DecodeSize (builtinFormats jpeg png gif dec) r =
      match (builtinFormats jpeg png gif dec).find? (fun f => matchMagic f.magic r) with
      | some f => (f.decode r, f.name)
      | none => (some (.error .ErrFormat), "")) ∧
    (∀ (pre post : List FormatEntry) (f : FormatEntry),
      builtinFormats jpeg png gif dec = pre ++ f :: post →
      (∀ g ∈ pre, matchMagic g.magic r = false) → matchMagic f.magic r = true →
      DecodeSize (builtinFormats jpeg png gif dec) r = (f.decode r, f.name)) ∧
    (builtinFormats jpeg png gif dec).map (fun f => f.name) =
      ["jpeg", "png", "gif", "webp", "bmp", "tiff", "tiff"] ∧
    (∀ magic b : List Byte, matchMagic magic b = true ↔
      magic.length ≤ b.length ∧
        ∀ i, i < magic.length → magic.getD i 0 = 0x3f ∨ magic.getD i 0 = b.getD i 0) ∧
    ((∀ f ∈ builtinFormats jpeg png gif dec, matchMagic f.magic r = false) →
      DecodeSize (builtinFormats jpeg png gif dec) r = (some (.error .ErrFormat), "") ∧
      ∀ (size : Size) (name : String),
        DecodeSize (builtinFormats jpeg png gif dec) r ≠ (some (.ok size), name)) ∧
    (matchMagic [0xff, 0xd8] r = true →
      DecodeSize (builtinFormats jpeg png gif dec) r = (jpeg r, "jpeg")) ∧
    (matchMagic pngHeader r = true →
      DecodeSize (builtinFormats jpeg png gif dec) r = (png r, "png")) ∧
    (matchMagic [0x47, 0x49, 0x46, 0x38, 0x3f, 0x61] r = true →
      DecodeSize (builtinFormats jpeg png gif dec) r = (gif r, "gif")) ∧
    (matchMagic
        [0x52, 0x49, 0x46, 0x46, 0x3f, 0x3f, 0x3f, 0x3f, 0x57, 0x45, 0x42, 0x50, 0x56, 0x50,
          0x38] r = true →
      DecodeSize (builtinFormats jpeg png gif dec) r = (decodewebp dec r, "webp")) ∧
    (matchMagic [0x42, 0x4d, 0x3f, 0x3f, 0x3f, 0x3f, 0, 0, 0, 0] r = true →
      DecodeSize (builtinFormats jpeg png gif dec) r = (some (decodebmp r), "bmp")) ∧
    (matchMagic leHeader r = true →
      DecodeSize (builtinFormats jpeg png gif dec) r = (some (decodetiff r), "tiff")) ∧
    (matchMagic beHeader r = true →
      DecodeSize (builtinFormats jpeg png gif dec) r = (some (decodetiff r), "tiff")) := by
  have hfind := DecodeSize_eq_find (builtinFormats jpeg png gif dec) r
  have hsome : ∀ (o : Option FormatEntry) (x : Option (Except Err Size) × String),
      o.map (fun f => (f.decode r, f.name)) = some x →
      (match o with
        | some f => (f.decode r, f.name)
        | none => (some (.error .ErrFormat), "")) = x := by
    intro o x ho
    cases o with
    | none => cases ho
    | some f =>
      simp only [Option.map_some'] at ho
      exact Option.some.inj ho
  have hnone : (∀ f ∈ builtinFormats jpeg png gif dec, matchMagic f.magic r = false) →
      DecodeSize (builtinFormats jpeg png gif dec) r = (some (.error .ErrFormat), "") := by
    intro hno
    rw [hfind, List.find?_eq_none.mpr (fun f hf => by simp [hno f hf])]
  obtain ⟨h1, h2, h3, h4, h5, h6, h7⟩ := find_builtin jpeg png gif dec r
  refine ⟨hfind, ?_, rfl, matchMagic_iff, ?_, ?_⟩
  · intro pre post f hfs hpre hf
    rw [hfind, find_first _ (fun f => matchMagic f.magic r) f pre post hfs hpre hf]
  · intro hno
    refine ⟨hnone hno, ?_⟩
    intro size name hc
    rw [hnone hno] at hc
    cases hc
  · rw [hfind]
    exact ⟨fun h => hsome _ _ (h1 h), fun h => hsome _ _ (h2 h), fun h => hsome _ _ (h3 h),
      fun h => hsome _ _ (h4 h), fun h => hsome _ _ (h5 h), fun h => hsome _ _ (h6 h),
      fun h => hsome _ _ (h7 h)⟩

theorem DecodeSize_first_match_witness :
    DecodeSize (builtinFormats stubDecoder stubDecoder stubDecoder vp8lReject) webpVP8XAlpha =
      (some (.ok ⟨100, 50⟩), "webp") ∧
    DecodeSize (builtinFormats stubDecoder stubDecoder stubDecoder vp8lReject) bmp24 =
      (some (.ok ⟨3, 2⟩), "bmp") ∧
    DecodeSize (builtinFormats stubDecoder stubDecoder stubDecoder vp8lReject) tiffLE =
      (some (.ok ⟨0x2010, 0x30⟩), "tiff") ∧
    DecodeSize (builtinFormats stubDecoder stubDecoder stubDecoder vp8lReject)
        (tiffLE.take 10) = (some (decodetiff (tiffLE.take 10)), "tiff") ∧
    DecodeSize (builtinFormats stubDecoder stubDecoder stubDecoder vp8lReject)
        (List.replicate 16 0) = (some (.error .ErrFormat), "") ∧
    DecodeSize (builtinFormats stubDecoder stubDecoder stubDecoder vp8lReject) [] =
      (some (.error .ErrFormat), "") :=
  ⟨(DecodeSize_first_match stubDecoder stubDecoder stubDecoder vp8lReject
      webpVP8XAlpha).2.2.2.2.2.2.2.2.1 (by decide),
   (DecodeSize_first_match stubDecoder stubDecoder stubDecoder vp8lReject
      bmp24).2.2.2.2.2.2.2.2.2.1 (by decide),
   (DecodeSize_first_match stubDecoder stubDecoder stubDecoder vp8lReject
      tiffLE).2.2.2.2.2.2.2.2.2.2.1 (by decide),
   (DecodeSize_first_match stubDecoder stubDecoder stubDecoder vp8lReject
      (tiffLE.take 10)).2.2.2.2.2.2.2.2.2.2.1 (by decide),
   ((DecodeSize_first_match stubDecoder stubDecoder stubDecoder vp8lReject
      (List.replicate 16 0)).2.2.2.2.1 (by decide)).1,
   ((DecodeSize_first_match stubDecoder stubDecoder stubDecoder vp8lReject
      []).2.2.2.2.1 (by decide)).1⟩

/-! ## WebP: the gradient filter of the alpha plane -/

theorem length_addAt (a : List Byte) (i x : Nat) : (addAt a i x).length = a.length := by
  unfold addAt
  rw [List.length_set]

theorem getD_addAt_ne (a : List Byte) (i x j : Nat) (h : j ≠ i) :
    (addAt a i x).getD j 0 = a.getD j 0 := by
  unfold addAt
  simp only [List.getD_eq_getElem?_getD]
  rw [List.getElem?_set_ne (fun hc => h hc.symm)]

theorem getD_addAt_self (a : List Byte) (i x : Nat) (h : i < a.length) :
    ((addAt a i x).getD i 0).val = ((a.getD i 0).val + x) % 256 := by
  unfold addAt
  simp only [List.getD_eq_getElem?_getD]
  rw [List.getElem?_set_self h]
  rfl

/-- The prediction at `j` looks only at bytes before `j`. -/
theorem gradPred_congr (w : Nat) (hw : 1 ≤ w) (a b : List Byte) (j : Nat)
    (h : ∀ i, i < j → a.getD i 0 = b.getD i 0) : gradPred w a j = gradPred w b j := by
  unfold gradPred
  by_cases h0 : j = 0
  · rw [if_pos h0, if_pos h0]
  · rw [if_neg h0, if_neg h0, h (j - 1) (by omega)]
    by_cases h1 : j < w
    · rw [if_pos h1, if_pos h1]
    · rw [if_neg h1, if_neg h1, h (j - w) (by omega), h (j - w - 1) (by omega)]

/-- One step of the filter: the byte at `k` gets the prediction added. -/
theorem GradInv_step (w : Nat) (hw : 1 ≤ w) (inp a : List Byte) (k x : Nat)
    (hinv : GradInv w inp k a) (hk : k < inp.length) (hx : x = gradPred w a k) :
    GradInv w inp (k + 1) (addAt a k x) := by
  obtain ⟨hlen, hlow, hhigh⟩ := hinv
  refine ⟨by rw [length_addAt, hlen], ?_, ?_⟩
  · intro j hj
    have hpred : gradPred w (addAt a k x) j = gradPred w a j :=
      gradPred_congr w hw _ _ j (fun i hi => getD_addAt_ne a k x i (by omega))
    rw [hpred]
    by_cases hjk : j = k
    · rw [hjk, getD_addAt_self a k x (by omega), hhigh k (le_refl _), hx]
    · rw [getD_addAt_ne a k x j hjk]
      exact hlow j (by omega)
  · intro j hj
    rw [getD_addAt_ne a k x j (by omega)]
    exact hhigh j (by omega)

/-- A loop over `s, s+1, ..., s+m-1` that advances a property by one index per step. -/
theorem foldl_range_advance (P : Nat → List Byte → Prop) (f : List Byte → Nat → List Byte) :
    ∀ (m s : Nat) (a : List Byte),
      (∀ (b : List Byte) (j : Nat), s ≤ j → j < s + m → P j b → P (j + 1) (f b j)) →
      P s a → P (s + m) ((List.range' s m).foldl f a) := by
  intro m
  induction m with
  | zero =>
    intro s a _ h
    exact h
  | succ m ih =>
    intro s a hstep h
    rw [List.range'_succ, List.foldl_cons]
    have h1 := hstep a s (le_refl _) (by omega) h
    have := ih (s + 1) (f a s) (fun b j hj1 hj2 hp => hstep b j (by omega) (by omega) hp) h1
    have e : s + 1 + m = s + (m + 1) := by omega
    rw [e] at this
    exact this

theorem clamp_eq (x : Int) :
    (if x < 0 then 0 else if x > 255 then 255 else x) = clamp x 0 255 := by
  unfold clamp
  split_ifs with h1 h2
  · rw [max_eq_left]
    exact le_trans (min_le_right _ _) (le_of_lt h1)
  · rw [min_eq_left (le_of_lt h2), max_eq_right (by norm_num)]
  · rw [min_eq_right (by omega), max_eq_right (by omega)]

theorem GradInv_start (w : Nat) (inp : List Byte) : GradInv w inp 1 inp := by
  refine ⟨rfl, ?_, fun j _ => rfl⟩
  intro j hj
  have h0 : j = 0 := by omega
  subst h0
  have : gradPred w inp 0 = 0 := by unfold gradPred; rw [if_pos rfl]
  rw [this, Nat.add_zero, Nat.mod_eq_of_lt (Fin.isLt _)]

/-- The loop over the first row. -/
theorem GradInv_firstRow (w : Nat) (hw : 1 ≤ w) (inp : List Byte) (hlen : w ≤ inp.length) :
    GradInv w inp w (unfilterFirstRow inp w) := by
  unfold unfilterFirstRow
  have h := foldl_range_advance (fun j a => GradInv w inp j a)
    (fun a i => addAt a i (a.getD (i - 1) 0).val) (w - 1) 1 inp
    (by
      intro b j hj1 hj2 hp
      apply GradInv_step w hw inp b j _ hp (by omega)
      unfold gradPred
      rw [if_neg (by omega), if_pos (by omega)])
    (GradInv_start w inp)
  have h2 : GradInv w inp (1 + (w - 1)) _ := h
  have e : 1 + (w - 1) = w := by omega
  rw [e] at h2
  exact h2

/-- The loop over one row after the first. -/
theorem GradInv_row (w : Nat) (hw : 1 ≤ w) (inp : List Byte) (i : Nat) (hi : w ≤ i)
    (hmod : i % w = 0) (hlen : i + w ≤ inp.length) (b : List Byte)
    (hp : GradInv w inp i b) :
    GradInv w inp (i + w)
      ((List.range' 1 (w - 1)).foldl (fun a j =>
        let c : Int := (a.getD (i + j - w - 1) 0).val
        let b : Int := (a.getD (i + j - w) 0).val
        let a0 : Int := (a.getD (i + j - 1) 0).val
        let x := a0 + b - c
        let x := if x < 0 then 0 else if x > 255 then 255 else x
        addAt a (i + j) x.toNat) (addAt b i (b.getD (i - w) 0).val)) := by
  have h1 : GradInv w inp (i + 1) (addAt b i (b.getD (i - w) 0).val) := by
    apply GradInv_step w hw inp b i _ hp (by omega)
    unfold gradPred
    rw [if_neg (by omega), if_neg (by omega), if_pos hmod]
  have h := foldl_range_advance (fun j a => GradInv w inp (i + j) a)
    (fun a j =>
        let c : Int := (a.getD (i + j - w - 1) 0).val
        let b : Int := (a.getD (i + j - w) 0).val
        let a0 : Int := (a.getD (i + j - 1) 0).val
        let x := a0 + b - c
        let x := if x < 0 then 0 else if x > 255 then 255 else x
        addAt a (i + j) x.toNat) (w - 1) 1 (addAt b i (b.getD (i - w) 0).val)
    (by
      intro a j hj1 hj2 hpa
      have hjw : j < w := by omega
      have hm : (i + j) % w ≠ 0 := by
        rw [Nat.add_mod, hmod, Nat.zero_add, Nat.mod_mod, Nat.mod_eq_of_lt hjw]
        omega
      simp only
      apply GradInv_step w hw inp a (i + j) _ hpa (by omega)
      rw [clamp_eq]
      unfold gradPred
      rw [if_neg (by omega), if_neg (by omega), if_neg hm])
    h1
  have h2 : GradInv w inp (i + (1 + (w - 1))) _ := h
  have e : i + (1 + (w - 1)) = i + w := by omega
  rw [e] at h2
  exact h2

theorem div_rows (w h : Nat) (hw : 1 ≤ w) (hh : 1 ≤ h) : (w * h - 1) / w = h - 1 := by
  obtain ⟨k, rfl⟩ : ∃ k, h = k + 1 := ⟨h - 1, by omega⟩
  apply Nat.div_eq_of_lt_le
  · rw [Nat.mul_succ, Nat.add_sub_cancel, Nat.mul_comm]
    omega
  · rw [Nat.mul_succ, Nat.add_sub_cancel, Nat.succ_mul, Nat.mul_comm]
    omega

/-- After `unfilterAlpha` in gradient mode every byte of the buffer is the input byte
plus the prediction from the bytes before it. -/
theorem unfilterAlpha_gradient_inv (w h : Nat) (hw : 1 ≤ w) (hh : 1 ≤ h) (inp : List Byte)
    (hlen : inp.length = w * h) : GradInv w inp (w * h) (unfilterAlpha inp w 3) := by
  have hle : w ≤ inp.length := by
    rw [hlen]
    exact Nat.le_mul_of_pos_right w (by omega)
  have hpos : 0 < w * h := Nat.mul_pos (by omega) (by omega)
  unfold unfilterAlpha
  rw [if_neg (by omega), if_neg (by decide), if_neg (by decide), if_pos rfl]
  simp only
  have hfirst := GradInv_firstRow w hw inp hle
  rw [hfirst.1, hlen]
  unfold rowStarts
  rw [div_rows w h hw hh, List.foldl_map]
  have hrows := foldl_range_advance (fun r a => GradInv w inp (w * r) a)
    (fun a k =>
      (List.range' 1 (w - 1)).foldl (fun a j =>
        let c : Int := (a.getD (w * k + j - w - 1) 0).val
        let b : Int := (a.getD (w * k + j - w) 0).val
        let a0 : Int := (a.getD (w * k + j - 1) 0).val
        let x := a0 + b - c
        let x := if x < 0 then 0 else if x > 255 then 255 else x
        addAt a (w * k + j) x.toNat) (addAt a (w * k) (a.getD (w * k - w) 0).val))
    (h - 1) 1 (unfilterFirstRow inp w)
    (by
      intro b r hr1 hr2 hp
      have h1 : w * (r + 1) ≤ w * h := Nat.mul_le_mul_left w (by omega)
      have h2 : w * 1 ≤ w * r := Nat.mul_le_mul_left w hr1
      rw [Nat.mul_succ] at h1
      rw [Nat.mul_one] at h2
      have := GradInv_row w hw inp (w * r) h2 (Nat.mul_mod_right w r) (by omega) b hp
      rw [Nat.mul_succ]
      exact this)
    (by
      show GradInv w inp (w * 1) _
      rw [Nat.mul_one]
      exact hfirst)
  have h2 : GradInv w inp (w * (1 + (h - 1))) _ := hrows
  have e : 1 + (h - 1) = h := by omega
  rw [e] at h2
  exact h2

/-- C20: for a width `w ≥ 1`, a height `h ≥ 1` and a buffer `inp` of `w * h` bytes,
`unfilterAlpha(inp, w, 3)` (gradient mode) leaves a buffer `out` of the same length with,
in arithmetic modulo 256: `out[0][0] = inp[0][0]`; `out[0][c] = inp[0][c] + out[0][c-1]`
for `c ≥ 1`; `out[r][0] = inp[r][0] + out[r-1][0]` for `r ≥ 1`; and `out[r][c] = inp[r][c]
+ clamp(out[r][c-1] + out[r-1][c] - out[r-1][c-1], 0, 255)` for `r, c ≥ 1`, the clamp
taken in unbounded integers. -/
theorem unfilterAlpha_gradient (w h : Nat) (inp : List Byte) (hw : 1 ≤ w) (hh : 1 ≤ h)
    (hlen : inp.length = w * h) :
    (unfilterAlpha inp w 3).length = w * h ∧
    at2 (unfilterAlpha inp w 3) w 0 0 = at2 inp w 0 0 ∧
    (∀ c, 1 ≤ c → c < w →
      at2 (unfilterAlpha inp w 3) w 0 c =
        (at2 inp w 0 c + at2 (unfilterAlpha inp w 3) w 0 (c - 1)) % 256) ∧
    (∀ r, 1 ≤ r → r < h →
      at2 (unfilterAlpha inp w 3) w r 0 =
        (at2 inp w r 0 + at2 (unfilterAlpha inp w 3) w (r - 1) 0) % 256) ∧
    (∀ r c, 1 ≤ r → r < h → 1 ≤ c → c < w →
      at2 (unfilterAlpha inp w 3) w r c =
        (at2 inp w r c +
          (clamp ((at2 (unfilterAlpha inp w 3) w r (c - 1) : Int) +
              (at2 (unfilterAlpha inp w 3) w (r - 1) c : Int) -
              (at2 (unfilterAlpha inp w 3) w (r - 1) (c - 1) : Int)) 0 255).toNat) % 256) := by
  obtain ⟨hl, hlow, _⟩ := unfilterAlpha_gradient_inv w h hw hh inp hlen
  generalize unfilterAlpha inp w 3 = out at hl hlow
  have hrow : ∀ r, r < h → r * w + w ≤ w * h := by
    intro r hr
    have h1 : (r + 1) * w ≤ h * w := Nat.mul_le_mul_right w (by omega)
    rw [Nat.succ_mul, Nat.mul_comm h w] at h1
    exact h1
  have hprev : ∀ r, 1 ≤ r → (r - 1) * w = r * w - w := by
    intro r _
    rw [Nat.sub_mul, Nat.one_mul]
  have hge : ∀ r, 1 ≤ r → w ≤ r * w := by
    intro r hr
    exact Nat.le_mul_of_pos_left w (by omega)
  refine ⟨by rw [hl, hlen], ?_, ?_, ?_, ?_⟩
  · have := hlow 0 (Nat.mul_pos (by omega) (by omega))
    unfold at2
    simp only [Nat.zero_mul, Nat.add_zero]
    rw [this]
    unfold gradPred
    rw [if_pos rfl, Nat.add_zero, Nat.mod_eq_of_lt (Fin.isLt _)]
  · intro c hc1 hcw
    have hr0 := hrow 0 (by omega)
    have := hlow c (by omega)
    unfold at2
    simp only [Nat.zero_mul, Nat.zero_add]
    rw [this]
    unfold gradPred
    rw [if_neg (by omega), if_pos hcw]
  · intro r hr1 hrh
    have hr0 := hrow r hrh
    have hg := hge r hr1
    have := hlow (r * w) (by omega)
    unfold at2
    simp only [Nat.add_zero]
    rw [this, hprev r hr1]
    unfold gradPred
    rw [if_neg (by omega), if_neg (by omega), if_pos (Nat.mul_mod_left r w)]
  · intro r c hr1 hrh hc1 hcw
    have hr0 := hrow r hrh
    have hg := hge r hr1
    have hp := hprev r hr1
    have := hlow (r * w + c) (by omega)
    have hm : (r * w + c) % w ≠ 0 := by
      rw [Nat.add_mod, Nat.mul_mod_left, Nat.zero_add, Nat.mod_mod, Nat.mod_eq_of_lt hcw]
      omega
    have e1 : r * w + c - 1 = r * w + (c - 1) := by omega
    have e2 : r * w + c - w = (r - 1) * w + c := by omega
    have e3 : r * w + c - w - 1 = (r - 1) * w + (c - 1) := by omega
    unfold at2
    rw [this]
    unfold gradPred
    rw [if_neg (by omega), if_neg (by omega), if_neg hm, e3, e2, e1]

theorem unfilterAlpha_gradient_witness :
    unfilterAlpha [10, 20, 30, 0] 2 3 = [10, 30, 40, 60] ∧
    at2 (unfilterAlpha [10, 20, 30, 0] 2 3) 2 1 1 =
      (0 + (clamp ((40 : Nat) + (30 : Nat) - (10 : Nat)) 0 255).toNat) % 256 :=
  ⟨by decide,
   (unfilterAlpha_gradient 2 2 [10, 20, 30, 0] (by decide) (by decide) (by decide)).2.2.2.2
     1 1 (by decide) (by decide) (by decide) (by decide)⟩

/-! ## TIFF: the color map -/

/-- A Byte, Short or Long entry whose value can be read is decoded by `ifdUint` into as
many values as its count says. -/
theorem ifdUint_readable (d : tiffdecoder) (e : List Byte) (h12 : e.length = 12)
    (ht : ifdType d.byteOrder e = 1 ∨ ifdType d.byteOrder e = 3 ∨ ifdType d.byteOrder e = 4)
    (hr : valueReadable d.byteOrder d.r.length e) :
    ∃ val, d.ifdUint e = .ok val ∧ val.length = ifdCount d.byteOrder e := by
  obtain ⟨hc, hv⟩ := hr
  unfold ifdType at ht hc hv
  unfold ifdCount at hc hv ⊢
  unfold ifdOffset at hv
  unfold tiffdecoder.ifdUint
  have hl : lengths.length = 6 := rfl
  rw [if_neg (by rw [h12]; decide), if_neg (by rw [hl]; omega)]
  simp only
  rw [if_neg (by omega)]
  have hM : MaxInt32 = 2147483647 := rfl
  have hlen : 0 < lengths.getD (d.byteOrder.Uint16 (slice e 2 4)) 0 := by
    rcases ht with ht | ht | ht <;> rw [ht] <;> decide
  have hprod : lengths.getD (d.byteOrder.Uint16 (slice e 2 4)) 0 *
      d.byteOrder.Uint32 (slice e 4 8) ≤ MaxInt32 := by
    rw [Nat.mul_comm]
    exact (Nat.le_div_iff_mul_le hlen).mp hc
  generalize lengths.getD (d.byteOrder.Uint16 (slice e 2 4)) 0 *
      d.byteOrder.Uint32 (slice e 4 8) = P at hv hprod
  have hP : P % 2 ^ 32 = P := Nat.mod_eq_of_lt (by omega)
  rw [hP]
  have hraw : ∃ raw, (if P > 4 then
      safeReadAt d.r P (d.byteOrder.Uint32 (slice e 8 12)) else .ok (slice e 8 (8 + P))) =
      .ok raw := by
    by_cases hi : P > 4
    · rw [if_pos hi, safeReadAt_eq _ _ _ (by omega), if_neg (by omega), if_pos (by omega)]
      exact ⟨_, rfl⟩
    · rw [if_neg hi]
      exact ⟨_, rfl⟩
  obtain ⟨raw, hraw⟩ := hraw
  rw [hraw]
  simp only
  rcases ht with ht | ht | ht
  · rw [if_pos (by rw [ht]; rfl)]
    exact ⟨_, rfl, by simp⟩
  · rw [if_neg (by rw [ht]; decide), if_pos (by rw [ht]; rfl)]
    exact ⟨_, rfl, by simp⟩
  · rw [if_neg (by rw [ht]; decide), if_neg (by rw [ht]; decide), if_pos (by rw [ht]; rfl)]
    exact ⟨_, rfl, by simp⟩

/-- `parseIFD` on a ColorMap entry whose values `ifdUint` has decoded. -/
theorem parseIFD_color_map_vals (d : tiffdecoder) (e : List Byte) (val : List Nat)
    (ht : ifdTag d.byteOrder e = tColorMap) (hv : d.ifdUint e = .ok val) :
    d.parseIFD e =
      if val.length % 3 ≠ 0 ∨ val.length / 3 ≤ 0 ∨ val.length / 3 > 256 then
        .error (.FormatError "bad ColorMap length")
      else
        .ok (tColorMap, { d with palette := (List.range (val.length / 3)).map (fun i =>
          RGBA64.mk (val.getD i 0 % 2 ^ 16) (val.getD (i + val.length / 3) 0 % 2 ^ 16)
            (val.getD (i + 2 * (val.length / 3)) 0 % 2 ^ 16) 0xffff) }) := by
  unfold ifdTag at ht
  unfold tiffdecoder.parseIFD
  simp only [hv, ht]
  rw [if_neg (by decide), if_pos trivial]

/-- C21: for a ColorMap entry (tag 320) of 12 bytes with the datatype Byte, Short or Long
and a readable value of count `c`, `parseIFD` accepts the entry exactly when `c` is
divisible by 3 and `1 ≤ c/3 ≤ 256`, and otherwise fails with
`FormatError("bad ColorMap length")`. On acceptance, with `n = c/3` and the decoded values
`val`, the palette has `n` entries, and entry `i` has red `val[i]`, green `val[i+n]` and
blue `val[i+2n]`, each truncated to 16 bits, and alpha `0xffff`; nothing else of the
decoder changes. -/
theorem parseIFD_color_map (d : tiffdecoder) (e : List Byte) (h12 : e.length = 12)
    (htag : ifdTag d.byteOrder e = tColorMap)
    (hty : ifdType d.byteOrder e = 1 ∨ ifdType d.byteOrder e = 3 ∨ ifdType d.byteOrder e = 4)
    (hr : valueReadable d.byteOrder d.r.length e) :
    ((∃ res, d.parseIFD e = .ok res) ↔
      (ifdCount d.byteOrder e % 3 = 0 ∧ 1 ≤ ifdCount d.byteOrder e / 3 ∧
        ifdCount d.byteOrder e / 3 ≤ 256)) ∧
    (¬ (ifdCount d.byteOrder e % 3 = 0 ∧ 1 ≤ ifdCount d.byteOrder e / 3 ∧
        ifdCount d.byteOrder e / 3 ≤ 256) →
      d.parseIFD e = .error (.FormatError "bad ColorMap length")) ∧
    ∃ val, d.ifdUint e = .ok val ∧ val.length = ifdCount d.byteOrder e ∧
      ((ifdCount d.byteOrder e % 3 = 0 ∧ 1 ≤ ifdCount d.byteOrder e / 3 ∧
          ifdCount d.byteOrder e / 3 ≤ 256) →
        ∃ d1, d.parseIFD e = .ok (tColorMap, d1) ∧
          d1.palette.length = ifdCount d.byteOrder e / 3 ∧
          (∀ i, i < ifdCount d.byteOrder e / 3 →
            d1.palette.get? i =
              some ⟨val.getD i 0 % 2 ^ 16,
                val.getD (i + ifdCount d.byteOrder e / 3) 0 % 2 ^ 16,
                val.getD (i + 2 * (ifdCount d.byteOrder e / 3)) 0 % 2 ^ 16, 0xffff⟩) ∧
          d1.r = d.r ∧ d1.byteOrder = d.byteOrder ∧ d1.config = d.config ∧
          d1.features = d.features) := by
  obtain ⟨val, hval, hlen⟩ := ifdUint_readable d e h12 hty hr
  have hp := parseIFD_color_map_vals d e val htag hval
  rw [hlen] at hp
  generalize ifdCount d.byteOrder e = c at hp hlen ⊢
  have hbad : ¬ (c % 3 = 0 ∧ 1 ≤ c / 3 ∧ c / 3 ≤ 256) →
      d.parseIFD e = .error (.FormatError "bad ColorMap length") := by
    intro h
    rw [hp, if_pos (by omega)]
  have hgood : (c % 3 = 0 ∧ 1 ≤ c / 3 ∧ c / 3 ≤ 256) →
      d.parseIFD e = .ok (tColorMap, { d with palette := (List.range (c / 3)).map (fun i =>
          RGBA64.mk (val.getD i 0 % 2 ^ 16) (val.getD (i + c / 3) 0 % 2 ^ 16)
            (val.getD (i + 2 * (c / 3)) 0 % 2 ^ 16) 0xffff) }) := by
    intro h
    rw [hp, if_neg (by omega)]
  refine ⟨⟨?_, fun h => ⟨_, hgood h⟩⟩, hbad, val, hval, hlen, ?_⟩
  · rintro ⟨res, hres⟩
    by_contra hc
    rw [hbad hc] at hres
    cases hres
  · intro h
    refine ⟨_, hgood h, by simp, ?_, rfl, rfl, rfl, rfl⟩
    intro i hi
    simp [List.get?_eq_getElem?, hi]

theorem parseIFD_color_map_witness :
    (∃ res, (tiffStart [] .LittleEndian).parseIFD (ifdEntryLE 320 1 3 [10, 20, 30, 0]) =
      .ok res) ∧
    (tiffStart [] .LittleEndian).parseIFD (ifdEntryLE 320 1 4 [10, 20, 30, 40]) =
      .error (.FormatError "bad ColorMap length") ∧
    (tiffStart [] .LittleEndian).parseIFD (ifdEntryLE 320 1 3 [10, 20, 30, 0]) =
      .ok (320, { tiffStart [] .LittleEndian with palette := [⟨10, 20, 30, 0xffff⟩] }) :=
  ⟨(parseIFD_color_map (tiffStart [] .LittleEndian) (ifdEntryLE 320 1 3 [10, 20, 30, 0])
      (by decide) (by decide) (by decide) (by decide)).1.mpr (by decide),
   (parseIFD_color_map (tiffStart [] .LittleEndian) (ifdEntryLE 320 1 4 [10, 20, 30, 40])
      (by decide) (by decide) (by decide) (by decide)).2.1 (by decide),
   by decide⟩

/-! ## TIFF: `ifdUint` stays within bounds -/

theorem collect_map_some {α β : Type} (l : List α) (g : α → β) :
    collect (l.map fun a => some (g a)) = some (l.map g) := by
  induction l with
  | nil => rfl
  | cons a l ih =>
    rw [List.map_cons, collect, ih]
    rfl

theorem collect_range {β : Type} (n : Nat) (f : Nat → Option β) (g : Nat → β)
    (h : ∀ i, i < n → f i = some (g i)) :
    collect ((List.range n).map f) = some ((List.range n).map g) := by
  rw [← collect_map_some]
  congr 1
  apply List.map_congr_left
  intro i hi
  exact h i (List.mem_range.mp hi)

theorem sliceChk_ok {α : Type} (b : List α) (i j : Nat) (hij : i ≤ j) (hj : j ≤ b.length) :
    sliceChk b i j = some (slice b i j) := by
  unfold sliceChk
  rw [if_pos ⟨hij, hj⟩]

theorem length_slice_gen {α : Type} (b : List α) (i j : Nat) (hj : j ≤ b.length) :
    (slice b i j).length = j - i := by
  unfold slice
  rw [List.length_take, List.length_drop]
  omega

theorem indexChk_ok {α : Type} (b : List α) (i : Nat) (a : α) (h : i < b.length) :
    indexChk b i = some (b.getD i a) := by
  unfold indexChk
  rw [List.getD_eq_getElem?_getD, List.get?_eq_getElem?, List.getElem?_eq_getElem h]
  rfl

/-- The loops of `ifdUint` over the values stay within `raw`. -/
theorem values_in_bounds (bo : ByteOrder) (dt count : Nat) (raw : List Byte)
    (hlen : raw.length = lengths.getD dt 0 * count) :
    (if dt = dtByte then
      (collect ((List.range count).map fun i =>
        (indexChk raw i).map fun c => c.val)).map fun u => Except.ok (ε := Err) u
    else if dt = dtShort then
      (collect ((List.range count).map fun i =>
        (sliceChk raw (2 * i) (2 * (i + 1))).bind fun b => bo.Uint16Chk b)).map
        fun u => .ok u
    else if dt = dtLong then
      (collect ((List.range count).map fun i =>
        (sliceChk raw (4 * i) (4 * (i + 1))).bind fun b => bo.Uint32Chk b)).map
        fun u => .ok u
    else some (.error (.UnsupportedError "data type"))) =
    some (if dt = dtByte then
      .ok ((List.range count).map fun i => (raw.getD i 0).val)
    else if dt = dtShort then
      .ok ((List.range count).map fun i => bo.Uint16 (slice raw (2 * i) (2 * (i + 1))))
    else if dt = dtLong then
      .ok ((List.range count).map fun i => bo.Uint32 (slice raw (4 * i) (4 * (i + 1))))
    else .error (.UnsupportedError "data type")) := by
  by_cases h1 : dt = dtByte
  · rw [if_pos h1, if_pos h1]
    have hl : raw.length = count := by
      rw [hlen, h1]
      show 1 * count = count
      omega
    rw [collect_range count _ (fun i => (raw.getD i 0).val) (by
      intro i hi
      rw [indexChk_ok raw i 0 (by omega)]
      rfl)]
    rfl
  · rw [if_neg h1, if_neg h1]
    by_cases h3 : dt = dtShort
    · rw [if_pos h3, if_pos h3]
      have hl : raw.length = 2 * count := by
        rw [hlen, h3]
        rfl
      rw [collect_range count _ (fun i => bo.Uint16 (slice raw (2 * i) (2 * (i + 1)))) (by
        intro i hi
        rw [sliceChk_ok raw _ _ (by omega) (by omega), Option.some_bind]
        unfold ByteOrder.Uint16Chk
        rw [if_pos (by rw [length_slice_gen raw _ _ (by omega)]; omega)])]
      rfl
    · rw [if_neg h3, if_neg h3]
      by_cases h4 : dt = dtLong
      · rw [if_pos h4, if_pos h4]
        have hl : raw.length = 4 * count := by
          rw [hlen, h4]
          rfl
        rw [collect_range count _ (fun i => bo.Uint32 (slice raw (4 * i) (4 * (i + 1)))) (by
          intro i hi
          rw [sliceChk_ok raw _ _ (by omega) (by omega), Option.some_bind]
          unfold ByteOrder.Uint32Chk
          rw [if_pos (by rw [length_slice_gen raw _ _ (by omega)]; omega)])]
        rfl
      · rw [if_neg h4, if_neg h4]

/-- The size check of `ifdUint` keeps the byte count of the value within 31 bits. -/
theorem datalen_le (dt count : Nat) (h1 : 1 ≤ dt) (h5 : dt ≤ 5)
    (hc : count ≤ MaxInt32 / lengths.getD dt 0) :
    0 < lengths.getD dt 0 ∧ lengths.getD dt 0 ≤ 8 ∧ lengths.getD dt 0 * count ≤ MaxInt32 := by
  have hpos : 0 < lengths.getD dt 0 := by
    interval_cases dt <;> decide
  have h8 : lengths.getD dt 0 ≤ 8 := by
    interval_cases dt <;> decide
  refine ⟨hpos, h8, ?_⟩
  rw [Nat.mul_comm]
  exact (Nat.le_div_iff_mul_le hpos).mp hc

/-- The bytes that `ifdUint` takes as the value are as many as the byte count says. -/
theorem raw_length (data e raw : List Byte) (off datalen : Nat) (h12 : 12 ≤ e.length)
    (h : (if datalen > 4 then safeReadAt data datalen off else .ok (slice e 8 (8 + datalen)))
      = .ok raw) : raw.length = datalen := by
  by_cases hi : datalen > 4
  · rw [if_pos hi, safeReadAt_eq _ _ _ (by omega)] at h
    split_ifs at h with h63 hfit
    cases h
    rw [length_slice_gen _ _ _ hfit]
    omega
  · rw [if_neg hi] at h
    cases h
    rw [length_slice_gen _ _ _ (by omega)]
    omega

/-- `ifdUint` runs into no panic and no overflow. -/
theorem ifdUintChk_eq (d : tiffdecoder) (p : List Byte) :
    d.ifdUintChk p = some (d.ifdUint p) := by
  unfold tiffdecoder.ifdUintChk tiffdecoder.ifdUint
  by_cases hlen : p.length < ifdLen
  · rw [if_pos hlen, if_pos hlen]
  · rw [if_neg hlen, if_neg hlen]
    have h12 : 12 ≤ p.length := by
      unfold ifdLen at hlen
      omega
    have hl : lengths.length = 6 := rfl
    rw [sliceChk_ok p 2 4 (by omega) (by omega), Option.some_bind]
    have e16 : d.byteOrder.Uint16Chk (slice p 2 4) = some (d.byteOrder.Uint16 (slice p 2 4)) := by
      unfold ByteOrder.Uint16Chk
      rw [if_pos (by rw [length_slice_gen p _ _ (by omega)])]
    rw [e16, Option.some_bind]
    simp only
    generalize d.byteOrder.Uint16 (slice p 2 4) = dt
    by_cases hdt : dt ≤ 0 ∨ dt ≥ lengths.length
    · rw [if_pos hdt, if_pos hdt]
    · rw [if_neg hdt, if_neg hdt]
      rw [hl] at hdt
      rw [sliceChk_ok p 4 8 (by omega) (by omega), Option.some_bind]
      have e32 : d.byteOrder.Uint32Chk (slice p 4 8) =
          some (d.byteOrder.Uint32 (slice p 4 8)) := by
        unfold ByteOrder.Uint32Chk
        rw [if_pos (by rw [length_slice_gen p _ _ (by omega)])]
      rw [e32, Option.some_bind, indexChk_ok lengths dt 0 (by rw [hl]; omega), Option.some_bind]
      generalize d.byteOrder.Uint32 (slice p 4 8) = count
      by_cases hc : count > MaxInt32 / lengths.getD dt 0
      · have hpos : ¬ lengths.getD dt 0 = 0 := by
          have : 1 ≤ dt ∧ dt ≤ 5 := by omega
          obtain ⟨h1, h5⟩ := this
          interval_cases dt <;> decide
        rw [if_neg hpos, if_pos hc, if_pos hc]
      · obtain ⟨hpos, h8, hprod⟩ := datalen_le dt count (by omega) (by omega) (by omega)
        have hM : MaxInt32 = 2147483647 := rfl
        rw [if_neg (by omega), if_neg hc, if_neg hc, if_neg (by omega)]
        rw [Nat.mod_eq_of_lt (by omega)]
        generalize hP : lengths.getD dt 0 * count = P at hprod
        have e8 : d.byteOrder.Uint32Chk (slice p 8 12) =
            some (d.byteOrder.Uint32 (slice p 8 12)) := by
          unfold ByteOrder.Uint32Chk
          rw [if_pos (by rw [length_slice_gen p _ _ (by omega)])]
        have hraw : (if P > 4 then
              (sliceChk p 8 12).bind fun b =>
                (d.byteOrder.Uint32Chk b).map fun off => safeReadAt d.r P off
            else (sliceChk p 8 (8 + P)).map fun b => Except.ok (ε := Err) b) =
            some (if P > 4 then safeReadAt d.r P (d.byteOrder.Uint32 (slice p 8 12))
              else .ok (slice p 8 (8 + P))) := by
          by_cases hi : P > 4
          · rw [if_pos hi, if_pos hi, sliceChk_ok p 8 12 (by omega) (by omega),
              Option.some_bind, e8]
            rfl
          · rw [if_neg hi, if_neg hi, sliceChk_ok p 8 (8 + P) (by omega) (by omega)]
            rfl
        rw [hraw, Option.some_bind]
        rcases hr : (if P > 4 then safeReadAt d.r P (d.byteOrder.Uint32 (slice p 8 12))
            else .ok (slice p 8 (8 + P))) with err | raw
        · rfl
        · have hrl := raw_length d.r p raw _ P h12 hr
          rw [← hP] at hrl
          exact values_in_bounds d.byteOrder dt count raw hrl

/-- What `safeReadAt` returns has the length that was asked for. -/
theorem safeReadAt_length (data : List Byte) (n off : Nat) (res : List Byte)
    (h : safeReadAt data n off = .ok res) : res.length = n := by
  by_cases hn : 0 < n
  · rw [safeReadAt_eq data n off hn] at h
    split_ifs at h with h63 hfit
    cases h
    rw [length_slice_gen _ _ _ hfit]
    omega
  · have h0 : n = 0 := by omega
    subst h0
    rw [safeReadAt_ok data 0 off res h]
    unfold slice
    simp

/-- The buffer of the directory is made of whole entries. -/
theorem readDirectory_length (s : List Byte) (bo : ByteOrder) (p : List Byte)
    (h : readDirectory s = .ok (bo, p)) : ∃ k, p.length = ifdLen * k := by
  unfold readDirectory at h
  split at h
  · cases h
  · simp only at h
    split at h
    · cases h
    · split at h
      · cases h
      · split at h
        · cases h
        · rename_i p2 hp2 pd hpd
          cases h
          exact ⟨_, safeReadAt_length _ _ _ _ hpd⟩

/-- The slices that the directory walk takes from a buffer of whole entries. -/
theorem ifdEntriesChk_eq (p : List Byte) (k : Nat) (h : p.length = ifdLen * k) :
    ifdEntriesChk p = some (ifdEntries p) ∧ ∀ e ∈ ifdEntries p, e.length = ifdLen := by
  have h12 : ifdLen = 12 := rfl
  rw [h12] at h
  have hk : (p.length + ifdLen - 1) / ifdLen = k := by
    rw [h12, h]
    omega
  unfold ifdEntriesChk ifdEntries
  rw [hk]
  constructor
  · apply collect_range
    intro i hi
    rw [h12]
    exact sliceChk_ok p _ _ (by omega) (by omega)
  · intro e he
    rw [List.mem_map] at he
    obtain ⟨i, hi, rfl⟩ := he
    rw [List.mem_range] at hi
    rw [h12, length_slice_gen p _ _ (by omega)]
    omega

/-- C24: for every IFD entry, byte order and stream, `ifdUint` with the run-time checks of
Go made explicit returns what `ifdUint` returns: no index or slice bound is out of range,
no divisor is zero and the product `lengths[datatype] * count` fits in 32 bits. For an
entry of 12 bytes that passes the checks on datatype and count, the datatype is below the
length of `lengths`, the product is at most `MaxInt32`, a value of at most 4 bytes is
taken from within the entry, the raw value has exactly as many bytes as the product says,
and `raw[i]`, `raw[2i : 2i+2]` and `raw[4i : 4i+4]` lie within it for every `i < count`.
Every slice that the directory walk takes lies within the directory buffer and has 12
bytes. -/
theorem ifdUint_in_bounds (d : tiffdecoder) (e : List Byte) :
    d.ifdUintChk e = some (d.ifdUint e) ∧
    (e.length = 12 → 1 ≤ ifdType d.byteOrder e → ifdType d.byteOrder e ≤ 5 →
      ifdCount d.byteOrder e ≤ MaxInt32 / lengths.getD (ifdType d.byteOrder e) 0 →
      ifdType d.byteOrder e < lengths.length ∧
      0 < lengths.getD (ifdType d.byteOrder e) 0 ∧
      lengths.getD (ifdType d.byteOrder e) 0 * ifdCount d.byteOrder e ≤ MaxInt32 ∧
      (lengths.getD (ifdType d.byteOrder e) 0 * ifdCount d.byteOrder e) % 2 ^ 32 =
        lengths.getD (ifdType d.byteOrder e) 0 * ifdCount d.byteOrder e ∧
      (lengths.getD (ifdType d.byteOrder e) 0 * ifdCount d.byteOrder e ≤ 4 →
        8 + lengths.getD (ifdType d.byteOrder e) 0 * ifdCount d.byteOrder e ≤ e.length) ∧
      ∀ raw,
        (if lengths.getD (ifdType d.byteOrder e) 0 * ifdCount d.byteOrder e > 4 then
            safeReadAt d.r (lengths.getD (ifdType d.byteOrder e) 0 * ifdCount d.byteOrder e)
              (ifdOffset d.byteOrder e)
          else
            .ok (slice e 8 (8 + lengths.getD (ifdType d.byteOrder e) 0 *
              ifdCount d.byteOrder e))) = .ok raw →
        raw.length = lengths.getD (ifdType d.byteOrder e) 0 * ifdCount d.byteOrder e ∧
        ∀ i, i < ifdCount d.byteOrder e →
          (ifdType d.byteOrder e = dtByte → i < raw.length) ∧
          (ifdType d.byteOrder e = dtShort → 2 * (i + 1) ≤ raw.length) ∧
          (ifdType d.byteOrder e = dtLong → 4 * (i + 1) ≤ raw.length)) ∧
    (∀ (data : List Byte) (bo : ByteOrder) (p : List Byte),
      readDirectory data = .ok (bo, p) →
      ifdEntriesChk p = some (ifdEntries p) ∧ ∀ e ∈ ifdEntries p, e.length = ifdLen) := by
  refine ⟨ifdUintChk_eq d e, ?_, ?_⟩
  · intro h12 h1 h5 hc
    obtain ⟨hpos, h8, hprod⟩ := datalen_le _ _ h1 h5 hc
    have hM : MaxInt32 = 2147483647 := rfl
    have hl : lengths.length = 6 := rfl
    refine ⟨by omega, hpos, hprod, Nat.mod_eq_of_lt (by omega), by omega, ?_⟩
    intro raw hraw
    have hrl := raw_length d.r e raw _ _ (by omega) hraw
    refine ⟨hrl, ?_⟩
    intro i hi
    rw [hrl]
    generalize ifdCount d.byteOrder e = count at hi ⊢
    refine ⟨fun ht => ?_, fun ht => ?_, fun ht => ?_⟩
    · rw [ht]
      show i < 1 * count
      omega
    · rw [ht]
      show 2 * (i + 1) ≤ 2 * count
      omega
    · rw [ht]
      show 4 * (i + 1) ≤ 4 * count
      omega
  · intro data bo p hdir
    obtain ⟨k, hk⟩ := readDirectory_length data bo p hdir
    exact ifdEntriesChk_eq p k hk

theorem ifdUint_in_bounds_witness :
    (tiffStart tiffLE .LittleEndian).ifdUintChk (slice tiffLE 10 22) = some (.ok [0x2010]) ∧
    ifdEntriesChk (slice tiffLE 10 34) = some [slice tiffLE 10 22, slice tiffLE 22 34] :=
  ⟨(ifdUint_in_bounds (tiffStart tiffLE .LittleEndian) (slice tiffLE 10 22)).1,
   ((ifdUint_in_bounds (tiffStart tiffLE .LittleEndian) (slice tiffLE 10 22)).2.2
      tiffLE .LittleEndian (slice tiffLE 10 34) (by decide)).1⟩

/-! ## WebP: the filters of the alpha plane can be undone -/

theorem list_ext_getD (a b : List Byte) (hlen : a.length = b.length)
    (h : ∀ j, a.getD j 0 = b.getD j 0) : a = b := by
  apply List.ext_getElem hlen
  intro n h1 h2
  have := h n
  rw [List.getD_eq_getElem _ _ h1, List.getD_eq_getElem _ _ h2] at this
  exact this

/-- A step `alpha[k] += g(alpha)` in which `g` does not look at `alpha[k]` can be undone. -/
theorem addAt_injective (k : Nat) (g : List Byte → Nat)
    (hg : ∀ a b : List Byte, (∀ j, j ≠ k → a.getD j 0 = b.getD j 0) → g a = g b)
    (a b : List Byte) (h : addAt a k (g a) = addAt b k (g b)) : a = b := by
  have hlen : a.length = b.length := by
    have := congrArg List.length h
    rw [length_addAt, length_addAt] at this
    exact this
  have hoff : ∀ j, j ≠ k → a.getD j 0 = b.getD j 0 := by
    intro j hj
    have := congrArg (fun l => l.getD j 0) h
    simp only at this
    rw [getD_addAt_ne a k _ j hj, getD_addAt_ne b k _ j hj] at this
    exact this
  have hgab := hg a b hoff
  apply list_ext_getD a b hlen
  intro j
  by_cases hj : j = k
  · subst hj
    by_cases hk : j < a.length
    · have := congrArg (fun l => (l.getD j 0).val) h
      simp only at this
      rw [getD_addAt_self a j _ hk, getD_addAt_self b j _ (by omega), hgab] at this
      apply Fin.ext
      have h1 := (a.getD j 0).isLt
      have h2 := (b.getD j 0).isLt
      omega
    · rw [List.getD_eq_default _ _ (by omega), List.getD_eq_default _ _ (by omega)]
  · exact hoff j hj

/-- A loop of steps that can be undone can be undone. -/
theorem foldl_injective {ι : Type} (f : List Byte → ι → List Byte) (l : List ι)
    (h : ∀ i ∈ l, ∀ a b, f a i = f b i → a = b) :
    ∀ a b, l.foldl f a = l.foldl f b → a = b := by
  induction l with
  | nil =>
    intro a b hab
    exact hab
  | cons i l ih =>
    intro a b hab
    rw [List.foldl_cons, List.foldl_cons] at hab
    have h1 := ih (fun j hj => h j (List.mem_cons_of_mem _ hj)) _ _ hab
    exact h i (List.mem_cons_self _ _) a b h1

/-- A loop of steps that keep the length keeps the length. -/
theorem foldl_length {ι : Type} (f : List Byte → ι → List Byte) (l : List ι)
    (h : ∀ a i, (f a i).length = a.length) : ∀ a, (l.foldl f a).length = a.length := by
  induction l with
  | nil =>
    intro a
    rfl
  | cons i l ih =>
    intro a
    rw [List.foldl_cons, ih, h]

theorem length_unfilterFirstRow (a : List Byte) (w : Nat) :
    (unfilterFirstRow a w).length = a.length := by
  unfold unfilterFirstRow
  exact foldl_length _ _ (fun a i => length_addAt a i _) a

/-- `unfilterAlpha` keeps the length of the buffer. -/
theorem length_unfilterAlpha (a : List Byte) (w m : Nat) :
    (unfilterAlpha a w m).length = a.length := by
  unfold unfilterAlpha
  split_ifs
  · rfl
  · simp only
    rw [foldl_length _ _ (fun a i => by
      rw [foldl_length _ _ (fun a j => length_addAt a _ _), length_addAt]),
      length_unfilterFirstRow]
  · simp only
    rw [foldl_length _ _ (fun a i => length_addAt a _ _), length_unfilterFirstRow]
  · simp only
    rw [foldl_length _ _ (fun a i => by
      rw [foldl_length _ _ (fun a j => length_addAt a _ _), length_addAt]),
      length_unfilterFirstRow]
  · rfl

theorem unfilterFirstRow_injective (w : Nat) (a b : List Byte)
    (h : unfilterFirstRow a w = unfilterFirstRow b w) : a = b := by
  unfold unfilterFirstRow at h
  refine foldl_injective _ _ ?_ a b h
  intro i hi a b hab
  rw [List.mem_range'_1] at hi
  exact addAt_injective i (fun a => (a.getD (i - 1) 0).val)
    (fun a b hoff => by simp only; rw [hoff (i - 1) (by omega)]) a b hab

theorem mem_rowStarts (n w i : Nat) (h : i ∈ rowStarts n w) : w ≤ i := by
  unfold rowStarts at h
  rw [List.mem_map] at h
  obtain ⟨k, hk, rfl⟩ := h
  rw [List.mem_range'_1] at hk
  exact Nat.le_mul_of_pos_right w (by omega)

/-- The step of the horizontal filter on one row can be undone. -/
theorem horizontalRow_injective (w i : Nat) (hw : 1 ≤ w) (hi : w ≤ i) (a b : List Byte)
    (h : (List.range' 1 (w - 1)).foldl
        (fun a j => addAt a (i + j) (a.getD (i + j - 1) 0).val)
        (addAt a i (a.getD (i - w) 0).val) =
      (List.range' 1 (w - 1)).foldl
        (fun a j => addAt a (i + j) (a.getD (i + j - 1) 0).val)
        (addAt b i (b.getD (i - w) 0).val)) : a = b := by
  have h1 := foldl_injective _ _ (by
    intro j hj a b hab
    rw [List.mem_range'_1] at hj
    exact addAt_injective (i + j) (fun a => (a.getD (i + j - 1) 0).val)
      (fun a b hoff => by simp only; rw [hoff (i + j - 1) (by omega)]) a b hab) _ _ h
  exact addAt_injective i (fun a => (a.getD (i - w) 0).val)
    (fun a b hoff => by simp only; rw [hoff (i - w) (by omega)]) a b h1

/-- The step of the gradient filter on one row can be undone. -/
theorem gradientRow_injective (w i : Nat) (hw : 1 ≤ w) (hi : w ≤ i) (a b : List Byte)
    (h : (List.range' 1 (w - 1)).foldl (fun a j =>
          let c : Int := (a.getD (i + j - w - 1) 0).val
          let b : Int := (a.getD (i + j - w) 0).val
          let a0 : Int := (a.getD (i + j - 1) 0).val
          let x := a0 + b - c
          let x := if x < 0 then 0 else if x > 255 then 255 else x
          addAt a (i + j) x.toNat) (addAt a i (a.getD (i - w) 0).val) =
      (List.range' 1 (w - 1)).foldl (fun a j =>
          let c : Int := (a.getD (i + j - w - 1) 0).val
          let b : Int := (a.getD (i + j - w) 0).val
          let a0 : Int := (a.getD (i + j - 1) 0).val
          let x := a0 + b - c
          let x := if x < 0 then 0 else if x > 255 then 255 else x
          addAt a (i + j) x.toNat) (addAt b i (b.getD (i - w) 0).val)) : a = b := by
  have h1 := foldl_injective _ _ (by
    intro j hj a b hab
    rw [List.mem_range'_1] at hj
    exact addAt_injective (i + j) (fun a =>
        let c : Int := (a.getD (i + j - w - 1) 0).val
        let b : Int := (a.getD (i + j - w) 0).val
        let a0 : Int := (a.getD (i + j - 1) 0).val
        let x := a0 + b - c
        let x := if x < 0 then 0 else if x > 255 then 255 else x
        x.toNat)
      (fun a b hoff => by
        simp only
        rw [hoff (i + j - w - 1) (by omega), hoff (i + j - w) (by omega),
          hoff (i + j - 1) (by omega)]) a b hab) _ _ h
  exact addAt_injective i (fun a => (a.getD (i - w) 0).val)
    (fun a b hoff => by simp only; rw [hoff (i - w) (by omega)]) a b h1

/-- Two buffers that `unfilterAlpha` turns into the same buffer are equal. -/
theorem unfilterAlpha_injective (w m : Nat) (a b : List Byte)
    (h : unfilterAlpha a w m = unfilterAlpha b w m) : a = b := by
  have hlen : a.length = b.length := by
    have := congrArg List.length h
    rw [length_unfilterAlpha, length_unfilterAlpha] at this
    exact this
  unfold unfilterAlpha at h
  by_cases h0 : a.length = 0 ∨ w = 0
  · rw [if_pos h0, if_pos (by rw [← hlen]; exact h0)] at h
    exact h
  · have h0b : ¬ (b.length = 0 ∨ w = 0) := by rw [← hlen]; exact h0
    rw [if_neg h0, if_neg h0b] at h
    have hw : 1 ≤ w := by omega
    simp only [length_unfilterFirstRow, ← hlen] at h
    by_cases h1 : m = 1
    · rw [if_pos h1, if_pos h1] at h
      apply unfilterFirstRow_injective w
      refine foldl_injective _ _ ?_ _ _ h
      intro i hi a b hab
      exact horizontalRow_injective w i hw (mem_rowStarts _ _ _ hi) a b hab
    · rw [if_neg h1, if_neg h1] at h
      by_cases h2 : m = 2
      · rw [if_pos h2, if_pos h2] at h
        apply unfilterFirstRow_injective w
        refine foldl_injective _ _ ?_ _ _ h
        intro i hi a b hab
        rw [List.mem_range'_1] at hi
        exact addAt_injective i (fun a => (a.getD (i - w) 0).val)
          (fun a b hoff => by simp only; rw [hoff (i - w) (by omega)]) a b hab
      · rw [if_neg h2, if_neg h2] at h
        by_cases h3 : m = 3
        · rw [if_pos h3, if_pos h3] at h
          apply unfilterFirstRow_injective w
          refine foldl_injective _ _ ?_ _ _ h
          intro i hi a b hab
          exact gradientRow_injective w i hw (mem_rowStarts _ _ _ hi) a b hab
        · rw [if_neg h3, if_neg h3] at h
          exact h

/-- Every buffer is what `unfilterAlpha` makes of a buffer of the same length. -/
theorem unfilterAlpha_surjective (w m : Nat) (out : List Byte) :
    ∃ inp : List Byte, inp.length = out.length ∧ unfilterAlpha inp w m = out := by
  have hfin : Finite { l : List Byte // l.length = out.length } :=
    (inferInstance : Finite (Mathlib.Vector Byte out.length))
  have hinj : Function.Injective
      (fun v : { l : List Byte // l.length = out.length } =>
        (⟨unfilterAlpha v.1 w m, by rw [length_unfilterAlpha, v.2]⟩ :
          { l : List Byte // l.length = out.length })) := by
    intro u v huv
    apply Subtype.ext
    exact unfilterAlpha_injective w m u.1 v.1 (congrArg Subtype.val huv)
  obtain ⟨v, hv⟩ := Finite.surjective_of_injective hinj ⟨out, rfl⟩
  exact ⟨v.1, v.2, congrArg Subtype.val hv⟩

/-- C22: for every filter mode and every stride, `unfilterAlpha` keeps the length of the
buffer and is injective: two different filtered buffers never unfilter to the same alpha
plane. On the buffers of each length, those of length `w * h` among them, it is a
bijection, so there is a forward filter that `unfilterAlpha` exactly inverts. Mode 0, an
empty buffer and a zero stride leave the buffer unchanged. -/
theorem unfilterAlpha_bijective (w filter : Nat) :
    (∀ a b : List Byte, unfilterAlpha a w filter = unfilterAlpha b w filter → a = b) ∧
    (∀ a : List Byte, (unfilterAlpha a w filter).length = a.length) ∧
    (∀ out : List Byte, ∃ inp : List Byte,
      inp.length = out.length ∧ unfilterAlpha inp w filter = out) ∧
    (∀ h : Nat, Set.BijOn (fun a => unfilterAlpha a w filter)
      {a : List Byte | a.length = w * h} {a : List Byte | a.length = w * h}) ∧
    (∃ forward : List Byte → List Byte, ∀ a : List Byte,
      (forward a).length = a.length ∧ unfilterAlpha (forward a) w filter = a ∧
        forward (unfilterAlpha a w filter) = a) ∧
    (∀ a : List Byte, unfilterAlpha a w 0 = a) ∧
    unfilterAlpha [] w filter = [] ∧
    (∀ a : List Byte, unfilterAlpha a 0 filter = a) := by
  have hinj := unfilterAlpha_injective w filter
  have hsurj := unfilterAlpha_surjective w filter
  refine ⟨hinj, fun a => length_unfilterAlpha a w filter, hsurj, ?_, ?_, ?_, ?_, ?_⟩
  · intro h
    refine ⟨?_, ?_, ?_⟩
    · intro a ha
      show (unfilterAlpha a w filter).length = w * h
      rw [length_unfilterAlpha]
      exact ha
    · intro a _ b _ hab
      exact hinj a b hab
    · intro out hout
      obtain ⟨inp, hlen, hinp⟩ := hsurj out
      exact ⟨inp, hlen.trans hout, hinp⟩
  · choose forward hlen hfw using hsurj
    refine ⟨forward, fun a => ⟨hlen a, hfw a, ?_⟩⟩
    exact hinj _ _ (hfw (unfilterAlpha a w filter))
  · intro a
    unfold unfilterAlpha
    by_cases h0 : a.length = 0 ∨ w = 0
    · rw [if_pos h0]
    · rw [if_neg h0, if_neg (by decide), if_neg (by decide), if_neg (by decide)]
  · unfold unfilterAlpha
    rw [if_pos (Or.inl List.length_nil)]
  · intro a
    unfold unfilterAlpha
    rw [if_pos (Or.inr rfl)]

theorem unfilterAlpha_bijective_witness :
    unfilterAlpha [10, 20, 30, 0] 2 3 ≠ unfilterAlpha [10, 20, 30, 1] 2 3 ∧
    ∃ inp : List Byte, inp.length = 4 ∧ unfilterAlpha inp 2 3 = [10, 30, 40, 60] :=
  ⟨fun h => absurd ((unfilterAlpha_bijective 2 3).1 [10, 20, 30, 0] [10, 20, 30, 1] h)
      (by decide),
   (unfilterAlpha_bijective 2 3).2.2.1 [10, 30, 40, 60]⟩

/-! ## WebP: the chunk loop terminates -/

theorem u32_lt (b : List Byte) : u32 b < 2 ^ 32 := by
  unfold u32
  rw [or_shl4 _ _ _ _ (Fin.isLt _) (Fin.isLt _) (Fin.isLt _)]
  have h0 := (b.getD 0 0).isLt
  have h1 := (b.getD 1 0).isLt
  have h2 := (b.getD 2 0).isLt
  have h3 := (b.getD 3 0).isLt
  omega

theorem subU32_lt (a b : Nat) : subU32 a b < 2 ^ 32 := by
  unfold subU32
  exact Nat.mod_lt _ (by decide)

/-- A `Read` through the chunk reader of a reader without a recorded error. -/
theorem chunkReader_Read_none (r : List Byte) (T cl : Nat) (p : Bool) (k : Nat)
    (h32 : T < 2 ^ 32) (hcl : cl ≤ T) :
    ∃ l e, l ≤ k ∧ l ≤ cl ∧ (chunkReader_Read ⟨r, none, T, cl, p⟩ k).1.1.length = l ∧
      (chunkReader_Read ⟨r, none, T, cl, p⟩ k).1.2 = e ∧
      (e = none ∨ e = some .EOF) ∧
      (chunkReader_Read ⟨r, none, T, cl, p⟩ k).2 = ⟨r.drop l, none, T - l, cl - l, p⟩ := by
  unfold chunkReader_Read
  simp only
  by_cases h0 : cl = 0
  · rw [if_pos h0]
    refine ⟨0, some .EOF, Nat.zero_le _, Nat.zero_le _, rfl, rfl, Or.inr rfl, ?_⟩
    simp only [List.drop_zero, Nat.sub_zero]
  · rw [if_neg h0]
    unfold readerRead
    by_cases hr : r.length = 0
    · rw [if_pos hr]
      refine ⟨0, some .EOF, Nat.zero_le _, Nat.zero_le _, rfl, rfl, Or.inr rfl, ?_⟩
      have e1 : subU32 T 0 = T := subU32_eq _ _ (Nat.zero_le _) h32
      have e2 : subU32 cl 0 = cl := subU32_eq _ _ (Nat.zero_le _) (by omega)
      simp only [List.length_nil, List.drop_zero, Nat.sub_zero, e1, e2, ne_eq,
        not_true_eq_false, if_false]
    · rw [if_neg hr]
      generalize hn : (if cl > k then k else cl) = n
      have hnk : n ≤ k := by rw [← hn]; split <;> omega
      have hnc : n ≤ cl := by rw [← hn]; split <;> omega
      have hl : (List.take n r).length ≤ n := by
        rw [List.length_take]
        exact Nat.min_le_left _ _
      refine ⟨(List.take n r).length, none, by omega, by omega, rfl, rfl, Or.inl rfl, ?_⟩
      have e1 : subU32 T (List.take n r).length = T - (List.take n r).length :=
        subU32_eq _ _ (by omega) h32
      have e2 : subU32 cl (List.take n r).length = cl - (List.take n r).length :=
        subU32_eq _ _ (by omega) (by omega)
      simp only [e1, e2, ne_eq, not_false_eq_true, if_true, reduceCtorEq]

/-- A `Read` through the chunk reader of a reader with a recorded error changes nothing. -/
theorem chunkReader_Read_some (r : List Byte) (e : Err) (T cl : Nat) (p : Bool) (k : Nat) :
    chunkReader_Read ⟨r, some e, T, cl, p⟩ k =
      (([], some (if e = .EOF then .errStaleReader else e)), ⟨r, some e, T, cl, p⟩) := rfl

/-- Draining the chunk of a reader without a recorded error. -/
theorem copyDiscardChunk_none (r : List Byte) (T cl : Nat) (p : Bool)
    (h32 : T < 2 ^ 32) (hcl : cl ≤ T) :
    ∃ got, got ≤ cl ∧
      copyDiscardChunk ⟨r, none, T, cl, p⟩ =
        ((got, none), ⟨r.drop got, none, T - got, cl - got, p⟩) := by
  obtain ⟨l1, e1, _, hl1, hlen1, he1, hor1, hz1⟩ := chunkReader_Read_none r T cl p cl h32 hcl
  unfold copyDiscardChunk
  rcases hr1 : chunkReader_Read ⟨r, none, T, cl, p⟩ cl with ⟨⟨bs, e⟩, z1⟩
  rw [hr1] at hlen1 he1 hz1
  simp only at hlen1 he1 hz1
  subst hz1 he1
  rcases hor1 with hn | hs
  · subst hn
    simp only
    obtain ⟨l2, e2, _, hl2, hlen2, he2, hor2, hz2⟩ :=
      chunkReader_Read_none (r.drop l1) (T - l1) (cl - l1) p (cl - l1) (by omega) (by omega)
    rcases hr2 : chunkReader_Read ⟨r.drop l1, none, T - l1, cl - l1, p⟩ (cl - l1) with
      ⟨⟨bs2, e2b⟩, z2⟩
    rw [hr2] at hlen2 he2 hz2
    simp only at hlen2 he2 hz2
    subst hz2 he2
    refine ⟨l1 + l2, by omega, ?_⟩
    have hd : List.drop l2 (List.drop l1 r) = List.drop (l1 + l2) r := by
      rw [List.drop_drop, Nat.add_comm]
    have ht : T - l1 - l2 = T - (l1 + l2) := by omega
    have hc : cl - l1 - l2 = cl - (l1 + l2) := by omega
    rcases hor2 with hn2 | hs2
    · subst hn2
      simp only [hlen1, hlen2, hd, ht, hc]
    · subst hs2
      simp only [hlen1, hlen2, hd, ht, hc, if_true]
  · subst hs
    simp only [if_true, hlen1]
    exact ⟨l1, hl1, rfl⟩

/-- What `next` returns, and the reader it leaves, when no chunk data is pending. -/
theorem next_drained (r : List Byte) (T : Nat) (p : Bool) (res : Except Err (fourCC × Nat))
    (z1 : webpeader) (h : webpeader.next ⟨r, none, T, 0, p⟩ = (res, z1)) :
    z1.totalLen ≤ T ∧
    (∀ id len, res = .ok (id, len) →
      z1.err = none ∧ z1.chunkLen = len ∧ len ≤ z1.totalLen ∧ z1.totalLen + 8 ≤ T) ∧
    (∀ e, res = .error e → z1.err = some e) := by
  have herr : ∀ (e0 : Err) (z0 : webpeader), (Except.error e0, z0) = (res, z1) →
      z0.totalLen ≤ T → z0.err = some e0 →
      z1.totalLen ≤ T ∧
      (∀ id len, res = .ok (id, len) →
        z1.err = none ∧ z1.chunkLen = len ∧ len ≤ z1.totalLen ∧ z1.totalLen + 8 ≤ T) ∧
      (∀ e, res = .error e → z1.err = some e) := by
    intro e0 z0 heq hT he
    cases heq
    refine ⟨hT, fun id len hc => (by cases hc), fun e hc => ?_⟩
    cases hc
    exact he
  unfold webpeader.next at h
  simp only [ne_eq, not_true_eq_false, if_false] at h
  split at h
  · rename_i e z2 hz2
    split at hz2
    · split at hz2
      · cases hz2
        exact herr _ _ h (le_refl _) rfl
      · split at hz2
        · cases hz2
          exact herr _ _ h (Nat.sub_le _ _) rfl
        · cases hz2
    · cases hz2
  · rename_i u z2 hz2
    have hz : z2.totalLen ≤ T ∧ z2.err = none ∧ z2.chunkLen = 0 := by
      split at hz2
      · split at hz2
        · cases hz2
        · split at hz2
          · cases hz2
          · cases hz2
            exact ⟨Nat.sub_le _ _, rfl, rfl⟩
      · cases hz2
        exact ⟨le_refl _, rfl, rfl⟩
    obtain ⟨hT, hnone, hcl⟩ := hz
    clear hz2
    split_ifs at h with h0 h8
    · exact herr _ _ h hT rfl
    · exact herr _ _ h hT rfl
    · split at h
      · exact herr _ _ h (le_trans (Nat.sub_le _ _) hT) rfl
      · split_ifs at h with hlong
        · exact herr _ _ h (le_trans (Nat.sub_le _ _) hT) rfl
        · cases h
          simp only [chunkHeaderSize] at h8 hlong
          refine ⟨?_, fun id len hc => ?_, fun e hc => (by cases hc)⟩
          · dsimp only [chunkHeaderSize]
            omega
          · cases hc
            refine ⟨hnone, rfl, ?_, ?_⟩
            all_goals
              dsimp only [chunkHeaderSize]
              omega

/-- With the chunk drained, `next` goes on as from a reader without pending data. -/
theorem next_after_drain (r : List Byte) (T cl : Nat) (p : Bool) (h32 : T < 2 ^ 32)
    (hcl : cl ≤ T) (hc0 : cl ≠ 0)
    (hcopy : copyDiscardChunk ⟨r, none, T, cl, p⟩ =
      ((cl, none), ⟨r.drop cl, none, T - cl, cl - cl, p⟩)) :
    webpeader.next ⟨r, none, T, cl, p⟩ = webpeader.next ⟨r.drop cl, none, T - cl, 0, p⟩ := by
  have hm : cl % 2 ^ 32 = cl := Nat.mod_eq_of_lt (by omega)
  unfold webpeader.next
  simp only [ne_eq, hc0, not_false_eq_true, if_true, hcopy, hm, not_true_eq_false, and_false,
    if_false, Nat.sub_self]

/-- When the chunk cannot be drained, `next` records the short chunk data. -/
theorem next_short_drain (r : List Byte) (T cl got : Nat) (p : Bool) (h32 : T < 2 ^ 32)
    (hcl : cl ≤ T) (hgot : got ≤ cl) (hne : got ≠ cl)
    (hcopy : copyDiscardChunk ⟨r, none, T, cl, p⟩ =
      ((got, none), ⟨r.drop got, none, T - got, cl - got, p⟩)) :
    webpeader.next ⟨r, none, T, cl, p⟩ =
      (.error .errShortChunkData,
        ⟨r.drop got, some .errShortChunkData, T - got, cl - got, p⟩) := by
  have hm : got % 2 ^ 32 = got := Nat.mod_eq_of_lt (by omega)
  have hc0 : cl ≠ 0 := by omega
  unfold webpeader.next
  simp only [ne_eq, hc0, not_false_eq_true, if_true, hcopy, hm, hne, and_self]

/-- What `next` returns, and the reader it leaves, from a reader without a recorded
error. -/
theorem next_none (r : List Byte) (T cl : Nat) (p : Bool) (h32 : T < 2 ^ 32) (hcl : cl ≤ T)
    (res : Except Err (fourCC × Nat)) (z1 : webpeader)
    (h : webpeader.next ⟨r, none, T, cl, p⟩ = (res, z1)) :
    z1.totalLen ≤ T ∧
    (∀ id len, res = .ok (id, len) →
      z1.err = none ∧ z1.chunkLen = len ∧ len ≤ z1.totalLen ∧ z1.totalLen + 8 ≤ T) ∧
    (∀ e, res = .error e → z1.err = some e) := by
  by_cases hc0 : cl = 0
  · subst hc0
    exact next_drained r T p res z1 h
  · obtain ⟨got, hgot, hcopy⟩ := copyDiscardChunk_none r T cl p h32 hcl
    by_cases hg : got = cl
    · subst hg
      rw [next_after_drain r T got p h32 hcl hc0 (by rw [Nat.sub_self] at hcopy ⊢; exact hcopy)]
        at h
      obtain ⟨h1, h2, h3⟩ := next_drained _ _ _ res z1 h
      refine ⟨le_trans h1 (Nat.sub_le _ _), fun id len hc => ?_, h3⟩
      obtain ⟨g1, g2, g3, g4⟩ := h2 id len hc
      exact ⟨g1, g2, g3, by omega⟩
    · rw [next_short_drain r T cl got p h32 hcl hgot hg hcopy] at h
      cases h
      refine ⟨Nat.sub_le _ _, fun id len hc => (by cases hc), fun e hc => ?_⟩
      cases hc
      rfl

/-- Once an error is recorded, `next` returns it and changes nothing. -/
theorem next_some (z : webpeader) (e : Err) (h : z.err = some e) : z.next = (.error e, z) := by
  obtain ⟨r, err, T, cl, p⟩ := z
  simp only at h
  subst h
  rfl

/-- A call of `next` keeps the invariant and never makes the container longer; when it
returns a chunk, the container has become shorter by the chunk header at least. -/
theorem next_inv (z : webpeader) (h : readerInv z) :
    readerInv z.next.2 ∧ z.next.2.totalLen ≤ z.totalLen ∧
    (∀ id len, z.next.1 = .ok (id, len) →
      z.next.2.err = none ∧ z.next.2.chunkLen = len ∧ len ≤ z.next.2.totalLen ∧
        z.next.2.totalLen + 8 ≤ z.totalLen) ∧
    (∀ e, z.next.1 = .error e → z.next.2.err = some e) := by
  obtain ⟨r, err, T, cl, p⟩ := z
  obtain ⟨h32, hcl⟩ := h
  simp only at h32 hcl
  cases err with
  | some e =>
    rw [next_some ⟨r, some e, T, cl, p⟩ e rfl]
    refine ⟨⟨h32, fun hc => by cases hc⟩, le_refl _, fun id len hc => (by cases hc),
      fun e2 hc => ?_⟩
    cases hc
    rfl
  | none =>
    obtain ⟨h1, h2, h3⟩ := next_none r T cl p h32 (hcl rfl)
      (webpeader.next ⟨r, none, T, cl, p⟩).1 (webpeader.next ⟨r, none, T, cl, p⟩).2 rfl
    refine ⟨⟨lt_of_le_of_lt h1 h32, fun hnone => ?_⟩, h1, h2, h3⟩
    rcases hres : (webpeader.next ⟨r, none, T, cl, p⟩).1 with e | ⟨id, len⟩
    · rw [h3 e hres] at hnone
      cases hnone
    · obtain ⟨_, g2, g3, _⟩ := h2 id len hres
      rw [g2]
      exact g3

/-- A `Read` through the chunk reader keeps the invariant; while no error is recorded it
takes the bytes it returns off the chunk and off the container, and neither subtraction
wraps around. -/
theorem chunkReader_Read_inv (z : webpeader) (k : Nat) (h : readerInv z) :
    readerInv (chunkReader_Read z k).2 ∧
    (chunkReader_Read z k).2.totalLen ≤ z.totalLen ∧
    (z.err = none →
      (chunkReader_Read z k).2.totalLen + (chunkReader_Read z k).1.1.length = z.totalLen ∧
      (chunkReader_Read z k).2.chunkLen + (chunkReader_Read z k).1.1.length = z.chunkLen) := by
  obtain ⟨r, err, T, cl, p⟩ := z
  obtain ⟨h32, hcl⟩ := h
  simp only at h32 hcl
  cases err with
  | some e =>
    rw [chunkReader_Read_some]
    exact ⟨⟨h32, fun hc => by cases hc⟩, le_refl _, fun hc => by cases hc⟩
  | none =>
    obtain ⟨l, e, _, hl, hlen, _, _, hz⟩ := chunkReader_Read_none r T cl p k h32 (hcl rfl)
    have hc := hcl rfl
    rw [hz, hlen]
    refine ⟨⟨?_, fun _ => ?_⟩, ?_, fun _ => ⟨?_, ?_⟩⟩
    all_goals
      dsimp only
      omega

/-- `io.ReadFull` on the chunk reader keeps the invariant. -/
theorem ReadFullChunk_inv (z : webpeader) (k : Nat) (h : readerInv z) :
    readerInv (ReadFullChunk z k).2 ∧ (ReadFullChunk z k).2.totalLen ≤ z.totalLen := by
  unfold ReadFullChunk
  by_cases hk : k = 0
  · rw [if_pos hk]
    exact ⟨h, le_refl _⟩
  · rw [if_neg hk]
    obtain ⟨h1, h2, _⟩ := chunkReader_Read_inv z k h
    rcases hr : chunkReader_Read z k with ⟨⟨bs, e⟩, z1⟩
    rw [hr] at h1 h2
    simp only at h1 h2
    cases e with
    | some e =>
      simp only
      split_ifs <;> exact ⟨h1, h2⟩
    | none =>
      simp only
      split_ifs
      · exact ⟨h1, h2⟩
      · obtain ⟨g1, g2, _⟩ := chunkReader_Read_inv z1 (k - bs.length) h1
        rcases hr2 : chunkReader_Read z1 (k - bs.length) with ⟨⟨bs2, e2⟩, z2⟩
        rw [hr2] at g1 g2
        simp only at g1 g2
        cases e2 with
        | some e2 =>
          simp only
          split_ifs <;> exact ⟨g1, le_trans g2 h2⟩
        | none => exact ⟨g1, le_trans g2 h2⟩

/-- `readAlpha` keeps the invariant. -/
theorem readAlpha_inv (dec : List Byte → Except Err (List Byte) × Nat) (z : webpeader)
    (w h c : Nat) (hz : readerInv z) :
    readerInv (readAlpha dec z w h c).2 ∧ (readAlpha dec z w h c).2.totalLen ≤ z.totalLen := by
  unfold readAlpha
  split_ifs
  · simp only
    have := ReadFullChunk_inv z ((w + 1) * (h + 1)) hz
    rcases hr : ReadFullChunk z ((w + 1) * (h + 1)) with ⟨res, z1⟩
    rw [hr] at this
    cases res <;> exact this
  · exact ⟨hz, le_refl _⟩
  · simp only
    split
    · next e taken _ =>
      have := chunkReader_Read_inv z taken hz
      exact ⟨this.1, this.2.1⟩
    · next pix taken _ =>
      have := chunkReader_Read_inv z taken hz
      exact ⟨this.1, this.2.1⟩
  · exact ⟨hz, le_refl _⟩

/-- The loop of `decodewebp` returns whenever the fuel exceeds `totalLen / 8`. -/
theorem decodewebpLoop_ne_none (dec : List Byte → Except Err (List Byte) × Nat) :
    ∀ (fuel : Nat) (z : webpeader) (v : webpVars), readerInv z → z.totalLen / 8 < fuel →
      decodewebpLoop dec fuel z v ≠ none := by
  intro fuel
  induction fuel with
  | zero =>
    intro z v _ hf
    omega
  | succ fuel ih =>
    intro z v hz hf h
    obtain ⟨hi1, hi2, hi3, _⟩ := next_inv z hz
    rcases hn : z.next with ⟨res, z1⟩
    rw [hn] at hi1 hi2 hi3
    simp only at hi1 hi2 hi3
    rw [decodewebpLoop, hn] at h
    cases res with
    | error e => cases h
    | ok pr =>
      obtain ⟨id, len⟩ := pr
      obtain ⟨_, _, _, hdec⟩ := hi3 id len rfl
      have hfuel : z1.totalLen / 8 < fuel := by omega
      simp only at h
      split_ifs at h
      · have hr := ReadFullChunk_inv z1 1 hi1
        split at h
        · cases h
        · rename_i buf z2 hrf
          rw [hrf] at hr
          simp only at hr h
          have ha := readAlpha_inv dec z2 v.widthMinusOne v.heightMinusOne
            ((buf.getD 0 0).val &&& 0x03) hr.1
          split at h
          · cases h
          · rename_i alpha stride z3 hra
            rw [hra] at ha
            have h3 : z3.totalLen ≤ z2.totalLen := ha.2
            have h2 : z2.totalLen ≤ z1.totalLen := hr.2
            exact ih z3 _ ha.1 (by omega) h
      · split at h <;> cases h
      · split at h <;> cases h
      · split at h
        · cases h
        · split_ifs at h
      · exact ih z1 v hi1 hfuel h

/-- `decodewebp` always returns. -/
theorem decodewebp_ne_none (dec : List Byte → Except Err (List Byte) × Nat) (r : List Byte) :
    decodewebp dec r ≠ none := by
  intro h
  unfold decodewebp at h
  split at h
  · cases h
  · rename_i ft z hnr
    split_ifs at h
    refine decodewebpLoop_ne_none dec _ z _ ?_ ?_ h
    · unfold newReader at hnr
      split at hnr
      · cases hnr
      · split_ifs at hnr
        unfold newListReader at hnr
        split_ifs at hnr
        split at hnr
        · cases hnr
        · cases hnr
          exact ⟨lt_of_le_of_lt (Nat.sub_le _ _) (u32_lt _), fun _ => Nat.zero_le _⟩
    · dsimp only [chunkHeaderSize]
      omega

/-- C23, as stated, fails: the container `RIFF 12 WEBP` that holds only the header of a
chunk declaring 100 bytes is opened with `chunkLen = 0 ≤ totalLen = 8`, and the call of
`next` that reads the header records `errListSubchunkTooLong` and leaves
`chunkLen = 100 > totalLen = 0`. And after end-of-container is recorded, a `Read` through
a chunk reader, stale or not, returns `errStaleReader`, not `io.EOF`. -/
theorem next_too_long_breaks_invariant :
    newReader (riffHeader 12 ++ tooLongHeader) = .ok (fccWEBP, readerTooLong) ∧
    readerTooLong.chunkLen ≤ readerTooLong.totalLen ∧
    readerTooLong.next.1 = .error .errListSubchunkTooLong ∧
    readerTooLong.next.2.chunkLen = 100 ∧ readerTooLong.next.2.totalLen = 0 ∧
    ¬ (readerTooLong.next.2.chunkLen ≤ readerTooLong.next.2.totalLen) ∧
    (webpeader.next ⟨[], none, 0, 0, false⟩).2.err = some .EOF ∧
    (∀ stale : Bool,
      (chunkReader_ReadAny stale (webpeader.next ⟨[], none, 0, 0, false⟩).2 1).1.2 =
        some .errStaleReader) := by
  decide

/-- C23, amended: the chunk loop of `decodewebp` terminates on every input. For a reader
with `totalLen < 2^32` on which, while no error is recorded, `chunkLen ≤ totalLen`:
`next` and `chunkReader.Read` keep this invariant and never increase `totalLen`; a call of
`next` that returns a chunk leaves no error recorded, `chunkLen` equal to the declared
length and at most `totalLen`, and `totalLen` lower by 8 at least; a `Read` with no error
recorded takes exactly the bytes it returns, none through a stale reader, off `chunkLen`
and `totalLen`, without wrap-around; an error that `next` returns is
recorded, every later call of `next` returns it and changes nothing, and every later `Read`
reads nothing, changes nothing and returns `errStaleReader` when its reader is stale or
the recorded error is `io.EOF`, and the recorded error otherwise; the loop returns a
`Size` or an error within `totalLen / 8 + 1` calls of `next`. The reader that `newReader`
opens has the invariant, and `decodewebp` returns on every stream. -/
theorem decodewebp_chunk_loop_terminates (dec : List Byte → Except Err (List Byte) × Nat)
    (z : webpeader) (hz : readerInv z) :
    (readerInv z.next.2 ∧ z.next.2.totalLen ≤ z.totalLen) ∧
    (∀ id len, z.next.1 = .ok (id, len) →
      z.next.2.err = none ∧ z.next.2.chunkLen = len ∧ len ≤ z.next.2.totalLen ∧
        z.next.2.totalLen + chunkHeaderSize ≤ z.totalLen) ∧
    (∀ e, z.next.1 = .error e →
      z.next.2.err = some e ∧ z.next.2.next = (.error e, z.next.2) ∧
      ∀ (stale : Bool) (k : Nat), chunkReader_ReadAny stale z.next.2 k =
        (([], some (if stale = true ∨ e = .EOF then .errStaleReader else e)), z.next.2)) ∧
    (∀ (stale : Bool) (k : Nat), readerInv (chunkReader_ReadAny stale z k).2 ∧
      (z.err = none →
        (chunkReader_ReadAny stale z k).2.totalLen +
          (chunkReader_ReadAny stale z k).1.1.length = z.totalLen ∧
        (chunkReader_ReadAny stale z k).2.chunkLen +
          (chunkReader_ReadAny stale z k).1.1.length = z.chunkLen)) ∧
    (∀ fuel v, z.totalLen / chunkHeaderSize < fuel →
      ∃ res, decodewebpLoop dec fuel z v = some res) ∧
    (∀ r, (∃ res, decodewebp dec r = some res) ∧
      ∀ ft z0, newReader r = .ok (ft, z0) → readerInv z0) := by
  obtain ⟨h1, h2, h3, h4⟩ := next_inv z hz
  refine ⟨⟨h1, h2⟩, h3, fun e he => ?_, fun stale k => ?_, fun fuel v hf => ?_,
    fun r => ⟨?_, ?_⟩⟩
  · have hrec := h4 e he
    refine ⟨hrec, next_some _ e hrec, fun stale k => ?_⟩
    generalize z.next.2 = z1 at hrec
    obtain ⟨r1, err1, T1, cl1, p1⟩ := z1
    simp only at hrec
    subst hrec
    unfold chunkReader_ReadAny
    cases stale with
    | true => rfl
    | false =>
      rw [if_neg (by decide), chunkReader_Read_some]
      by_cases he : e = .EOF
      · rw [if_pos he, if_pos (Or.inr he)]
      · rw [if_neg he, if_neg (by
          rintro (h | h)
          · cases h
          · exact he h)]
  · unfold chunkReader_ReadAny
    cases stale with
    | true =>
      rw [if_pos rfl]
      exact ⟨hz, fun _ => ⟨rfl, rfl⟩⟩
    | false =>
      rw [if_neg (by decide)]
      obtain ⟨g1, _, g3⟩ := chunkReader_Read_inv z k hz
      exact ⟨g1, g3⟩
  · have hne := decodewebpLoop_ne_none dec fuel z v hz hf
    rcases hl : decodewebpLoop dec fuel z v with _ | res
    · exact absurd hl hne
    · exact ⟨res, rfl⟩
  · have hne := decodewebp_ne_none dec r
    rcases hl : decodewebp dec r with _ | res
    · exact absurd hl hne
    · exact ⟨res, rfl⟩
  · intro ft z0 hnr
    unfold newReader at hnr
    split at hnr
    · cases hnr
    · split_ifs at hnr
      unfold newListReader at hnr
      split_ifs at hnr
      split at hnr
      · cases hnr
      · cases hnr
        exact ⟨lt_of_le_of_lt (Nat.sub_le _ _) (u32_lt _), fun _ => Nat.zero_le _⟩

theorem decodewebp_chunk_loop_terminates_witness :
    readerInv readerICCP ∧
    readerICCP.next.1 = .ok (iccpChunk.id, 3) ∧
    readerICCP.next.2.totalLen + chunkHeaderSize ≤ readerICCP.totalLen ∧
    (∃ res, decodewebpLoop vp8lReject 2 readerICCP ⟨none, 0, false, 0, 0⟩ = some res) ∧
    decodewebpLoop vp8lReject 2 readerICCP ⟨none, 0, false, 0, 0⟩ =
      some (.error .errInvalidFormat) :=
  ⟨by decide, by decide,
   ((decodewebp_chunk_loop_terminates vp8lReject readerICCP (by decide)).2.1
      iccpChunk.id 3 (by decide)).2.2.2,
   (decodewebp_chunk_loop_terminates vp8lReject readerICCP (by decide)).2.2.2.2.1 2
      ⟨none, 0, false, 0, 0⟩ (by decide),
   by decide⟩

end Imgsz
